import Mathlib

/-!
Verification of the sparse direct linear-solver core of LASAGNA
(`src/tools/sparse.c`): a shallow embedding of the CSC data model, the
DFS-based reachability, the left-looking LU factorization `sp_ludcmp`,
the refactorization `sp_refactor` / `sp_refactor_cx`, the symmetrized
pattern builder `get_pattern_A_plus_AT` and the greedy column groupers
`column_grouping` / `column_grouping2`, together with proofs of the
behavioural properties stated in the specification.

C `int` arrays are embedded as total functions `ℤ → ℤ` (indexing
mirrors the C pointer arithmetic; all indices that the C code may
legally touch stay small, so overflow is irrelevant), `double` arrays
as `ℤ → ℚ` (exact rational arithmetic in place of IEEE doubles), and
in-place mutation as `Function.update`.  C `for` loops become folds
over `intRange a b = [a, a+1, …, b-1]`.
-/

namespace Lasagna

/-- The half-open integer interval `[a, b)` as a list, mirroring a C
`for (i = a; i < b; i++)` loop. -/
def intRange (a b : ℤ) : List ℤ :=
  (List.range (b - a).toNat).map (fun i : ℕ => a + (i : ℤ))

/-! ### Flip / mark encoding

Modelled from the spec: the macros `SPFLIP`, `SPUNFLIP`, `SPMARK`,
`SPMARKED` live in `sparse.h`, which is not part of the provided
sources.  The spec describes them exactly: a column-pointer entry may
be *flipped* (encoded as `-(value)-2`, a self-inverse transform) to
mark a column as visited; a marked entry is recognised by its sign and
restored via unflip. -/

def SPFLIP (i : ℤ) : ℤ := -i - 2

def SPUNFLIP (i : ℤ) : ℤ := if i < 0 then SPFLIP i else i

/-- `SPMARKED(Gp, j)`: node `j` is marked iff its pointer entry is
flipped, i.e. negative (live column pointers are nonnegative). -/
def spmarked (Gp : ℤ → ℤ) (j : ℤ) : Bool := Gp j < 0

/-- `SPMARK(Gp, j)`: flip the pointer entry of node `j` in place. -/
def spmark (Gp : ℤ → ℤ) (j : ℤ) : ℤ → ℤ :=
  Function.update Gp j (SPFLIP (Gp j))

/-! ### Data model: `sp_mat` and `sp_num` -/

/-- Compressed sparse-column matrix, generic over the scalar type
(`ℚ` embeds the real `double` variant, `CxQ` the complex one). -/
structure sp_mat (α : Type) where
  ncols : ℤ
  nrows : ℤ
  maxnz : ℤ
  Ap : ℤ → ℤ
  Ai : ℤ → ℤ
  Ax : ℤ → α

/-- Numeric factorization context `sp_num`.  The `n × n` workspace
`xi` is a row-indexed family of rows (`xi k` is the C `N->xi[k]`). -/
structure sp_num (α : Type) where
  n : ℤ
  L : sp_mat α
  U : sp_mat α
  xi : ℤ → ℤ → ℤ
  topvec : ℤ → ℤ
  pinv : ℤ → ℤ
  p : ℤ → ℤ
  q : Option (ℤ → ℤ)
  w : ℤ → α

/-- Modelled from the spec: the status codes `_SUCCESS_` / `_FAILURE_`
are defined in `common.h`, which is not part of the provided sources;
the spec speaks of "a factorization-failure status" versus success, so
the return value is embedded as a two-element type. -/
inductive Status where
  | success : Status
  | failure : Status
deriving DecidableEq, Repr

/-! ### Reachability: `dfsr` and `reachr` -/

/-- The in/out state threaded through the DFS: the (flip-markable)
column pointers `Gp` of `G`, the stack pointer `top` and the stack
row `xik` (the C `xi[k]`). -/
structure ReachState where
  Gp : ℤ → ℤ
  top : ℤ
  xik : ℤ → ℤ

/-- `dfsr`: depth-first search from node `j`, marking visited nodes by
flipping their `Gp` entries and pushing each finished node onto the
stack `xik[--top]`.  The C recursion terminates because every call is
made on an unmarked node and marks it immediately; `fuel` bounds the
recursion depth and is chosen `≥ n + 1` by the caller, which the
marking discipline makes sufficient. -/
def dfsr (Gi pinv : ℤ → ℤ) : ℕ → ℤ → ReachState → ReachState
  | 0, _, s => s
  | fuel + 1, j, s =>
    let jnew := pinv j
    let s1 : ReachState := { s with Gp := spmark s.Gp j }
    let s2 : ReachState :=
      if 0 ≤ jnew then
        let p1 := SPUNFLIP (s1.Gp jnew)
        let p2 := SPUNFLIP (s1.Gp (jnew + 1))
        (intRange p1 p2).foldl
          (fun t p =>
            if spmarked t.Gp (Gi p) then t else dfsr Gi pinv fuel (Gi p) t) s1
      else s1
    { s2 with top := s2.top - 1, xik := Function.update s2.xik (s2.top - 1) j }

/-- `reachr`: compute the set of columns of `G` reachable from the
nonzero rows of column `k` of `B`; the reachable set ends up in
`xik[top .. Gncols)` and all marks are restored before returning. -/
def reachr (Gncols : ℤ) (Bp Bi Gi pinv : ℤ → ℤ) (k : ℤ)
    (Gp0 xik0 : ℤ → ℤ) : ReachState :=
  let s0 : ReachState := { Gp := Gp0, top := Gncols, xik := xik0 }
  let s1 := (intRange (Bp k) (Bp (k + 1))).foldl
    (fun t p =>
      if spmarked t.Gp (Bi p) then t
      else dfsr Gi pinv (Gncols.toNat + 1) (Bi p) t) s0
  { s1 with
    Gp := (intRange s1.top Gncols).foldl (fun Gp p => spmark Gp (s1.xik p)) s1.Gp }

/-! ### Sparse triangular solve: `sp_splsolve` -/

/-- `sp_splsolve`: solve the lower-triangular system restricted to the
reachable set `xik[top .. n)`, scattering the result into the dense
workspace `x`.  (The C function also returns `_SUCCESS_`
unconditionally; only the workspace update is observable.)  Generic
over the scalar type since the complex variant `sp_splsolve_cx` is
textually identical up to the scalar. -/
def sp_splsolve {α : Type} [Zero α] [Sub α] [Mul α] [Div α]
    (G B : sp_mat α) (k : ℤ) (xik : ℤ → ℤ) (top : ℤ)
    (x0 : ℤ → α) (pinv : ℤ → ℤ) : ℤ → α :=
  let n := G.ncols
  let x1 := (intRange top n).foldl (fun x p => Function.update x (xik p) 0) x0
  let x2 := (intRange (B.Ap k) (B.Ap (k + 1))).foldl
    (fun x p => Function.update x (B.Ai p) (B.Ax p)) x1
  (intRange top n).foldl
    (fun x px =>
      let j := xik px
      let J := pinv j
      if J < 0 then x
      else
        let x := Function.update x j (x j / G.Ax (G.Ap J))
        (intRange (G.Ap J + 1) (G.Ap (J + 1))).foldl
          (fun x p => Function.update x (G.Ai p) (x (G.Ai p) - G.Ax p * x j)) x)
    x2

/-! ### LU factorization: `sp_ludcmp` -/

/-- `col = q ? (q[k]) : k`: the working column at step `k`. -/
def colFromQ (q : Option (ℤ → ℤ)) (k : ℤ) : ℤ :=
  match q with
  | some qf => qf k
  | none => k

/-- The loop state of `sp_ludcmp` / `sp_refactor`: the context plus
the two local nonzero counters `lnz`, `unz`. -/
structure LuLoopSt (α : Type) where
  N : sp_num α
  lnz : ℤ
  unz : ℤ

/-- Result of the pivot-search scan over the reachable set. -/
structure ScanRes where
  ipiv : ℤ
  a : ℚ
  Ui : ℤ → ℤ
  Ux : ℤ → ℚ
  unz : ℤ

/-- One iteration of the pivot-search loop of `sp_ludcmp`: a
not-yet-pivoted row is a pivot candidate (tracked max of `fabs`),
an already-pivoted row is appended to `U`. -/
def pivotScanStep (pinv : ℤ → ℤ) (x : ℤ → ℚ) (xik : ℤ → ℤ) (r : ScanRes) (p : ℤ) :
    ScanRes :=
  let i := xik p
  if pinv i < 0 then
    let t := |x i|
    if t > r.a then { r with a := t, ipiv := i } else r
  else
    { r with
      Ui := Function.update r.Ui r.unz (pinv i)
      Ux := Function.update r.Ux r.unz (x i)
      unz := r.unz + 1 }

/-- The pivot-search loop of `sp_ludcmp` (`ipiv = -1; a = -1;
for (p = top; p < n; p++) …`). -/
def pivotScan (pinv : ℤ → ℤ) (x : ℤ → ℚ) (xik : ℤ → ℤ) (top n : ℤ)
    (Ui0 : ℤ → ℤ) (Ux0 : ℤ → ℚ) (unz0 : ℤ) : ScanRes :=
  (intRange top n).foldl (pivotScanStep pinv x xik) ⟨-1, -1, Ui0, Ux0, unz0⟩

/-- State after `Lp[k] = lnz; Up[k] = unz;` at the start of step `k`. -/
def lustepPre {α : Type} (st : LuLoopSt α) (k : ℤ) : LuLoopSt α :=
  { st with
    N := { st.N with
      L := { st.N.L with Ap := Function.update st.N.L.Ap k st.lnz }
      U := { st.N.U with Ap := Function.update st.N.U.Ap k st.unz } } }

/-- The `reachr` call of step `k` of `sp_ludcmp`. -/
def lustepReach (A : sp_mat ℚ) (st : LuLoopSt ℚ) (k : ℤ) : ReachState :=
  let N := (lustepPre st k).N
  reachr N.L.ncols A.Ap A.Ai N.L.Ai N.pinv (colFromQ N.q k) N.L.Ap (N.xi k)

/-- State after the `reachr` call of step `k` (restored column
pointers written back to `L`, reach row written back to `xi[k]`,
`topvec[k] = top`). -/
def lustepSt2 (A : sp_mat ℚ) (st : LuLoopSt ℚ) (k : ℤ) : LuLoopSt ℚ :=
  let st1 := lustepPre st k
  let rs := lustepReach A st k
  { st1 with
    N := { st1.N with
      L := { st1.N.L with Ap := rs.Gp }
      xi := Function.update st1.N.xi k rs.xik
      topvec := Function.update st1.N.topvec k rs.top } }

/-- The scattered solution vector at step `k` (the `sp_splsolve` call
of `sp_ludcmp`). -/
def lustepX (A : sp_mat ℚ) (st : LuLoopSt ℚ) (k : ℤ) : ℤ → ℚ :=
  let st2 := lustepSt2 A st k
  let rs := lustepReach A st k
  sp_splsolve st2.N.L A (colFromQ st2.N.q k) rs.xik rs.top st2.N.w st2.N.pinv

/-- The pivot-candidate rows of step `k`: the not-yet-pivoted entries
of the reachable set `xi[k][top .. n)`. -/
def lustepCands (A : sp_mat ℚ) (st : LuLoopSt ℚ) (k : ℤ) : List ℤ :=
  let rs := lustepReach A st k
  ((intRange rs.top A.ncols).map rs.xik).filter (fun i => st.N.pinv i < 0)

/-- The pivot-search call of step `k` of `sp_ludcmp` (`ipiv = -1;
a = -1; for (p = top; p < n; p++) …`). -/
def lustepScan (A : sp_mat ℚ) (st : LuLoopSt ℚ) (k : ℤ) : ScanRes :=
  pivotScan (lustepSt2 A st k).N.pinv (lustepX A st k) (lustepReach A st k).xik
    (lustepReach A st k).top A.ncols (lustepSt2 A st k).N.U.Ai
    (lustepSt2 A st k).N.U.Ax st.unz

/-- The state visible through the context pointer at the early
`return _FAILURE_` of `sp_ludcmp`: the `U` writes and the workspace
mutation done up to the failed pivot search remain. -/
def lustepFailSt (A : sp_mat ℚ) (st : LuLoopSt ℚ) (k : ℤ) : LuLoopSt ℚ :=
  { lustepSt2 A st k with
    N := { (lustepSt2 A st k).N with
      U := { (lustepSt2 A st k).N.U with
        Ai := (lustepScan A st k).Ui, Ax := (lustepScan A st k).Ux }
      w := lustepX A st k }
    unz := (lustepScan A st k).unz }

/-- The chosen pivot row of step `k` (`if ((pinv[col]<0) &&
(fabs(x[col])>=a*pivtol)) ipiv = col;`): the threshold override
prefers the natural diagonal candidate `col` over the maximum. -/
def lustepPivot (A : sp_mat ℚ) (pivtol : ℚ) (st : LuLoopSt ℚ) (k : ℤ) : ℤ :=
  if (lustepSt2 A st k).N.pinv (colFromQ (lustepSt2 A st k).N.q k) < 0 ∧
      |lustepX A st k (colFromQ (lustepSt2 A st k).N.q k)| ≥
        (lustepScan A st k).a * pivtol
  then colFromQ (lustepSt2 A st k).N.q k
  else (lustepScan A st k).ipiv

/-- The body of the second reach loop of a successful `sp_ludcmp`
step (`for (p = top; p < n; p++) { i = N->xi[k][p]; if (pinv[i]<0)
{ Li[lnz] = i; Lx[lnz] = x[i]/pivot; lnz++; } x[i] = 0; }`) on the
state `(Li, Lx, lnz, x)`. -/
def lustepFinStep (rs : ReachState) (pinv1 : ℤ → ℤ) (pivot : ℚ)
    (s : (ℤ → ℤ) × (ℤ → ℚ) × ℤ × (ℤ → ℚ)) (p : ℤ) :
    (ℤ → ℤ) × (ℤ → ℚ) × ℤ × (ℤ → ℚ) :=
  let Li := s.1
  let Lx := s.2.1
  let lnz := s.2.2.1
  let xw := s.2.2.2
  let i := rs.xik p
  let s1 : (ℤ → ℤ) × (ℤ → ℚ) × ℤ × (ℤ → ℚ) :=
    if pinv1 i < 0 then
      (Function.update Li lnz i, Function.update Lx lnz (xw i / pivot),
        lnz + 1, xw)
    else (Li, Lx, lnz, xw)
  (s1.1, s1.2.1, s1.2.2.1, Function.update s1.2.2.2 i 0)

/-- The success path of step `k` of `sp_ludcmp`: pivot normalization
and `L`/`U` assembly. -/
def lustepSuccSt (A : sp_mat ℚ) (pivtol : ℚ) (st : LuLoopSt ℚ) (k : ℤ) :
    LuLoopSt ℚ :=
  let n := A.ncols
  let st2 := lustepSt2 A st k
  let rs := lustepReach A st k
  let x := lustepX A st k
  let sc := lustepScan A st k
  let ipiv := lustepPivot A pivtol st k
  let pivot := x ipiv
  let Ui1 := Function.update sc.Ui sc.unz k
  let Ux1 := Function.update sc.Ux sc.unz pivot
  let unz1 := sc.unz + 1
  let pinv1 := Function.update st2.N.pinv ipiv k
  let pvec1 := Function.update st2.N.p k ipiv
  let Li1 := Function.update st2.N.L.Ai st.lnz ipiv
  let Lx1 := Function.update st2.N.L.Ax st.lnz 1
  let lnz1 := st.lnz + 1
  let fin := (intRange rs.top n).foldl (lustepFinStep rs pinv1 pivot)
    (Li1, Lx1, lnz1, x)
  { N := { st2.N with
      L := { st2.N.L with Ai := fin.1, Ax := fin.2.1 }
      U := { st2.N.U with Ai := Ui1, Ax := Ux1 }
      pinv := pinv1
      p := pvec1
      w := fin.2.2.2 }
    lnz := fin.2.2.1
    unz := unz1 }

/-- One step `k` of the factorization loop of `sp_ludcmp`: reach,
triangular solve, pivot search, failure test (`if ((ipiv == -1)||
(a<=0)) return _FAILURE_;`), threshold pivot override, pivot
normalization and `L`/`U` assembly. -/
def lustep (A : sp_mat ℚ) (pivtol : ℚ) (st : LuLoopSt ℚ) (k : ℤ) :
    Status × LuLoopSt ℚ :=
  if (lustepScan A st k).ipiv = -1 ∨ (lustepScan A st k).a ≤ 0 then
    (Status.failure, lustepFailSt A st k)
  else (Status.success, lustepSuccSt A pivtol st k)

/-- The factorization loop `for (k = 0; k < n; k++)` with the early
`return _FAILURE_` (the partially mutated context is what the caller
observes through the `sp_num` pointer on failure). -/
def luSteps (A : sp_mat ℚ) (pivtol : ℚ) : List ℤ → LuLoopSt ℚ → Status × LuLoopSt ℚ
  | [], st => (Status.success, st)
  | k :: ks, st =>
    match lustep A pivtol st k with
    | (Status.failure, st') => (Status.failure, st')
    | (Status.success, st') => luSteps A pivtol ks st'

/-- The initialisation of `sp_ludcmp` (`x[i]=0; pinv[i]=-1;
Lp[k]=0;`). -/
def ludcmpInit (N : sp_num ℚ) (A : sp_mat ℚ) : sp_num ℚ :=
  { N with
    w := (intRange 0 A.ncols).foldl (fun w i => Function.update w i 0) N.w
    pinv := (intRange 0 A.ncols).foldl (fun f i => Function.update f i (-1)) N.pinv
    L := { N.L with
      Ap := (intRange 0 (A.ncols + 1)).foldl
        (fun f k => Function.update f k 0) N.L.Ap } }

/-- The finalisation of `sp_ludcmp` on success (`Lp[n] = lnz;
Up[n] = unz; for(p=0; p<lnz; p++) Li[p] = pinv[Li[p]];`). -/
def ludcmpFin (st : LuLoopSt ℚ) (n : ℤ) : sp_num ℚ :=
  let N2 : sp_num ℚ :=
    { st.N with
      L := { st.N.L with Ap := Function.update st.N.L.Ap n st.lnz }
      U := { st.N.U with Ap := Function.update st.N.U.Ap n st.unz } }
  let Li' := (intRange 0 st.lnz).foldl
    (fun Li p => Function.update Li p (N2.pinv (Li p))) N2.L.Ai
  { N2 with L := { N2.L with Ai := Li' } }

/-- `sp_ludcmp`: left-looking LU factorization with threshold partial
pivoting.  Mirrors `src/tools/sparse.c:129-196`. -/
def sp_ludcmp (N : sp_num ℚ) (A : sp_mat ℚ) (pivtol : ℚ) : Status × sp_num ℚ :=
  match luSteps A pivtol (intRange 0 A.ncols) ⟨ludcmpInit N A, 0, 0⟩ with
  | (Status.failure, st) => (Status.failure, st.N)
  | (Status.success, st) => (Status.success, ludcmpFin st A.ncols)

/-! ### Refactorization: `sp_refactor` and `sp_refactor_cx`

The real and complex refactorizers are textually identical up to the
scalar type, so they are embedded as one generic function instantiated
at `ℚ` and at `CxQ`. -/

/-- The inner loop state of one refactor step. -/
structure RefInner (α : Type) where
  Li : ℤ → ℤ
  Lx : ℤ → α
  lnz : ℤ
  Ui : ℤ → ℤ
  Ux : ℤ → α
  unz : ℤ
  x : ℤ → α

/-- One step `k` of `sp_refactor`: reuse `topvec[k]` and the recorded
pivot `p[k]`, redo only the numeric solve and the `L`/`U` value
assignment. -/
def refactorStep {α : Type} [Zero α] [One α] [Sub α] [Mul α] [Div α]
    (A : sp_mat α) (st : LuLoopSt α) (k : ℤ) : LuLoopSt α :=
  let n := A.ncols
  let st1 := lustepPre st k
  let top := st1.N.topvec k
  let x := sp_splsolve st1.N.L A (colFromQ st1.N.q k) (st1.N.xi k) top
    st1.N.w st1.N.pinv
  let ipiv := st1.N.p k
  let pivot := x ipiv
  let r0 : RefInner α :=
    { Li := Function.update st1.N.L.Ai st.lnz ipiv
      Lx := Function.update st1.N.L.Ax st.lnz 1
      lnz := st.lnz + 1
      Ui := st1.N.U.Ai
      Ux := st1.N.U.Ax
      unz := st.unz
      x := x }
  let r1 := (intRange top n).foldl
    (fun (r : RefInner α) p =>
      let i := st1.N.xi k p
      let r2 :=
        if st1.N.pinv i < k then
          { r with
            Ui := Function.update r.Ui r.unz (st1.N.pinv i)
            Ux := Function.update r.Ux r.unz (r.x i)
            unz := r.unz + 1 }
        else r
      let r3 :=
        if st1.N.pinv i > k then
          { r2 with
            Li := Function.update r2.Li r2.lnz i
            Lx := Function.update r2.Lx r2.lnz (r2.x i / pivot)
            lnz := r2.lnz + 1 }
        else r2
      { r3 with x := Function.update r3.x i 0 })
    r0
  { N := { st1.N with
      L := { st1.N.L with Ai := r1.Li, Ax := r1.Lx }
      U := { st1.N.U with
        Ai := Function.update r1.Ui r1.unz k
        Ax := Function.update r1.Ux r1.unz pivot }
      w := r1.x }
    lnz := r1.lnz
    unz := r1.unz + 1 }

/-- Generic `sp_refactor`: repeat the numeric factorization using the
previously recorded symbolic order and pivot sequence.  Mirrors
`src/tools/sparse.c:229-277` (and the textually identical complex
variant at lines 925-974).  Note there is no failure test anywhere:
the status is unconditionally `_SUCCESS_`. -/
def sp_refactor_gen {α : Type} [Zero α] [One α] [Sub α] [Mul α] [Div α]
    (N : sp_num α) (A : sp_mat α) : Status × sp_num α :=
  let n := A.ncols
  let N1 : sp_num α :=
    { N with
      w := (intRange 0 n).foldl (fun w i => Function.update w i 0) N.w
      L := { N.L with
        Ap := (intRange 0 (n + 1)).foldl (fun f k => Function.update f k 0) N.L.Ap } }
  let st := (intRange 0 n).foldl (refactorStep A) ⟨N1, 0, 0⟩
  let N2 : sp_num α :=
    { st.N with
      L := { st.N.L with Ap := Function.update st.N.L.Ap n st.lnz }
      U := { st.N.U with Ap := Function.update st.N.U.Ap n st.unz } }
  let Li' := (intRange 0 st.lnz).foldl
    (fun Li p => Function.update Li p (N2.pinv (Li p))) N2.L.Ai
  (Status.success, { N2 with L := { N2.L with Ai := Li' } })

/-- Rational complex numbers: the embedding of `double complex` (IEEE
complex values become exact pairs of rationals; complex division is
the usual conjugate formula, with the division-by-zero convention of
`ℚ` when the denominator vanishes). -/
structure CxQ where
  re : ℚ
  im : ℚ
deriving DecidableEq

instance : Zero CxQ := ⟨⟨0, 0⟩⟩
instance : One CxQ := ⟨⟨1, 0⟩⟩
instance : Add CxQ := ⟨fun a b => ⟨a.re + b.re, a.im + b.im⟩⟩
instance : Sub CxQ := ⟨fun a b => ⟨a.re - b.re, a.im - b.im⟩⟩
instance : Mul CxQ := ⟨fun a b => ⟨a.re * b.re - a.im * b.im, a.re * b.im + a.im * b.re⟩⟩
instance : Div CxQ :=
  ⟨fun a b =>
    ⟨(a.re * b.re + a.im * b.im) / (b.re * b.re + b.im * b.im),
      (a.im * b.re - a.re * b.im) / (b.re * b.re + b.im * b.im)⟩⟩

/-- `sp_refactor` (real variant). -/
def sp_refactor (N : sp_num ℚ) (A : sp_mat ℚ) : Status × sp_num ℚ :=
  sp_refactor_gen N A

/-- `sp_refactor_cx` (complex variant). -/
def sp_refactor_cx (N : sp_num CxQ) (A : sp_mat CxQ) : Status × sp_num CxQ :=
  sp_refactor_gen N A

/-! ### Pattern union builder: `get_pattern_A_plus_AT` -/

/-- The `while` loop of the sorted two-pointer column merge.  In C it
terminates because each iteration advances at least one of the two
column cursors; `fuel` is the total number of remaining entries, which
is exactly enough by that argument. -/
def mergeWhile (Av Tv : ℤ → ℤ) :
    ℕ → ℤ → ℤ → ℤ → ℤ → (ℤ → ℤ) → ℤ → (ℤ → ℤ) × ℤ × ℤ × ℤ
  | 0, aptr, _, tptr, _, Ci, nz => (Ci, nz, aptr, tptr)
  | fuel + 1, aptr, aend, tptr, tend, Ci, nz =>
    if aptr < aend ∧ tptr < tend then
      if Av aptr < Tv tptr then
        mergeWhile Av Tv fuel (aptr + 1) aend tptr tend
          (Function.update Ci nz (Av aptr)) (nz + 1)
      else if Tv tptr < Av aptr then
        mergeWhile Av Tv fuel aptr aend (tptr + 1) tend
          (Function.update Ci nz (Tv tptr)) (nz + 1)
      else
        mergeWhile Av Tv fuel (aptr + 1) aend (tptr + 1) tend
          (Function.update Ci nz (Av aptr)) (nz + 1)
    else (Ci, nz, aptr, tptr)

/-- `for ( ; ptr < end; ptr++) { Ci_loc[nz] = v[ptr]; nz++; }`: dump
the rest of one column after the merge loop. -/
def mergeDump (v : ℤ → ℤ) (a b : ℤ) (Ci : ℤ → ℤ) (nz : ℤ) : (ℤ → ℤ) × ℤ :=
  (intRange a b).foldl (fun s p => (Function.update s.1 s.2 (v p), s.2 + 1)) (Ci, nz)

/-- Merge one column of `A` with the corresponding column of the
transpose `T` (the `while` loop plus the two trailing dump loops). -/
def mergeCol (Av Tv : ℤ → ℤ) (aptr aend tptr tend : ℤ) (Ci : ℤ → ℤ) (nz : ℤ) :
    (ℤ → ℤ) × ℤ :=
  let r := mergeWhile Av Tv ((aend - aptr).toNat + (tend - tptr).toNat)
    aptr aend tptr tend Ci nz
  let d1 := mergeDump Av r.2.2.1 aend r.1 r.2.1
  mergeDump Tv r.2.2.2 tend d1.1 d1.2

/-- Histogram pass of `get_pattern_A_plus_AT`: the number of entries
of each row over the entire index array (`w_and_Cp` is calloc'd,
hence initially zero). -/
def patHist (Ap Ai : ℤ → ℤ) (n : ℤ) : ℤ → ℤ :=
  (intRange 0 (Ap n)).foldl
    (fun w i => Function.update w (Ai i) (w (Ai i) + 1)) (fun _ => 0)

/-- One step of the cumulative-sum loop
(`Tp[j] = nz; nz += w[j]; w[j] = Tp[j];`). -/
def patCumStep (s : (ℤ → ℤ) × (ℤ → ℤ) × ℤ) (j : ℤ) : (ℤ → ℤ) × (ℤ → ℤ) × ℤ :=
  let Tp := Function.update s.1 j s.2.2
  let nz := s.2.2 + s.2.1 j
  let w := Function.update s.2.1 j (Tp j)
  (Tp, w, nz)

/-- The cumulative-sum loop of `get_pattern_A_plus_AT`. -/
def patCum (Ap Ai : ℤ → ℤ) (n : ℤ) : (ℤ → ℤ) × (ℤ → ℤ) × ℤ :=
  (intRange 0 n).foldl patCumStep ((fun _ => 0), patHist Ap Ai n, 0)

/-- The finished transpose column pointers (`Tp[n] = nz`). -/
def patTp (Ap Ai : ℤ → ℤ) (n : ℤ) : ℤ → ℤ :=
  Function.update (patCum Ap Ai n).1 n (patCum Ap Ai n).2.2

/-- The scatter pass building the transpose row indices (`Ti`, with
`w_and_Cp` advancing as per-column write cursors). -/
def patScat (Ap Ai : ℤ → ℤ) (n : ℤ) : (ℤ → ℤ) × (ℤ → ℤ) :=
  (intRange 0 n).foldl
    (fun (s : (ℤ → ℤ) × (ℤ → ℤ)) j =>
      (intRange (Ap j) (Ap (j + 1))).foldl
        (fun (s : (ℤ → ℤ) × (ℤ → ℤ)) i =>
          let q := s.2 (Ai i)
          (Function.update s.1 q j, Function.update s.2 (Ai i) (q + 1)))
        s)
    ((fun _ => 0), (patCum Ap Ai n).2.1)

/-- The column-merge loop of `get_pattern_A_plus_AT` (the union of
each column of `A` with the matching column of the transpose), with
`w_and_Cp[0] = 0` written first and `w_and_Cp[j+1] = nz` recorded
after each column. -/
def patMerge (Ap Ai : ℤ → ℤ) (n : ℤ) : (ℤ → ℤ) × ℤ × (ℤ → ℤ) :=
  (intRange 0 n).foldl
    (fun (s : (ℤ → ℤ) × ℤ × (ℤ → ℤ)) j =>
      let r := mergeCol Ai (patScat Ap Ai n).1 (Ap j) (Ap (j + 1))
        (patTp Ap Ai n j) (patTp Ap Ai n (j + 1)) s.1 s.2.1
      (r.1, r.2, Function.update s.2.2 (j + 1) r.2))
    ((fun _ => 0), 0, Function.update (patScat Ap Ai n).2 0 0)

/-- `get_pattern_A_plus_AT`: build the structural union `A ∪ Aᵗ` as
column pointers / row indices.  Mirrors `src/tools/sparse.c:976-1064`
(the trailing `realloc` only shrinks capacity and is not observable in
the pattern; allocation failure is outside the embedding). -/
def get_pattern_A_plus_AT (Ap Ai : ℤ → ℤ) (n : ℤ) : (ℤ → ℤ) × (ℤ → ℤ) :=
  ((patMerge Ap Ai n).2.2, (patMerge Ap Ai n).1)

/-! ### Column grouping: `column_grouping` and `column_grouping2` -/

/-- The externally visible grouper state: the caller's `col_g` and
`filled` arrays. -/
structure CGSt where
  cg : ℤ → ℤ
  filled : ℤ → ℤ

/-- `for (i = 0; i < neq; i++) filled[i] = 0;` -/
def zeroFill (neq : ℤ) (f : ℤ → ℤ) : ℤ → ℤ :=
  (intRange 0 neq).foldl (fun f i => Function.update f i 0) f

/-- `for (i = Ap[c]; i < Ap[c+1]; i++) filled[Ai[i]] = 1;` -/
def setRows (Ap Ai : ℤ → ℤ) (c : ℤ) (f : ℤ → ℤ) : ℤ → ℤ :=
  (intRange (Ap c) (Ap (c + 1))).foldl (fun f i => Function.update f (Ai i) 1) f

/-- `column_grouping`'s fit test: the early-exit scan `fitted = 1;
for … if (filled[Ai[i]] == 1) { fitted = 0; break; }` is the pure
conjunction of its iterations. -/
def cg1Fit (Ap Ai : ℤ → ℤ) (filled : ℤ → ℤ) (t : ℤ) : Bool :=
  (intRange (Ap t) (Ap (t + 1))).all (fun i => !(filled (Ai i) == 1))

/-- One candidate column of `column_grouping`'s inner loop. -/
def cg1Inner (Ap Ai : ℤ → ℤ) (g : ℤ) (s : CGSt) (t : ℤ) : CGSt :=
  if s.cg t = -1 then
    if cg1Fit Ap Ai s.filled t then
      ⟨Function.update s.cg t g, setRows Ap Ai t s.filled⟩
    else s
  else s

/-- The outer loop of `column_grouping`: each still-ungrouped column
seeds a fresh group, then the remaining columns are scanned. -/
def cg1Outer (Ap Ai : ℤ → ℤ) (neq : ℤ) : List ℤ → CGSt → ℤ → ℤ × CGSt
  | [], s, gn => (gn, s)
  | c :: cs, s, gn =>
    if s.cg c = -1 then
      let gn1 := gn + 1
      let s1 : CGSt := ⟨Function.update s.cg c gn1, setRows Ap Ai c (zeroFill neq s.filled)⟩
      let s2 := (intRange (c + 1) neq).foldl (cg1Inner Ap Ai gn1) s1
      cg1Outer Ap Ai neq cs s2 gn1
    else cg1Outer Ap Ai neq cs s gn

/-- `column_grouping`: first-fit column grouping.  Mirrors
`src/tools/sparse.c:279-325`; returns the last group number together
with the final `col_g` and `filled` arrays. -/
def column_grouping (G : sp_mat ℚ) (col_g filled : ℤ → ℤ) : ℤ × (ℤ → ℤ) × (ℤ → ℤ) :=
  let neq := G.ncols
  let cg0 := (intRange 0 neq).foldl (fun f i => Function.update f i (-1)) col_g
  let r := cg1Outer G.Ap G.Ai neq (intRange 0 neq) ⟨cg0, filled⟩ (-1)
  (r.1, r.2.cg, r.2.filled)

/-- `column_grouping2`'s fit test (`if (filled[Ai[i]] != 0) { fitted =
_FALSE_; break; }`). -/
def cg2Fit (Ap Ai : ℤ → ℤ) (filled : ℤ → ℤ) (t : ℤ) : Bool :=
  (intRange (Ap t) (Ap (t + 1))).all (fun i => filled (Ai i) == 0)

/-- One candidate column of `column_grouping2`'s scan; the `Bool`
component is the `done` flag (still `_TRUE_` iff no ungrouped column
has been encountered). -/
def cg2Scan (Ap Ai : ℤ → ℤ) (g : ℤ) (s : Bool × CGSt) (t : ℤ) : Bool × CGSt :=
  if s.2.cg t ≠ -1 then s
  else
    (false,
      if cg2Fit Ap Ai s.2.filled t then
        ⟨Function.update s.2.cg t g, setRows Ap Ai t s.2.filled⟩
      else s.2)

/-- The group loop of `column_grouping2` (`for (groupnum = 0; groupnum
< neq; groupnum++) … if (done == _TRUE_) break;`); returns the value
of `groupnum` after the loop. -/
def cg2Loop (Ap Ai : ℤ → ℤ) (neq : ℤ) : List ℤ → CGSt → ℤ × CGSt
  | [], s => (neq, s)
  | g :: gs, s =>
    let s0 : CGSt := ⟨s.cg, zeroFill neq s.filled⟩
    let r := (intRange 0 neq).foldl (cg2Scan Ap Ai g) (true, s0)
    if r.1 then (g, r.2) else cg2Loop Ap Ai neq gs r.2

/-- `column_grouping2`: the group-major variant.  Mirrors
`src/tools/sparse.c:327-372`; returns `groupnum - 1` together with the
final `col_g` and `filled` arrays. -/
def column_grouping2 (G : sp_mat ℚ) (col_g filled : ℤ → ℤ) : ℤ × (ℤ → ℤ) × (ℤ → ℤ) :=
  let neq := G.ncols
  let cg0 := (intRange 0 neq).foldl (fun f i => Function.update f i (-1)) col_g
  let r := cg2Loop G.Ap G.Ai neq (intRange 0 neq) ⟨cg0, filled⟩
  (r.1 - 1, r.2.cg, r.2.filled)

/-! ### Derived observations used in the statements -/

/-- Sum of `f` over `0 .. j-1` (prefix sums of the transpose column
counts in `get_pattern_A_plus_AT`). -/
def sumRange (f : ℤ → ℤ) (j : ℤ) : ℤ :=
  ((intRange 0 j).map f).sum

/-- The flattened scatter work list of `get_pattern_A_plus_AT`: all
pairs `(column, position)` in column order. -/
def patPairs (Ap : ℤ → ℤ) (n : ℤ) : List (ℤ × ℤ) :=
  (intRange 0 n).flatMap (fun j => (intRange (Ap j) (Ap (j + 1))).map (fun i => (j, i)))

/-- One scatter write, as a function of a work-list pair. -/
def patScatStep (Ai : ℤ → ℤ) (s : (ℤ → ℤ) × (ℤ → ℤ)) (pr : ℤ × ℤ) :
    (ℤ → ℤ) × (ℤ → ℤ) :=
  (Function.update s.1 (s.2 (Ai pr.2)) pr.1,
    Function.update s.2 (Ai pr.2) (s.2 (Ai pr.2) + 1))

/-- One column of the merge loop of `get_pattern_A_plus_AT`, as a step
function on the `(Ci, nz, Cp)` state. -/
def patMergeStep (Ap Ai : ℤ → ℤ) (n : ℤ) (s : (ℤ → ℤ) × ℤ × (ℤ → ℤ)) (j : ℤ) :
    (ℤ → ℤ) × ℤ × (ℤ → ℤ) :=
  let r := mergeCol Ai (patScat Ap Ai n).1 (Ap j) (Ap (j + 1))
    (patTp Ap Ai n j) (patTp Ap Ai n (j + 1)) s.1 s.2.1
  (r.1, r.2, Function.update s.2.2 (j + 1) r.2)

/-- Number of work-list entries carrying row `r`. -/
def patCnt (Ai : ℤ → ℤ) (r : ℤ) (L : List (ℤ × ℤ)) : ℤ :=
  ((L.filter (fun pr => Ai pr.2 = r)).length : ℤ)

/-- The columns (in order, with multiplicity) of the work-list entries
carrying row `r`: the contents of row `r`'s transpose column. -/
def patVals (Ai : ℤ → ℤ) (r : ℤ) (L : List (ℤ × ℤ)) : List ℤ :=
  (L.filter (fun pr => Ai pr.2 = r)).map (fun pr => pr.1)

/-- Number of distinct group labels assigned to the columns
`0 .. neq-1`. -/
def numGroups (cg : ℤ → ℤ) (neq : ℤ) : ℤ :=
  (((intRange 0 neq).map cg).toFinset.card : ℤ)

/-- The nonzero row sets of columns `t` and `t'` are disjoint. -/
def ColsDisj (Ap Ai : ℤ → ℤ) (t t' : ℤ) : Prop :=
  ∀ i i', Ap t ≤ i → i < Ap (t + 1) → Ap t' ≤ i' → i' < Ap (t' + 1) → Ai i ≠ Ai i'

/-- Any two distinct columns of `0 .. neq-1` that carry the same
(nonnegative) group label have disjoint row sets. -/
def DisjOn (Ap Ai : ℤ → ℤ) (neq : ℤ) (cg : ℤ → ℤ) : Prop :=
  ∀ t t', 0 ≤ t → t < neq → 0 ≤ t' → t' < neq → t ≠ t' → 0 ≤ cg t →
    cg t = cg t' → ColsDisj Ap Ai t t'

/-- Every row of every column currently assigned to group `g` is
marked in the `filled` workspace. -/
def GroupRowsFilled (Ap Ai : ℤ → ℤ) (neq g : ℤ) (s : CGSt) : Prop :=
  ∀ t, 0 ≤ t → t < neq → s.cg t = g →
    ∀ i, Ap t ≤ i → i < Ap (t + 1) → s.filled (Ai i) = 1

/-- All group labels of columns `0 .. neq-1` are at most `gn`. -/
def LabelsLe (neq gn : ℤ) (cg : ℤ → ℤ) : Prop :=
  ∀ t, 0 ≤ t → t < neq → cg t ≤ gn

/-- The `filled` workspace holds only 0/1 values on `0 .. neq-1`. -/
def FilledBin (neq : ℤ) (f : ℤ → ℤ) : Prop :=
  ∀ r, 0 ≤ r → r < neq → f r = 0 ∨ f r = 1

/-- Well-formedness of a CSC pattern: every stored row index of every
column lies in `0 .. neq-1`. -/
def RowsInRange (Ap Ai : ℤ → ℤ) (neq : ℤ) : Prop :=
  ∀ t ∈ intRange 0 neq, ∀ i ∈ intRange (Ap t) (Ap (t + 1)), 0 ≤ Ai i ∧ Ai i < neq

/-- The invariant carried through the factorization loop of
`sp_ludcmp`, at loop cursor `c`: `lnz` is nonnegative, the (possibly
flip-marked) `L` column pointers unflip into `[0, lnz]`, the written
`L` row entries are in `[0, n)`, every `pinv` entry is a step index
below `c` or negative, and on the processed prefix `p` and `pinv` are
mutually inverse with `p` mapping into `[0, n)`. -/
def LuInv (A : sp_mat ℚ) (st : LuLoopSt ℚ) (c : ℤ) : Prop :=
  0 ≤ st.lnz ∧
  (∀ r, 0 ≤ r → r ≤ A.ncols → 0 ≤ SPUNFLIP (st.N.L.Ap r) ∧
    SPUNFLIP (st.N.L.Ap r) ≤ st.lnz) ∧
  (∀ p, 0 ≤ p → p < st.lnz → 0 ≤ st.N.L.Ai p ∧ st.N.L.Ai p < A.ncols) ∧
  (∀ i, 0 ≤ i → i < A.ncols → st.N.pinv i < c) ∧
  (∀ m, 0 ≤ m → m < c → 0 ≤ st.N.p m ∧ st.N.p m < A.ncols ∧
    st.N.pinv (st.N.p m) = m)

instance (Ap Ai : ℤ → ℤ) (neq : ℤ) : Decidable (RowsInRange Ap Ai neq) :=
  inferInstanceAs (Decidable (∀ t ∈ intRange 0 neq,
    ∀ i ∈ intRange (Ap t) (Ap (t + 1)), 0 ≤ Ai i ∧ Ai i < neq))

/-! ### Concrete instances used for counterexamples and witnesses -/

/-- The 3×3 pattern with entries `(row,col) = (0,0),(1,0),(0,1),(2,2)`
from the spec's pattern-union example: column pointers. -/
def pattern3Ap : ℤ → ℤ :=
  fun j => if j = 0 then 0 else if j = 1 then 2 else if j = 2 then 3 else 4

/-- Row indices of the 3×3 example pattern. -/
def pattern3Ai : ℤ → ℤ :=
  fun p => if p = 0 then 0 else if p = 1 then 1 else if p = 2 then 0 else 2

/-- A 1×1 pattern with the single (diagonal) entry `(0,0)`: column
pointers. -/
def diag1Ap : ℤ → ℤ := fun j => if j = 0 then 0 else 1

/-- Row indices of the 1×1 diagonal pattern. -/
def diag1Ai : ℤ → ℤ := fun _ => 0

/-- A 1×1 sparse matrix with a structurally empty column. -/
def emptyColA : sp_mat ℚ := ⟨1, 1, 0, (fun _ => 0), (fun _ => 0), (fun _ => 0)⟩

/-- A freshly allocated 1-dimensional factorization context (all
workspaces zeroed, no column permutation). -/
def ctxOne : sp_num ℚ :=
  { n := 1
    L := ⟨1, 1, 1, (fun _ => 0), (fun _ => 0), (fun _ => 0)⟩
    U := ⟨1, 1, 1, (fun _ => 0), (fun _ => 0), (fun _ => 0)⟩
    xi := fun _ _ => 0
    topvec := fun _ => 0
    pinv := fun _ => 0
    p := fun _ => 0
    q := none
    w := fun _ => 0 }

/-- The 1×1 matrix holding the single value `2`. -/
def oneValA : sp_mat ℚ :=
  ⟨1, 1, 1, (fun j => if j = 0 then 0 else 1), (fun _ => 0), (fun _ => 2)⟩

/-- A freshly allocated 2-dimensional factorization context. -/
def ctxTwo : sp_num ℚ :=
  { n := 2
    L := ⟨2, 2, 3, (fun _ => 0), (fun _ => 0), (fun _ => 0)⟩
    U := ⟨2, 2, 3, (fun _ => 0), (fun _ => 0), (fun _ => 0)⟩
    xi := fun _ _ => 0
    topvec := fun _ => 0
    pinv := fun _ => 0
    p := fun _ => 0
    q := none
    w := fun _ => 0 }

/-- The antidiagonal 2×2 matrix `[[0,1],[1,0]]` in CSC form. -/
def antiDiagA : sp_mat ℚ :=
  ⟨2, 2, 2, (fun j => if j ≤ 0 then 0 else if j = 1 then 1 else 2),
    (fun p => if p = 0 then 1 else 0), (fun _ => 1)⟩

/-- A loop state as it enters step 0 of `sp_ludcmp` on a fresh
1-dimensional context (after the initialization loops). -/
def stepStOne : LuLoopSt ℚ :=
  ⟨{ ctxOne with pinv := fun _ => -1 }, 0, 0⟩

/-- A 1×1 sparse-pattern matrix with an empty column (for the column
groupers). -/
def groupEmptyG : sp_mat ℚ := ⟨1, 1, 0, (fun _ => 0), (fun _ => 0), fun _ => 0⟩

/-- The 3×3 example pattern as a matrix (for the column groupers). -/
def group3G : sp_mat ℚ := ⟨3, 3, 4, pattern3Ap, pattern3Ai, fun _ => 0⟩

/-- A 2-dimensional context recording a previous factorization whose
step-0 pivot position now holds the value 0: `topvec = [0, 2]`,
`xi[0] = (0, 1)`, identity pivot sequence, unit `L` values. -/
def refZeroPivN : sp_num ℚ :=
  { n := 2
    L := ⟨2, 2, 3, (fun _ => 0), (fun _ => 0), (fun _ => 1)⟩
    U := ⟨2, 2, 3, (fun _ => 0), (fun _ => 0), (fun _ => 0)⟩
    xi := fun _ p => p
    topvec := fun k => if k = 0 then 0 else 2
    pinv := fun i => i
    p := fun k => k
    q := none
    w := fun _ => 0 }

/-- A 2×2 matrix with the same pattern whose `(0,0)` value is `0`
(column 0 holds rows 0,1 with values 0 and 3; column 1 holds row 1
with value 5), so the recorded step-0 pivot value is zero. -/
def refZeroPivA : sp_mat ℚ :=
  ⟨2, 2, 3, (fun j => if j ≤ 0 then 0 else if j = 1 then 2 else 3),
    (fun p => if p = 0 then 0 else 1),
    (fun p => if p = 0 then 0 else if p = 1 then 3 else 5)⟩

/-! ## Basic lemmas about the embedding's building blocks -/

theorem intRange_eq_nil {a b : ℤ} (h : b ≤ a) : intRange a b = [] := by
  unfold intRange
  have : (b - a).toNat = 0 := by omega
  simp [this]

theorem intRange_cons {a b : ℤ} (h : a < b) :
    intRange a b = a :: intRange (a + 1) b := by
  unfold intRange
  have h1 : (b - a).toNat = (b - (a + 1)).toNat + 1 := by omega
  rw [h1, List.range_succ_eq_map]
  simp only [List.map_cons, List.map_map, Nat.cast_zero, add_zero, List.cons.injEq]
  refine ⟨trivial, List.map_congr_left fun i _ => ?_⟩
  show a + ((i : ℤ) + 1) = a + 1 + (i : ℤ)
  ring

theorem intRange_snoc {a b : ℤ} (h : a < b) :
    intRange a b = intRange a (b - 1) ++ [b - 1] := by
  unfold intRange
  have h1 : (b - a).toNat = (b - 1 - a).toNat + 1 := by omega
  rw [h1, List.range_succ]
  simp only [List.map_append, List.map_cons, List.map_nil, List.append_cancel_left_eq,
    List.cons.injEq, and_true]
  omega

theorem mem_intRange {a b i : ℤ} : i ∈ intRange a b ↔ a ≤ i ∧ i < b := by
  unfold intRange
  simp only [List.mem_map, List.mem_range]
  constructor
  · rintro ⟨j, hj, rfl⟩
    omega
  · rintro ⟨h1, h2⟩
    exact ⟨(i - a).toNat, by omega, by omega⟩

theorem intRange_append {a b c : ℤ} (h1 : a ≤ b) (h2 : b ≤ c) :
    intRange a c = intRange a b ++ intRange b c := by
  have key : ∀ (m : ℕ) (a : ℤ), (b - a).toNat = m → a ≤ b →
      intRange a c = intRange a b ++ intRange b c := by
    intro m
    induction m with
    | zero =>
      intro a hm hab
      have : a = b := by omega
      subst this
      rw [intRange_eq_nil (le_refl a)]
      simp
    | succ n ih =>
      intro a hm hab
      have hab' : a < b := by omega
      rw [intRange_cons (lt_of_lt_of_le hab' h2), intRange_cons hab']
      simp only [List.cons_append, List.cons.injEq, true_and]
      exact ih (a + 1) (by omega) (by omega)
  exact key _ a rfl h1

theorem length_intRange {a b : ℤ} : (intRange a b).length = (b - a).toNat := by
  simp [intRange]

theorem nodup_intRange {a b : ℤ} : (intRange a b).Nodup := by
  unfold intRange
  apply List.Nodup.map
  · intro x y hxy
    simpa using hxy
  · exact List.nodup_range _

/-- Generic fact about a loop `for i in l: g[i] = c`. -/
theorem foldl_update_const {β : Type} (c : β) (l : List ℤ) (g : ℤ → β) (r : ℤ) :
    (l.foldl (fun g i => Function.update g i c) g) r = if r ∈ l then c else g r := by
  induction l generalizing g with
  | nil => simp
  | cons x xs ih =>
    simp only [List.foldl_cons, ih, List.mem_cons]
    by_cases hx : r = x
    · subst hx
      by_cases hr : r ∈ xs <;> simp [hr, Function.update]
    · by_cases hr : r ∈ xs <;> simp [hr, hx, Function.update]

theorem SPFLIP_SPFLIP (i : ℤ) : SPFLIP (SPFLIP i) = i := by
  unfold SPFLIP; omega

theorem SPUNFLIP_SPFLIP_of_nonneg {i : ℤ} (h : 0 ≤ i) :
    SPUNFLIP (SPFLIP i) = i := by
  unfold SPUNFLIP SPFLIP
  split <;> omega

theorem SPUNFLIP_of_nonneg {i : ℤ} (h : 0 ≤ i) : SPUNFLIP i = i := by
  unfold SPUNFLIP
  split <;> omega

/-- Generic fact about a loop `for i in l: g[idx i] = c`. -/
theorem foldl_update_idx_const {β : Type} (c : β) (idx : ℤ → ℤ) (l : List ℤ)
    (g : ℤ → β) (r : ℤ) :
    (l.foldl (fun g i => Function.update g (idx i) c) g) r =
      if r ∈ l.map idx then c else g r := by
  induction l generalizing g with
  | nil => simp
  | cons x xs ih =>
    simp only [List.foldl_cons, List.map_cons]
    rw [ih]
    by_cases hr : r ∈ xs.map idx
    · rw [if_pos hr, if_pos (List.mem_cons.2 (Or.inr hr))]
    · rw [if_neg hr]
      by_cases hx : idx x = r
      · rw [if_pos (List.mem_cons.2 (Or.inl hx.symm)), ← hx, Function.update_same]
      · rw [if_neg, Function.update_noteq fun h => hx h.symm]
        intro hmem
        rcases List.mem_cons.mp hmem with h | h
        · exact hx h.symm
        · exact hr h

/-! ### Lemmas about the column groupers -/

theorem setRows_apply (Ap Ai : ℤ → ℤ) (t : ℤ) (f : ℤ → ℤ) (r : ℤ) :
    setRows Ap Ai t f r =
      if r ∈ (intRange (Ap t) (Ap (t + 1))).map Ai then 1 else f r :=
  foldl_update_idx_const 1 Ai _ f r

theorem zeroFill_apply (neq : ℤ) (f : ℤ → ℤ) (r : ℤ) :
    zeroFill neq f r = if 0 ≤ r ∧ r < neq then 0 else f r := by
  rw [zeroFill, foldl_update_const]
  exact if_congr mem_intRange rfl rfl

theorem setRows_one (Ap Ai : ℤ → ℤ) (t : ℤ) (f : ℤ → ℤ) {r : ℤ} (h : f r = 1) :
    setRows Ap Ai t f r = 1 := by
  rw [setRows_apply]
  split <;> simp [h]

theorem setRows_mem (Ap Ai : ℤ → ℤ) (t : ℤ) (f : ℤ → ℤ) {i : ℤ}
    (h1 : Ap t ≤ i) (h2 : i < Ap (t + 1)) : setRows Ap Ai t f (Ai i) = 1 := by
  rw [setRows_apply,
    if_pos (List.mem_map.2 ⟨i, mem_intRange.2 ⟨h1, h2⟩, rfl⟩)]

theorem cg1Fit_iff (Ap Ai : ℤ → ℤ) (f : ℤ → ℤ) (t : ℤ) :
    cg1Fit Ap Ai f t = true ↔
      ∀ i, Ap t ≤ i → i < Ap (t + 1) → f (Ai i) ≠ 1 := by
  unfold cg1Fit
  rw [List.all_eq_true]
  constructor
  · intro h i h1 h2
    have := h i (mem_intRange.2 ⟨h1, h2⟩)
    simpa using this
  · intro h i hi
    have := h i (mem_intRange.1 hi).1 (mem_intRange.1 hi).2
    simpa using this

theorem cg2Fit_iff (Ap Ai : ℤ → ℤ) (f : ℤ → ℤ) (t : ℤ) :
    cg2Fit Ap Ai f t = true ↔
      ∀ i, Ap t ≤ i → i < Ap (t + 1) → f (Ai i) = 0 := by
  unfold cg2Fit
  rw [List.all_eq_true]
  constructor
  · intro h i h1 h2
    have := h i (mem_intRange.2 ⟨h1, h2⟩)
    simpa using this
  · intro h i hi
    have := h i (mem_intRange.1 hi).1 (mem_intRange.1 hi).2
    simpa using this

theorem cg1Inner_cg_apply (Ap Ai : ℤ → ℤ) (g : ℤ) (s : CGSt) (t t' : ℤ) :
    (cg1Inner Ap Ai g s t).cg t' =
      if t' = t ∧ s.cg t = -1 ∧ cg1Fit Ap Ai s.filled t = true then g
      else s.cg t' := by
  unfold cg1Inner
  by_cases h1 : s.cg t = -1
  · by_cases h2 : cg1Fit Ap Ai s.filled t = true
    · simp only [h1, h2, if_true, if_pos rfl]
      by_cases h3 : t' = t
      · subst h3
        simp [Function.update_same, h1, h2]
      · simp [Function.update_noteq h3, h3]
    · simp [h1, h2]
  · simp [h1]

theorem cg1Inner_filled_one (Ap Ai : ℤ → ℤ) (g : ℤ) (s : CGSt) (t : ℤ) {r : ℤ}
    (h : s.filled r = 1) : (cg1Inner Ap Ai g s t).filled r = 1 := by
  unfold cg1Inner
  split
  · split
    · exact setRows_one Ap Ai t s.filled h
    · exact h
  · exact h

theorem cg1Inner_filledBin (Ap Ai : ℤ → ℤ) (neq g : ℤ) (s : CGSt) (t : ℤ)
    (h : FilledBin neq s.filled) : FilledBin neq (cg1Inner Ap Ai g s t).filled := by
  unfold cg1Inner
  split
  · split
    · intro r h1 h2
      dsimp only
      rw [setRows_apply]
      split
      · exact Or.inr rfl
      · exact h r h1 h2
    · exact h
  · exact h

theorem cg1InnerFold_cg (Ap Ai : ℤ → ℤ) (g : ℤ) (l : List ℤ) (s : CGSt) (t : ℤ) :
    ((l.foldl (cg1Inner Ap Ai g) s).cg t = s.cg t ∨
      ((l.foldl (cg1Inner Ap Ai g) s).cg t = g ∧ s.cg t = -1)) := by
  induction l generalizing s with
  | nil => exact Or.inl rfl
  | cons x xs ih =>
    simp only [List.foldl_cons]
    rcases ih (cg1Inner Ap Ai g s x) with h | ⟨h, h2⟩
    · rw [h, cg1Inner_cg_apply]
      split
      · rename_i hcond
        exact Or.inr ⟨rfl, hcond.2.1 ▸ (hcond.1 ▸ rfl)⟩
      · exact Or.inl rfl
    · rw [cg1Inner_cg_apply] at h2
      split at h2
      · rename_i hcond
        exact Or.inr ⟨h, by rw [hcond.1]; exact hcond.2.1⟩
      · exact Or.inr ⟨h, h2⟩

theorem cg1InnerFold_assigned (Ap Ai : ℤ → ℤ) (g : ℤ) (l : List ℤ) (s : CGSt)
    (t : ℤ) (h : s.cg t ≠ -1) : ((l.foldl (cg1Inner Ap Ai g) s).cg t = s.cg t) := by
  rcases cg1InnerFold_cg Ap Ai g l s t with h1 | ⟨_, h2⟩
  · exact h1
  · exact absurd h2 h

theorem cg1InnerFold_filled_one (Ap Ai : ℤ → ℤ) (g : ℤ) (l : List ℤ) (s : CGSt)
    {r : ℤ} (h : s.filled r = 1) : (l.foldl (cg1Inner Ap Ai g) s).filled r = 1 := by
  induction l generalizing s with
  | nil => exact h
  | cons x xs ih => exact ih _ (cg1Inner_filled_one Ap Ai g s x h)

theorem cg1InnerFold_filledBin (Ap Ai : ℤ → ℤ) (neq g : ℤ) (l : List ℤ) (s : CGSt)
    (h : FilledBin neq s.filled) :
    FilledBin neq (l.foldl (cg1Inner Ap Ai g) s).filled := by
  induction l generalizing s with
  | nil => exact h
  | cons x xs ih => exact ih _ (cg1Inner_filledBin Ap Ai neq g s x h)

theorem cg1Inner_eq_self (Ap Ai : ℤ → ℤ) (g : ℤ) (s : CGSt) (t0 : ℤ)
    (h : ¬(s.cg t0 = -1 ∧ cg1Fit Ap Ai s.filled t0 = true)) :
    cg1Inner Ap Ai g s t0 = s := by
  unfold cg1Inner
  by_cases h1 : s.cg t0 = -1
  · rw [if_pos h1]
    by_cases h2 : cg1Fit Ap Ai s.filled t0 = true
    · exact absurd ⟨h1, h2⟩ h
    · simp [h2]
  · simp [h1]

theorem cg1Inner_eq_accept (Ap Ai : ℤ → ℤ) (g : ℤ) (s : CGSt) (t0 : ℤ)
    (h1 : s.cg t0 = -1) (h2 : cg1Fit Ap Ai s.filled t0 = true) :
    cg1Inner Ap Ai g s t0 =
      ⟨Function.update s.cg t0 g, setRows Ap Ai t0 s.filled⟩ := by
  unfold cg1Inner
  simp [h1, h2]

/-- One admission step preserves the per-group invariants: disjointness
of equal-label columns, the `filled` coverage of the current group's
rows, and the label bound. -/
theorem cg1Inner_pres (Ap Ai : ℤ → ℤ) (neq g : ℤ) (s : CGSt) (t0 : ℤ)
    (ht0a : 0 ≤ t0) (ht0b : t0 < neq)
    (h1 : DisjOn Ap Ai neq s.cg) (h2 : GroupRowsFilled Ap Ai neq g s)
    (h3 : LabelsLe neq g s.cg) :
    DisjOn Ap Ai neq (cg1Inner Ap Ai g s t0).cg ∧
      GroupRowsFilled Ap Ai neq g (cg1Inner Ap Ai g s t0) ∧
      LabelsLe neq g (cg1Inner Ap Ai g s t0).cg := by
  by_cases hc : s.cg t0 = -1 ∧ cg1Fit Ap Ai s.filled t0 = true
  case neg =>
    rw [cg1Inner_eq_self Ap Ai g s t0 hc]
    exact ⟨h1, h2, h3⟩
  case pos =>
    obtain ⟨hu, hfit⟩ := hc
    rw [cg1Inner_eq_accept Ap Ai g s t0 hu hfit]
    have hfit' := (cg1Fit_iff Ap Ai s.filled t0).1 hfit
    refine ⟨?_, ?_, ?_⟩
    · intro t t' ht1 ht2 ht3 ht4 hne hge heq
      dsimp only at hge heq ⊢
      by_cases htt : t = t0 <;> by_cases htt' : t' = t0
      · exact absurd (htt.trans htt'.symm) hne
      · subst htt
        rw [Function.update_same] at heq
        rw [Function.update_noteq htt'] at heq
        intro i i' hi1 hi2 hi1' hi2' habs
        have hmem := h2 t' ht3 ht4 heq.symm i' hi1' hi2'
        rw [← habs] at hmem
        exact hfit' i hi1 hi2 hmem
      · subst htt'
        rw [Function.update_same] at heq
        rw [Function.update_noteq htt] at heq hge
        intro i i' hi1 hi2 hi1' hi2' habs
        have hmem := h2 t ht1 ht2 heq i hi1 hi2
        rw [habs] at hmem
        exact hfit' i' hi1' hi2' hmem
      · rw [Function.update_noteq htt] at heq hge
        rw [Function.update_noteq htt'] at heq
        exact h1 t t' ht1 ht2 ht3 ht4 hne hge heq
    · intro t ht1 ht2 hcg i hi1 hi2
      dsimp only at hcg ⊢
      by_cases htt : t = t0
      · subst htt
        exact setRows_mem Ap Ai t s.filled hi1 hi2
      · rw [Function.update_noteq htt] at hcg
        exact setRows_one Ap Ai t0 s.filled (h2 t ht1 ht2 hcg i hi1 hi2)
    · intro t ht1 ht2
      dsimp only
      by_cases htt : t = t0
      · subst htt
        rw [Function.update_same]
      · rw [Function.update_noteq htt]
        exact h3 t ht1 ht2

/-- The inner admission loop preserves the per-group invariants. -/
theorem cg1InnerFold_pres (Ap Ai : ℤ → ℤ) (neq g : ℤ) (l : List ℤ) (s : CGSt)
    (hl : ∀ t ∈ l, 0 ≤ t ∧ t < neq)
    (h1 : DisjOn Ap Ai neq s.cg) (h2 : GroupRowsFilled Ap Ai neq g s)
    (h3 : LabelsLe neq g s.cg) :
    DisjOn Ap Ai neq (l.foldl (cg1Inner Ap Ai g) s).cg ∧
      GroupRowsFilled Ap Ai neq g (l.foldl (cg1Inner Ap Ai g) s) ∧
      LabelsLe neq g (l.foldl (cg1Inner Ap Ai g) s).cg := by
  induction l generalizing s with
  | nil => exact ⟨h1, h2, h3⟩
  | cons x xs ih =>
    have hx := hl x (List.mem_cons_self x xs)
    obtain ⟨j1, j2, j3⟩ := cg1Inner_pres Ap Ai neq g s x hx.1 hx.2 h1 h2 h3
    exact ih _ (fun t ht => hl t (List.mem_cons_of_mem x ht)) j1 j2 j3

/-- Main induction for `column_grouping`'s outer loop: it only grows
the group counter, keeps labels within `[0, result]`, preserves
disjointness, never unassigns a column, assigns every visited column,
attains every label, and every change gives a label in range. -/
theorem cg1Outer_main (Ap Ai : ℤ → ℤ) (neq : ℤ) :
    ∀ (cs : List ℤ) (s : CGSt) (gn : ℤ),
      (∀ c ∈ cs, 0 ≤ c ∧ c < neq) →
      -1 ≤ gn →
      LabelsLe neq gn s.cg →
      DisjOn Ap Ai neq s.cg →
      (∀ l, 0 ≤ l → l ≤ gn → ∃ t, 0 ≤ t ∧ t < neq ∧ s.cg t = l) →
      gn ≤ (cg1Outer Ap Ai neq cs s gn).1 ∧
      LabelsLe neq (cg1Outer Ap Ai neq cs s gn).1 (cg1Outer Ap Ai neq cs s gn).2.cg ∧
      DisjOn Ap Ai neq (cg1Outer Ap Ai neq cs s gn).2.cg ∧
      (∀ t, s.cg t ≠ -1 → (cg1Outer Ap Ai neq cs s gn).2.cg t = s.cg t) ∧
      (∀ c ∈ cs, (cg1Outer Ap Ai neq cs s gn).2.cg c ≠ -1) ∧
      (∀ l, 0 ≤ l → l ≤ (cg1Outer Ap Ai neq cs s gn).1 →
        ∃ t, 0 ≤ t ∧ t < neq ∧ (cg1Outer Ap Ai neq cs s gn).2.cg t = l) ∧
      (∀ t, (cg1Outer Ap Ai neq cs s gn).2.cg t = s.cg t ∨
        (0 ≤ (cg1Outer Ap Ai neq cs s gn).2.cg t ∧
          (cg1Outer Ap Ai neq cs s gn).2.cg t ≤ (cg1Outer Ap Ai neq cs s gn).1)) := by
  intro cs
  induction cs with
  | nil =>
    intro s gn _ _ h2 h3 h4
    exact ⟨le_refl _, h2, h3, fun t _ => rfl, fun c hc => absurd hc (List.not_mem_nil c),
      h4, fun t => Or.inl rfl⟩
  | cons c cs' ih =>
    intro s gn hcs hgn h2 h3 h4
    have hc0 := hcs c (List.mem_cons_self c cs')
    have hcs' : ∀ c' ∈ cs', 0 ≤ c' ∧ c' < neq :=
      fun c' hc' => hcs c' (List.mem_cons_of_mem c hc')
    by_cases hc : s.cg c = -1
    case neg =>
      have hunf : cg1Outer Ap Ai neq (c :: cs') s gn = cg1Outer Ap Ai neq cs' s gn := by
        conv_lhs => rw [cg1Outer]
        rw [if_neg hc]
      rw [hunf]
      obtain ⟨j1, j2, j3, j4, j5, j6, j7⟩ := ih s gn hcs' hgn h2 h3 h4
      exact ⟨j1, j2, j3, j4, fun c' hc' => by
        rcases List.mem_cons.mp hc' with rfl | hmem
        · rw [j4 c' hc]; exact hc
        · exact j5 c' hmem, j6, j7⟩
    case pos =>
      have hunf : cg1Outer Ap Ai neq (c :: cs') s gn =
          cg1Outer Ap Ai neq cs'
            ((intRange (c + 1) neq).foldl (cg1Inner Ap Ai (gn + 1))
              ⟨Function.update s.cg c (gn + 1),
                setRows Ap Ai c (zeroFill neq s.filled)⟩) (gn + 1) := by
        conv_lhs => rw [cg1Outer]
        rw [if_pos hc]
      rw [hunf]
      set s1 : CGSt := ⟨Function.update s.cg c (gn + 1),
        setRows Ap Ai c (zeroFill neq s.filled)⟩ with hs1
      set s2 := (intRange (c + 1) neq).foldl (cg1Inner Ap Ai (gn + 1)) s1 with hs2
      -- invariants at s1
      have hlab1 : LabelsLe neq (gn + 1) s1.cg := by
        intro t ht1 ht2
        dsimp only [hs1]
        by_cases htt : t = c
        · subst htt; rw [Function.update_same]
        · rw [Function.update_noteq htt]; exact (h2 t ht1 ht2).trans (by omega)
      have hdisj1 : DisjOn Ap Ai neq s1.cg := by
        intro t t' ht1 ht2 ht3 ht4 hne hge heq
        dsimp only [hs1] at hge heq
        by_cases htt : t = c <;> by_cases htt' : t' = c
        · exact absurd (htt.trans htt'.symm) hne
        · subst htt
          rw [Function.update_same] at heq
          rw [Function.update_noteq htt'] at heq
          have := h2 t' ht3 ht4
          omega
        · subst htt'
          rw [Function.update_same] at heq
          rw [Function.update_noteq htt] at heq
          have := h2 t ht1 ht2
          omega
        · rw [Function.update_noteq htt] at heq hge
          rw [Function.update_noteq htt'] at heq
          exact h3 t t' ht1 ht2 ht3 ht4 hne hge heq
      have hgrp1 : GroupRowsFilled Ap Ai neq (gn + 1) s1 := by
        intro t ht1 ht2 hcg i hi1 hi2
        dsimp only [hs1] at hcg ⊢
        by_cases htt : t = c
        · subst htt
          exact setRows_mem Ap Ai t _ hi1 hi2
        · rw [Function.update_noteq htt] at hcg
          have := h2 t ht1 ht2
          omega
      obtain ⟨k1, _, k3⟩ := cg1InnerFold_pres Ap Ai neq (gn + 1) (intRange (c + 1) neq) s1
        (fun t ht => by
          have := mem_intRange.1 ht
          omega) hdisj1 hgrp1 hlab1
      rw [← hs2] at k1 k3
      -- carry the invariants to s2 and recurse
      have hassigned : ∀ t, s1.cg t ≠ -1 → s2.cg t = s1.cg t := fun t ht => by
        rw [hs2]; exact cg1InnerFold_assigned Ap Ai (gn + 1) _ s1 t ht
      have hcgcases : ∀ t, s2.cg t = s1.cg t ∨ (s2.cg t = gn + 1 ∧ s1.cg t = -1) :=
        fun t => by rw [hs2]; exact cg1InnerFold_cg Ap Ai (gn + 1) _ s1 t
      have hs1c : s1.cg c = gn + 1 := by
        dsimp only [hs1]; exact Function.update_same c _ s.cg
      have hs2c : s2.cg c = gn + 1 := by
        rw [hassigned c (by omega), hs1c]
      have hatt2 : ∀ l, 0 ≤ l → l ≤ gn + 1 → ∃ t, 0 ≤ t ∧ t < neq ∧ s2.cg t = l := by
        intro l hl1 hl2
        by_cases hleq : l = gn + 1
        · exact ⟨c, hc0.1, hc0.2, by rw [hs2c, hleq]⟩
        · obtain ⟨t, ht1, ht2, ht3⟩ := h4 l hl1 (by omega)
          have hne : s.cg t ≠ -1 := by omega
          have htc : t ≠ c := fun h => hne (h ▸ hc)
          have hs1t : s1.cg t = s.cg t := by
            dsimp only [hs1]; exact Function.update_noteq htc _ s.cg
          refine ⟨t, ht1, ht2, ?_⟩
          rw [hassigned t (by rw [hs1t]; exact hne), hs1t, ht3]
      obtain ⟨j1, j2, j3, j4, j5, j6, j7⟩ := ih s2 (gn + 1) hcs' (by omega) k3 k1 hatt2
      refine ⟨by omega, j2, j3, ?_, ?_, j6, ?_⟩
      · intro t ht
        have htc : t ≠ c := fun h => ht (h ▸ hc)
        have hs1t : s1.cg t = s.cg t := by
          dsimp only [hs1]; exact Function.update_noteq htc _ s.cg
        have hs2t : s2.cg t = s.cg t := by
          rw [hassigned t (by rw [hs1t]; exact ht), hs1t]
        rw [j4 t (by rw [hs2t]; exact ht), hs2t]
      · intro c' hc'
        rcases List.mem_cons.mp hc' with rfl | hmem
        · rw [j4 c' (by rw [hs2c]; omega), hs2c]
          omega
        · exact j5 c' hmem
      · intro t
        rcases j7 t with h | h
        · rcases hcgcases t with hh | ⟨hh, _⟩
          · by_cases htc : t = c
            · subst htc
              right
              rw [h, hh, hs1c]
              omega
            · left
              rw [h, hh]
              dsimp only [hs1]
              exact Function.update_noteq htc _ s.cg
          · right
            rw [h, hh]
            omega
        · exact Or.inr h

theorem zeroFill_bin (neq : ℤ) (f : ℤ → ℤ) : FilledBin neq (zeroFill neq f) := by
  intro r h1 h2
  rw [zeroFill_apply, if_pos ⟨h1, h2⟩]
  exact Or.inl rfl

theorem setRows_bin (Ap Ai : ℤ → ℤ) (t neq : ℤ) (f : ℤ → ℤ) (h : FilledBin neq f) :
    FilledBin neq (setRows Ap Ai t f) := by
  intro r h1 h2
  rw [setRows_apply]
  split
  · exact Or.inr rfl
  · exact h r h1 h2

theorem cg2Scan_skip (Ap Ai : ℤ → ℤ) (g : ℤ) (d : Bool) (s : CGSt) (t : ℤ)
    (h : s.cg t ≠ -1) : cg2Scan Ap Ai g (d, s) t = (d, s) := by
  unfold cg2Scan
  rw [if_pos h]

theorem cg2Scan_seed (Ap Ai : ℤ → ℤ) (g : ℤ) (d : Bool) (s : CGSt) (t : ℤ)
    (h1 : s.cg t = -1) (h2 : cg2Fit Ap Ai s.filled t = true) :
    cg2Scan Ap Ai g (d, s) t =
      (false, ⟨Function.update s.cg t g, setRows Ap Ai t s.filled⟩) := by
  unfold cg2Scan
  rw [if_neg (fun hh => hh h1)]
  rw [if_pos h2]

theorem cg2ScanFold_skip (Ap Ai : ℤ → ℤ) (g : ℤ) (l : List ℤ) (d : Bool) (s : CGSt)
    (h : ∀ t ∈ l, s.cg t ≠ -1) : l.foldl (cg2Scan Ap Ai g) (d, s) = (d, s) := by
  induction l with
  | nil => rfl
  | cons x xs ih =>
    simp only [List.foldl_cons]
    rw [cg2Scan_skip Ap Ai g d s x (h x (List.mem_cons_self x xs))]
    exact ih fun t ht => h t (List.mem_cons_of_mem x ht)

/-- Under 0/1 `filled` values and in-range row indices, the two fit
tests (`== 1` rejection versus `!= 0` rejection) coincide, and one
scan step of `column_grouping2` is exactly one inner step of
`column_grouping`. -/
theorem cg2Scan_eq_inner (Ap Ai : ℤ → ℤ) (neq g : ℤ) (hR : RowsInRange Ap Ai neq)
    (s : CGSt) (t : ℤ) (ht1 : 0 ≤ t) (ht2 : t < neq) (hb : FilledBin neq s.filled) :
    cg2Scan Ap Ai g (false, s) t = (false, cg1Inner Ap Ai g s t) := by
  by_cases hcg : s.cg t = -1
  · have hfit : cg2Fit Ap Ai s.filled t = cg1Fit Ap Ai s.filled t := by
      have hiff : cg2Fit Ap Ai s.filled t = true ↔ cg1Fit Ap Ai s.filled t = true := by
        rw [cg2Fit_iff, cg1Fit_iff]
        constructor
        · intro h i h1 h2
          rw [h i h1 h2]
          omega
        · intro h i h1 h2
          have hr := hR t (mem_intRange.2 ⟨ht1, ht2⟩) i (mem_intRange.2 ⟨h1, h2⟩)
          have hbin := hb (Ai i) hr.1 hr.2
          have := h i h1 h2
          omega
      cases hb1 : cg1Fit Ap Ai s.filled t
      · cases hb2 : cg2Fit Ap Ai s.filled t
        · rfl
        · have := hiff.1 hb2
          rw [hb1] at this
          exact absurd this (by decide)
      · exact hiff.2 hb1
    unfold cg2Scan cg1Inner
    rw [if_neg (by simpa using hcg), if_pos hcg]
    dsimp only
    rw [hfit]
  · unfold cg2Scan cg1Inner
    rw [if_pos (by simpa using hcg), if_neg hcg]

theorem cg2ScanFold_eq_inner (Ap Ai : ℤ → ℤ) (neq g : ℤ) (hR : RowsInRange Ap Ai neq)
    (l : List ℤ) (s : CGSt) (hl : ∀ t ∈ l, 0 ≤ t ∧ t < neq)
    (hb : FilledBin neq s.filled) :
    l.foldl (cg2Scan Ap Ai g) (false, s) = (false, l.foldl (cg1Inner Ap Ai g) s) := by
  induction l generalizing s with
  | nil => rfl
  | cons x xs ih =>
    have hx := hl x (List.mem_cons_self x xs)
    simp only [List.foldl_cons]
    rw [cg2Scan_eq_inner Ap Ai neq g hR s x hx.1 hx.2 hb]
    exact ih _ (fun t ht => hl t (List.mem_cons_of_mem x ht))
      (cg1Inner_filledBin Ap Ai neq g s x hb)

/-- The break / loop-exhaustion cases: when every column is already
grouped, `column_grouping`'s remaining outer iterations do nothing and
`column_grouping2` exits with `groupnum = g` (break) or `groupnum =
neq` (loop end), so both agree on the assignment and on
`return₁ = groupnum - 1`. -/
theorem cgEquivDone (Ap Ai : ℤ → ℤ) (neq g : ℤ) (s : CGSt)
    (hg0 : 0 ≤ g) (hgneq : g ≤ neq)
    (hall : ∀ t, 0 ≤ t → t < neq → s.cg t ≠ -1) :
    g - 1 = (cg2Loop Ap Ai neq (intRange g neq) s).1 - 1 ∧
      s.cg = (cg2Loop Ap Ai neq (intRange g neq) s).2.cg := by
  by_cases hg : g = neq
  · subst hg
    rw [intRange_eq_nil (le_refl g)]
    unfold cg2Loop
    exact ⟨rfl, rfl⟩
  · have hlt : g < neq := lt_of_le_of_ne hgneq hg
    rw [intRange_cons hlt]
    have hsk := cg2ScanFold_skip Ap Ai g (intRange 0 neq) true
      ⟨s.cg, zeroFill neq s.filled⟩
      (fun t ht => hall t (mem_intRange.1 ht).1 (mem_intRange.1 ht).2)
    have hloop : cg2Loop Ap Ai neq (g :: intRange (g + 1) neq) s =
        (g, ⟨s.cg, zeroFill neq s.filled⟩) := by
      rw [cg2Loop]
      rw [hsk]
      rfl
    rw [hloop]
    exact ⟨rfl, rfl⟩

/-- Equivalence of the two column groupers, by induction on the
remaining column range: from any state in which the columns `0 .. c-1`
are grouped and the next group number is `g ≤ c`, the remaining runs
of `column_grouping` (from column `c`, last group `g - 1`) and of
`column_grouping2` (from group `g`) produce the same `col_g` and
returns that differ by the fixed offset. -/
theorem cgEquiv (Ap Ai : ℤ → ℤ) (neq : ℤ) (hR : RowsInRange Ap Ai neq) :
    ∀ (m : ℕ) (c g : ℤ) (s : CGSt),
      (neq - c).toNat ≤ m → 0 ≤ c → c ≤ neq → 0 ≤ g → g ≤ c →
      (∀ t, 0 ≤ t → t < c → s.cg t ≠ -1) →
      (cg1Outer Ap Ai neq (intRange c neq) s (g - 1)).1 =
        (cg2Loop Ap Ai neq (intRange g neq) s).1 - 1 ∧
      (cg1Outer Ap Ai neq (intRange c neq) s (g - 1)).2.cg =
        (cg2Loop Ap Ai neq (intRange g neq) s).2.cg := by
  intro m
  induction m with
  | zero =>
    intro c g s hm hc0 hcneq hg0 hgc hpre
    have hceq : c = neq := by omega
    rw [intRange_eq_nil (by omega : neq ≤ c)]
    obtain ⟨h1, h2⟩ := cgEquivDone Ap Ai neq g s hg0 (by omega)
      (fun t ht1 ht2 => hpre t ht1 (by omega))
    exact ⟨h1, h2⟩
  | succ m ih =>
    intro c g s hm hc0 hcneq hg0 hgc hpre
    by_cases hceq : c = neq
    · rw [intRange_eq_nil (by omega : neq ≤ c)]
      obtain ⟨h1, h2⟩ := cgEquivDone Ap Ai neq g s hg0 (by omega)
        (fun t ht1 ht2 => hpre t ht1 (by omega))
      exact ⟨h1, h2⟩
    · have hclt : c < neq := lt_of_le_of_ne hcneq hceq
      by_cases hcg : s.cg c = -1
      · -- column c seeds group g on both sides
        have hglt : g < neq := by omega
        -- the cg1 side
        have h1unf : cg1Outer Ap Ai neq (intRange c neq) s (g - 1) =
            cg1Outer Ap Ai neq (intRange (c + 1) neq)
              ((intRange (c + 1) neq).foldl (cg1Inner Ap Ai g)
                ⟨Function.update s.cg c g,
                  setRows Ap Ai c (zeroFill neq s.filled)⟩) g := by
          rw [intRange_cons hclt]
          conv_lhs => rw [cg1Outer]
          rw [if_pos hcg]
          have hgg : g - 1 + 1 = g := by omega
          rw [hgg]
        -- the cg2 side
        set s1 : CGSt := ⟨Function.update s.cg c g,
          setRows Ap Ai c (zeroFill neq s.filled)⟩ with hs1
        set s2 := (intRange (c + 1) neq).foldl (cg1Inner Ap Ai g) s1 with hs2
        have hscan : (intRange 0 neq).foldl (cg2Scan Ap Ai g)
            (true, ⟨s.cg, zeroFill neq s.filled⟩) = (false, s2) := by
          rw [intRange_append (le_refl 0 |>.trans hc0) (le_of_lt hclt),
            intRange_cons hclt, List.foldl_append]
          rw [cg2ScanFold_skip Ap Ai g (intRange 0 c) true
            ⟨s.cg, zeroFill neq s.filled⟩
            (fun t ht => hpre t (mem_intRange.1 ht).1 (mem_intRange.1 ht).2)]
          simp only [List.foldl_cons]
          have hfit : cg2Fit Ap Ai (zeroFill neq s.filled) c = true := by
            rw [cg2Fit_iff]
            intro i h1 h2
            have hr := hR c (mem_intRange.2 ⟨hc0, hclt⟩) i (mem_intRange.2 ⟨h1, h2⟩)
            rw [zeroFill_apply, if_pos ⟨hr.1, hr.2⟩]
          have hstep : cg2Scan Ap Ai g (true, ⟨s.cg, zeroFill neq s.filled⟩) c =
              (false, s1) :=
            cg2Scan_seed Ap Ai g true ⟨s.cg, zeroFill neq s.filled⟩ c hcg hfit
          rw [hstep]
          rw [cg2ScanFold_eq_inner Ap Ai neq g hR _ s1
            (fun t ht => ⟨by have := (mem_intRange.1 ht).1; omega,
              (mem_intRange.1 ht).2⟩)
            (setRows_bin Ap Ai c neq _ (zeroFill_bin neq s.filled))]
        have h2unf : cg2Loop Ap Ai neq (intRange g neq) s =
            cg2Loop Ap Ai neq (intRange (g + 1) neq) s2 := by
          rw [intRange_cons hglt]
          conv_lhs => rw [cg2Loop]
          rw [hscan]
          rfl
        rw [h1unf, h2unf]
        have hpre' : ∀ t, 0 ≤ t → t < c + 1 → s2.cg t ≠ -1 := by
          intro t ht1 ht2
          by_cases htc : t = c
          · subst htc
            have hs1c : s1.cg t = g := by
              dsimp only [hs1]; exact Function.update_same t g s.cg
            rw [hs2, cg1InnerFold_assigned Ap Ai g _ s1 t (by omega), hs1c]
            omega
          · have htc' : t < c := by omega
            have hold := hpre t ht1 htc'
            have hs1t : s1.cg t = s.cg t := by
              dsimp only [hs1]; exact Function.update_noteq htc g s.cg
            rw [hs2, cg1InnerFold_assigned Ap Ai g _ s1 t (by rw [hs1t]; exact hold),
              hs1t]
            exact hold
        have := ih (c + 1) (g + 1) s2 (by omega) (by omega) (by omega) (by omega)
          (by omega) hpre'
        have hgg1 : g + 1 - 1 = g := by omega
        rw [hgg1] at this
        exact this
      · -- column c is already grouped: cg1 skips it
        have h1unf : cg1Outer Ap Ai neq (intRange c neq) s (g - 1) =
            cg1Outer Ap Ai neq (intRange (c + 1) neq) s (g - 1) := by
          rw [intRange_cons hclt]
          conv_lhs => rw [cg1Outer]
          rw [if_neg hcg]
        rw [h1unf]
        exact ih (c + 1) g s (by omega) (by omega) (by omega) hg0 (by omega)
          (fun t ht1 ht2 => by
            by_cases htc : t = c
            · subst htc; exact hcg
            · exact hpre t ht1 (by omega))

/-! ### Lemmas about the pattern union builder -/

theorem foldl_incr_count (idx : ℤ → ℤ) (l : List ℤ) (w0 : ℤ → ℤ) (r : ℤ) :
    (l.foldl (fun w i => Function.update w (idx i) (w (idx i) + 1)) w0) r =
      w0 r + ((l.filter (fun i => idx i = r)).length : ℤ) := by
  induction l generalizing w0 with
  | nil => simp
  | cons x xs ih =>
    simp only [List.foldl_cons]
    rw [ih]
    by_cases hx : idx x = r
    · subst hx
      rw [List.filter_cons_of_pos (by simp)]
      rw [Function.update_same]
      simp only [List.length_cons]
      push_cast
      ring
    · rw [List.filter_cons_of_neg (by simpa using hx)]
      rw [Function.update_noteq (fun h => hx h.symm)]

theorem foldl_flatMap {α β σ : Type} (g : α → List β) (f : σ → β → σ) (l : List α)
    (s : σ) :
    l.foldl (fun s a => (g a).foldl f s) s = (l.flatMap g).foldl f s := by
  induction l generalizing s with
  | nil => rfl
  | cons x xs ih =>
    simp only [List.foldl_cons, List.flatMap_cons, List.foldl_append]
    exact ih _

/-- Chained monotonicity of a column-pointer array. -/
theorem Ap_mono_chain (Ap : ℤ → ℤ) :
    ∀ (m : ℕ), (∀ j : ℤ, 0 ≤ j → j < (m : ℤ) → Ap j ≤ Ap (j + 1)) →
      Ap 0 ≤ Ap (m : ℤ) := by
  intro m
  induction m with
  | zero =>
    intro _
    simp
  | succ m ih =>
    intro h
    have h1 : Ap 0 ≤ Ap (m : ℤ) := ih fun j a b => h j a (by push_cast; omega)
    have h2 : Ap (m : ℤ) ≤ Ap ((m : ℤ) + 1) := h (m : ℤ) (by positivity) (by
      push_cast; omega)
    have hcast : ((m + 1 : ℕ) : ℤ) = (m : ℤ) + 1 := by push_cast; ring
    rw [hcast]
    omega

/-- The column ranges of a monotone pointer array partition the full
position range. -/
theorem flatMap_intRange_partition (Ap : ℤ → ℤ) :
    ∀ (m : ℕ), (∀ j : ℤ, 0 ≤ j → j < (m : ℤ) → Ap j ≤ Ap (j + 1)) →
      (intRange 0 (m : ℤ)).flatMap (fun j => intRange (Ap j) (Ap (j + 1))) =
        intRange (Ap 0) (Ap (m : ℤ)) := by
  intro m
  induction m with
  | zero =>
    intro _
    simp only [Nat.cast_zero]
    rw [intRange_eq_nil (le_refl 0)]
    rw [intRange_eq_nil (le_refl (Ap 0))]
    rfl
  | succ m ih =>
    intro hmono
    have hm : (0 : ℤ) < (m : ℤ) + 1 := by positivity
    have hcast : ((m + 1 : ℕ) : ℤ) = (m : ℤ) + 1 := by push_cast; ring
    rw [hcast]
    rw [intRange_snoc hm]
    simp only [List.flatMap_append, List.flatMap_cons, List.flatMap_nil,
      List.append_nil, add_sub_cancel_right]
    rw [ih (fun j h1 h2 => hmono j h1 (by omega))]
    have hm0 : Ap 0 ≤ Ap (m : ℤ) :=
      Ap_mono_chain Ap m (fun j h1 h2 => hmono j h1 (by omega))
    have hmm : Ap (m : ℤ) ≤ Ap ((m : ℤ) + 1) :=
      hmono (m : ℤ) (by positivity) (by omega)
    rw [← intRange_append hm0 hmm]

theorem count_append (p : ℤ × ℤ → Bool) (l1 l2 : List (ℤ × ℤ)) :
    ((l1 ++ l2).filter p).length = (l1.filter p).length + (l2.filter p).length := by
  rw [List.filter_append, List.length_append]

theorem sumRange_zero (f : ℤ → ℤ) : sumRange f 0 = 0 := by
  unfold sumRange
  rw [intRange_eq_nil (le_refl 0)]
  rfl

theorem sumRange_succ (f : ℤ → ℤ) {j : ℤ} (h : 0 ≤ j) :
    sumRange f (j + 1) = sumRange f j + f j := by
  unfold sumRange
  rw [intRange_snoc (by omega), List.map_append, List.sum_append]
  simp

theorem sumRange_mono (f : ℤ → ℤ) (hf : ∀ x, 0 ≤ f x) :
    ∀ (d : ℕ) (a : ℤ), 0 ≤ a → sumRange f a ≤ sumRange f (a + (d : ℤ)) := by
  intro d
  induction d with
  | zero => intro a _; simp
  | succ d ih =>
    intro a ha
    have h1 := ih a ha
    have h2 : sumRange f (a + (d : ℤ) + 1) = sumRange f (a + (d : ℤ)) + f (a + (d : ℤ)) :=
      sumRange_succ f (by positivity)
    have h3 := hf (a + (d : ℤ))
    have hcast : a + ((d + 1 : ℕ) : ℤ) = a + (d : ℤ) + 1 := by push_cast; ring
    rw [hcast, h2]
    omega

theorem sumRange_le_of_le (f : ℤ → ℤ) (hf : ∀ x, 0 ≤ f x) {a b : ℤ}
    (ha : 0 ≤ a) (hab : a ≤ b) : sumRange f a ≤ sumRange f b := by
  have := sumRange_mono f hf (b - a).toNat a ha
  rw [show a + ((b - a).toNat : ℤ) = b by omega] at this
  exact this

/-- The cumulative-sum loop: after `m` iterations, `nz` holds the
prefix sum, `Tp` holds the prefix sums on `0 .. m-1` (and is untouched
elsewhere), and `w` has been overwritten by the same prefix sums on
`0 .. m-1` (keeping the histogram elsewhere). -/
theorem patCum_spec (w1 : ℤ → ℤ) :
    ∀ (m : ℕ),
      ((intRange 0 (m : ℤ)).foldl patCumStep ((fun _ => 0), w1, 0)).2.2 =
        sumRange w1 (m : ℤ) ∧
      (∀ r, 0 ≤ r → r < (m : ℤ) →
        ((intRange 0 (m : ℤ)).foldl patCumStep ((fun _ => 0), w1, 0)).1 r =
          sumRange w1 r) ∧
      (∀ r, ¬(0 ≤ r ∧ r < (m : ℤ)) →
        ((intRange 0 (m : ℤ)).foldl patCumStep ((fun _ => 0), w1, 0)).1 r = 0) ∧
      (∀ r, 0 ≤ r → r < (m : ℤ) →
        ((intRange 0 (m : ℤ)).foldl patCumStep ((fun _ => 0), w1, 0)).2.1 r =
          sumRange w1 r) ∧
      (∀ r, ¬(0 ≤ r ∧ r < (m : ℤ)) →
        ((intRange 0 (m : ℤ)).foldl patCumStep ((fun _ => 0), w1, 0)).2.1 r = w1 r) := by
  intro m
  induction m with
  | zero =>
    simp only [Nat.cast_zero]
    rw [intRange_eq_nil (le_refl 0)]
    refine ⟨(sumRange_zero w1).symm, ?_, ?_, ?_, ?_⟩ <;> intro r h1 <;> first
      | (intro h2; omega)
      | rfl
  | succ m ih =>
    obtain ⟨i1, i2, i3, i4, i5⟩ := ih
    have hcast : ((m + 1 : ℕ) : ℤ) = (m : ℤ) + 1 := by push_cast; ring
    have hsnoc : intRange 0 ((m + 1 : ℕ) : ℤ) = intRange 0 (m : ℤ) ++ [(m : ℤ)] := by
      rw [hcast, intRange_snoc (by positivity)]
      simp
    rw [hsnoc, List.foldl_append]
    set st := (intRange 0 (m : ℤ)).foldl patCumStep ((fun _ => 0), w1, 0) with hst
    simp only [List.foldl_cons, List.foldl_nil]
    have hwm : st.2.1 (m : ℤ) = w1 (m : ℤ) := i5 (m : ℤ) (by omega)
    have hstep : patCumStep st (m : ℤ) =
        (Function.update st.1 (m : ℤ) st.2.2,
          Function.update st.2.1 (m : ℤ) st.2.2,
          st.2.2 + st.2.1 (m : ℤ)) := by
      unfold patCumStep
      simp only [Function.update_same]
    rw [hstep]
    refine ⟨?_, ?_, ?_, ?_, ?_⟩
    · dsimp only
      rw [hcast, sumRange_succ w1 (by positivity), ← i1, hwm]
    · intro r h1 h2
      dsimp only
      by_cases hr : r = (m : ℤ)
      · subst hr
        rw [Function.update_same, i1]
      · rw [Function.update_noteq hr]
        exact i2 r h1 (by omega)
    · intro r h1
      dsimp only
      rw [hcast] at h1
      rw [Function.update_noteq (by omega)]
      exact i3 r (by omega)
    · intro r h1 h2
      dsimp only
      by_cases hr : r = (m : ℤ)
      · subst hr
        rw [Function.update_same, i1]
      · rw [Function.update_noteq hr]
        exact i4 r h1 (by omega)
    · intro r h1
      dsimp only
      rw [hcast] at h1
      rw [Function.update_noteq (by omega)]
      exact i5 r (by omega)

/-- The scatter pass is the fold of single writes over the flattened
work list. -/
theorem patScat_eq_pairs (Ap Ai : ℤ → ℤ) (n : ℤ) :
    patScat Ap Ai n =
      (patPairs Ap n).foldl (patScatStep Ai) ((fun _ => 0), (patCum Ap Ai n).2.1) := by
  unfold patScat patPairs
  rw [← foldl_flatMap]
  congr 1
  funext s j
  rw [List.foldl_map]
  rfl

theorem mem_patPairs (Ap : ℤ → ℤ) (n : ℤ) (pr : ℤ × ℤ) :
    pr ∈ patPairs Ap n ↔
      0 ≤ pr.1 ∧ pr.1 < n ∧ Ap pr.1 ≤ pr.2 ∧ pr.2 < Ap (pr.1 + 1) := by
  unfold patPairs
  rw [List.mem_flatMap]
  constructor
  · rintro ⟨j, hj, hpr⟩
    rw [List.mem_map] at hpr
    obtain ⟨i, hi, hpe⟩ := hpr
    have h1 := mem_intRange.1 hj
    have h2 := mem_intRange.1 hi
    rw [← hpe]
    exact ⟨h1.1, h1.2, h2.1, h2.2⟩
  · rintro ⟨h1, h2, h3, h4⟩
    refine ⟨pr.1, mem_intRange.2 ⟨h1, h2⟩, List.mem_map.2 ⟨pr.2, mem_intRange.2 ⟨h3, h4⟩, ?_⟩⟩
    exact Prod.mk.eta

/-- The second components of the work list enumerate every position of
the index array, in order. -/
theorem patPairs_snd (Ap : ℤ → ℤ) (n : ℤ) (hn : 0 ≤ n) (hAp0 : Ap 0 = 0)
    (hmono : ∀ j, 0 ≤ j → j < n → Ap j ≤ Ap (j + 1)) :
    (patPairs Ap n).map Prod.snd = intRange 0 (Ap n) := by
  unfold patPairs
  rw [List.map_flatMap]
  have hinner : ∀ j ∈ intRange 0 n,
      ((intRange (Ap j) (Ap (j + 1))).map (fun i => (j, i))).map Prod.snd =
        intRange (Ap j) (Ap (j + 1)) := by
    intro j _
    rw [List.map_map]
    simp
  rw [List.flatMap_congr hinner]
  have hcast : n = ((n.toNat : ℕ) : ℤ) := by omega
  rw [hcast]
  rw [flatMap_intRange_partition Ap n.toNat (fun j h1 h2 => hmono j h1 (by omega))]
  rw [hAp0]

/-- The histogram is nonnegative. -/
theorem patHist_nonneg (Ap Ai : ℤ → ℤ) (n r : ℤ) : 0 ≤ patHist Ap Ai n r := by
  unfold patHist
  rw [foldl_incr_count]
  simp only [zero_add]
  positivity

/-- Over the whole work list, the per-row counts are the histogram. -/
theorem patCnt_total (Ap Ai : ℤ → ℤ) (n r : ℤ) (hn : 0 ≤ n) (hAp0 : Ap 0 = 0)
    (hmono : ∀ j, 0 ≤ j → j < n → Ap j ≤ Ap (j + 1)) :
    patCnt Ai r (patPairs Ap n) = patHist Ap Ai n r := by
  unfold patCnt patHist
  rw [foldl_incr_count]
  simp only [zero_add]
  rw [← patPairs_snd Ap n hn hAp0 hmono, List.filter_map, List.length_map]
  rfl

theorem patCnt_nonneg (Ai : ℤ → ℤ) (r : ℤ) (L : List (ℤ × ℤ)) :
    0 ≤ patCnt Ai r L := by
  unfold patCnt
  positivity

theorem patCnt_append (Ai : ℤ → ℤ) (r : ℤ) (L1 L2 : List (ℤ × ℤ)) :
    patCnt Ai r (L1 ++ L2) = patCnt Ai r L1 + patCnt Ai r L2 := by
  unfold patCnt
  rw [List.filter_append, List.length_append]
  push_cast
  ring

theorem patCnt_singleton_pos (Ai : ℤ → ℤ) {r : ℤ} {pr : ℤ × ℤ} (h : Ai pr.2 = r) :
    patCnt Ai r [pr] = 1 := by
  unfold patCnt
  rw [List.filter_cons_of_pos (by simpa using h)]
  rfl

theorem patCnt_singleton_neg (Ai : ℤ → ℤ) {r : ℤ} {pr : ℤ × ℤ} (h : ¬ Ai pr.2 = r) :
    patCnt Ai r [pr] = 0 := by
  unfold patCnt
  rw [List.filter_cons_of_neg (by simpa using h)]
  rfl

theorem patVals_append (Ai : ℤ → ℤ) (r : ℤ) (L1 L2 : List (ℤ × ℤ)) :
    patVals Ai r (L1 ++ L2) = patVals Ai r L1 ++ patVals Ai r L2 := by
  unfold patVals
  rw [List.filter_append, List.map_append]

theorem patVals_singleton_pos (Ai : ℤ → ℤ) {r : ℤ} {pr : ℤ × ℤ} (h : Ai pr.2 = r) :
    patVals Ai r [pr] = [pr.1] := by
  unfold patVals
  rw [List.filter_cons_of_pos (by simpa using h)]
  rfl

theorem patVals_singleton_neg (Ai : ℤ → ℤ) {r : ℤ} {pr : ℤ × ℤ} (h : ¬ Ai pr.2 = r) :
    patVals Ai r [pr] = [] := by
  unfold patVals
  rw [List.filter_cons_of_neg (by simpa using h)]
  rfl

/-- Membership in the per-row column list. -/
theorem mem_patVals (Ai : ℤ → ℤ) (r x : ℤ) (L : List (ℤ × ℤ)) :
    x ∈ patVals Ai r L ↔ ∃ pr ∈ L, Ai pr.2 = r ∧ pr.1 = x := by
  unfold patVals
  simp only [List.mem_map, List.mem_filter, decide_eq_true_eq]
  constructor
  · rintro ⟨pr, ⟨hm, he⟩, hx⟩
    exact ⟨pr, hm, he, hx⟩
  · rintro ⟨pr, hm, he, hx⟩
    exact ⟨pr, ⟨hm, he⟩, hx⟩

/-- The write cursors initialise to the row-range starting offsets. -/
theorem patCum_w_in (Ap Ai : ℤ → ℤ) (n : ℤ) (hn : 0 ≤ n) {r : ℤ}
    (h1 : 0 ≤ r) (h2 : r < n) :
    (patCum Ap Ai n).2.1 r = sumRange (patHist Ap Ai n) r := by
  unfold patCum
  have hcast : intRange 0 n = intRange 0 ((n.toNat : ℕ) : ℤ) := by
    rw [Int.toNat_of_nonneg hn]
  rw [hcast]
  exact (patCum_spec (patHist Ap Ai n) n.toNat).2.2.2.1 r h1 (by omega)

/-- The interior transpose column pointers are the prefix sums. -/
theorem patCum_Tp_in (Ap Ai : ℤ → ℤ) (n : ℤ) (hn : 0 ≤ n) {r : ℤ}
    (h1 : 0 ≤ r) (h2 : r < n) :
    (patCum Ap Ai n).1 r = sumRange (patHist Ap Ai n) r := by
  unfold patCum
  have hcast : intRange 0 n = intRange 0 ((n.toNat : ℕ) : ℤ) := by
    rw [Int.toNat_of_nonneg hn]
  rw [hcast]
  exact (patCum_spec (patHist Ap Ai n) n.toNat).2.1 r h1 (by omega)

/-- The final transpose entry count is the total prefix sum. -/
theorem patCum_nz (Ap Ai : ℤ → ℤ) (n : ℤ) (hn : 0 ≤ n) :
    (patCum Ap Ai n).2.2 = sumRange (patHist Ap Ai n) n := by
  unfold patCum
  have hcast : intRange 0 n = intRange 0 ((n.toNat : ℕ) : ℤ) := by
    rw [Int.toNat_of_nonneg hn]
  rw [hcast]
  have h := (patCum_spec (patHist Ap Ai n) n.toNat).1
  rw [h, Int.toNat_of_nonneg hn]

/-- The completed transpose column pointers (with `Tp[n] = nz`) are
everywhere the histogram prefix sums on `0 .. n`. -/
theorem patTp_eq (Ap Ai : ℤ → ℤ) (n : ℤ) (hn : 0 ≤ n) {r : ℤ}
    (h1 : 0 ≤ r) (h2 : r ≤ n) :
    patTp Ap Ai n r = sumRange (patHist Ap Ai n) r := by
  unfold patTp
  by_cases hr : r = n
  · rw [hr, Function.update_same]
    exact patCum_nz Ap Ai n hn
  · rw [Function.update_noteq hr]
    exact patCum_Tp_in Ap Ai n hn h1 (by omega)

/-- Scatter invariant: after any prefix of the work list, each in-range
row's cursor has advanced from its starting offset by the number of
entries of that row seen so far, and the positions between offset and
cursor hold exactly that row's columns, in order. -/
theorem patScat_inv (Ap Ai : ℤ → ℤ) (n : ℤ) (hn : 0 ≤ n) (hAp0 : Ap 0 = 0)
    (hmono : ∀ j, 0 ≤ j → j < n → Ap j ≤ Ap (j + 1))
    (hRows : ∀ pr ∈ patPairs Ap n, 0 ≤ Ai pr.2 ∧ Ai pr.2 < n) :
    ∀ (L : List (ℤ × ℤ)), (∃ R, patPairs Ap n = L ++ R) →
      ∀ r, 0 ≤ r → r < n →
        (L.foldl (patScatStep Ai) ((fun _ => 0), (patCum Ap Ai n).2.1)).2 r =
          sumRange (patHist Ap Ai n) r + patCnt Ai r L ∧
        (intRange (sumRange (patHist Ap Ai n) r)
            (sumRange (patHist Ap Ai n) r + patCnt Ai r L)).map
          (L.foldl (patScatStep Ai) ((fun _ => 0), (patCum Ap Ai n).2.1)).1 =
          patVals Ai r L := by
  intro L
  induction L using List.reverseRecOn with
  | nil =>
    intro _ r h1 h2
    have hc0 : patCnt Ai r [] = 0 := by simp [patCnt]
    constructor
    · simp only [List.foldl_nil]
      rw [patCum_w_in Ap Ai n hn h1 h2, hc0, add_zero]
    · simp only [List.foldl_nil]
      rw [hc0, add_zero, intRange_eq_nil (le_refl _)]
      rfl
  | append_singleton L pr ih =>
    intro hex r hr1 hr2
    obtain ⟨R, hsplit⟩ := hex
    have hsplit' : patPairs Ap n = L ++ (pr :: R) := by
      rw [hsplit, List.append_assoc, List.singleton_append]
    have ihL := ih ⟨pr :: R, hsplit'⟩
    have hprmem : pr ∈ patPairs Ap n := by
      rw [hsplit]
      exact List.mem_append.2 (Or.inl (List.mem_append.2 (Or.inr (List.mem_singleton.2 rfl))))
    have hr0 := hRows pr hprmem
    have htotr0 : patCnt Ai (Ai pr.2) (patPairs Ap n) = patHist Ap Ai n (Ai pr.2) :=
      patCnt_total Ap Ai n (Ai pr.2) hn hAp0 hmono
    have hsplitcnt : patCnt Ai (Ai pr.2) (patPairs Ap n) =
        patCnt Ai (Ai pr.2) L + patCnt Ai (Ai pr.2) (pr :: R) := by
      rw [hsplit']
      exact patCnt_append Ai (Ai pr.2) L (pr :: R)
    have hge1 : 1 ≤ patCnt Ai (Ai pr.2) (pr :: R) := by
      have he : (pr :: R) = [pr] ++ R := rfl
      rw [he, patCnt_append, patCnt_singleton_pos Ai rfl]
      have := patCnt_nonneg Ai (Ai pr.2) R
      omega
    have hbound : patCnt Ai (Ai pr.2) L < patHist Ap Ai n (Ai pr.2) := by omega
    obtain ⟨W0, M0⟩ := ihL (Ai pr.2) hr0.1 hr0.2
    obtain ⟨Wr, Mr⟩ := ihL r hr1 hr2
    rw [List.foldl_append]
    simp only [List.foldl_cons, List.foldl_nil]
    set st := L.foldl (patScatStep Ai) ((fun _ => 0), (patCum Ap Ai n).2.1) with hst
    simp only [patScatStep]
    constructor
    · by_cases hrr : r = Ai pr.2
      · rw [hrr, Function.update_same, W0, patCnt_append, patCnt_singleton_pos Ai rfl]
        ring
      · rw [Function.update_noteq hrr, Wr, patCnt_append,
          patCnt_singleton_neg Ai (fun h => hrr h.symm)]
        ring
    · by_cases hrr : r = Ai pr.2
      · rw [hrr]
        rw [patCnt_append, patCnt_singleton_pos Ai rfl, patVals_append,
          patVals_singleton_pos Ai rfl]
        have hcnt0 := patCnt_nonneg Ai (Ai pr.2) L
        have hlt : sumRange (patHist Ap Ai n) (Ai pr.2) <
            sumRange (patHist Ap Ai n) (Ai pr.2) + (patCnt Ai (Ai pr.2) L + 1) := by omega
        rw [intRange_snoc hlt]
        have hb1 : sumRange (patHist Ap Ai n) (Ai pr.2) + (patCnt Ai (Ai pr.2) L + 1) - 1 =
            sumRange (patHist Ap Ai n) (Ai pr.2) + patCnt Ai (Ai pr.2) L := by ring
        rw [hb1, List.map_append]
        congr 1
        · rw [← M0]
          apply List.map_congr_left
          intro p hp
          have hpb := mem_intRange.1 hp
          exact Function.update_noteq (by rw [W0]; omega) _ _
        · simp only [List.map_cons, List.map_nil]
          rw [W0, Function.update_same]
      · rw [patCnt_append, patCnt_singleton_neg Ai (fun h => hrr h.symm), add_zero,
          patVals_append, patVals_singleton_neg Ai (fun h => hrr h.symm), List.append_nil]
        rw [← Mr]
        apply List.map_congr_left
        intro p hp
        have hpb := mem_intRange.1 hp
        apply Function.update_noteq
        rw [W0]
        have hw1 : ∀ x, 0 ≤ patHist Ap Ai n x := patHist_nonneg Ap Ai n
        have hcntr : patCnt Ai r L ≤ patHist Ap Ai n r := by
          have ht := patCnt_total Ap Ai n r hn hAp0 hmono
          have hs : patCnt Ai r (patPairs Ap n) =
              patCnt Ai r L + patCnt Ai r (pr :: R) := by
            rw [hsplit']
            exact patCnt_append Ai r L (pr :: R)
          have := patCnt_nonneg Ai r (pr :: R)
          omega
        have hcnt00 := patCnt_nonneg Ai (Ai pr.2) L
        rcases lt_or_gt_of_ne hrr with hlt | hgt
        · have h1 : sumRange (patHist Ap Ai n) (r + 1) =
              sumRange (patHist Ap Ai n) r + patHist Ap Ai n r := sumRange_succ _ hr1
          have h2 : sumRange (patHist Ap Ai n) (r + 1) ≤
              sumRange (patHist Ap Ai n) (Ai pr.2) :=
            sumRange_le_of_le _ hw1 (by omega) (by omega)
          omega
        · have h1 : sumRange (patHist Ap Ai n) (Ai pr.2 + 1) =
              sumRange (patHist Ap Ai n) (Ai pr.2) + patHist Ap Ai n (Ai pr.2) :=
            sumRange_succ _ hr0.1
          have h2 : sumRange (patHist Ap Ai n) (Ai pr.2 + 1) ≤
              sumRange (patHist Ap Ai n) r :=
            sumRange_le_of_le _ hw1 (by omega) (by omega)
          omega

/-- The finished scatter: row `r`'s transpose column occupies the
positions between consecutive prefix sums and lists exactly the
source columns holding row `r`. -/
theorem patScat_final (Ap Ai : ℤ → ℤ) (n : ℤ) (hn : 0 ≤ n) (hAp0 : Ap 0 = 0)
    (hmono : ∀ j, 0 ≤ j → j < n → Ap j ≤ Ap (j + 1))
    (hRows : ∀ pr ∈ patPairs Ap n, 0 ≤ Ai pr.2 ∧ Ai pr.2 < n) :
    ∀ r, 0 ≤ r → r < n →
      (intRange (sumRange (patHist Ap Ai n) r)
          (sumRange (patHist Ap Ai n) (r + 1))).map (patScat Ap Ai n).1 =
        patVals Ai r (patPairs Ap n) := by
  intro r h1 h2
  have hinv := (patScat_inv Ap Ai n hn hAp0 hmono hRows (patPairs Ap n)
    ⟨[], (List.append_nil _).symm⟩ r h1 h2).2
  rw [patScat_eq_pairs]
  have hend : sumRange (patHist Ap Ai n) r + patCnt Ai r (patPairs Ap n) =
      sumRange (patHist Ap Ai n) (r + 1) := by
    rw [patCnt_total Ap Ai n r hn hAp0 hmono, sumRange_succ _ h1]
  rw [← hend]
  exact hinv

theorem mergeWhile_zero (Av Tv : ℤ → ℤ) (aptr aend tptr tend : ℤ)
    (Ci : ℤ → ℤ) (nz : ℤ) :
    mergeWhile Av Tv 0 aptr aend tptr tend Ci nz = (Ci, nz, aptr, tptr) := rfl

theorem mergeWhile_succ (Av Tv : ℤ → ℤ) (fuel : ℕ) (aptr aend tptr tend : ℤ)
    (Ci : ℤ → ℤ) (nz : ℤ) :
    mergeWhile Av Tv (fuel + 1) aptr aend tptr tend Ci nz =
      if aptr < aend ∧ tptr < tend then
        if Av aptr < Tv tptr then
          mergeWhile Av Tv fuel (aptr + 1) aend tptr tend
            (Function.update Ci nz (Av aptr)) (nz + 1)
        else if Tv tptr < Av aptr then
          mergeWhile Av Tv fuel aptr aend (tptr + 1) tend
            (Function.update Ci nz (Tv tptr)) (nz + 1)
        else
          mergeWhile Av Tv fuel (aptr + 1) aend (tptr + 1) tend
            (Function.update Ci nz (Av aptr)) (nz + 1)
      else (Ci, nz, aptr, tptr) := rfl

/-- The trailing dump loop: it advances `nz` by the segment length,
preserves earlier positions, and writes exactly the segment's values
into the fresh positions. -/
theorem mergeDump_spec (v : ℤ → ℤ) :
    ∀ (d : ℕ) (a b : ℤ), b - a = (d : ℤ) → ∀ (Ci : ℤ → ℤ) (nz : ℤ),
      (mergeDump v a b Ci nz).2 = nz + (b - a) ∧
      (∀ p, p < nz → (mergeDump v a b Ci nz).1 p = Ci p) ∧
      (∀ x, (∃ p, nz ≤ p ∧ p < nz + (b - a) ∧ (mergeDump v a b Ci nz).1 p = x) ↔
        (∃ i, a ≤ i ∧ i < b ∧ v i = x)) := by
  intro d
  induction d with
  | zero =>
    intro a b hb Ci nz
    have hnil : intRange a b = [] := intRange_eq_nil (by omega)
    unfold mergeDump
    rw [hnil]
    dsimp only [List.foldl_nil]
    refine ⟨by omega, fun p _ => rfl, fun x => ?_⟩
    constructor
    · rintro ⟨p, hp1, hp2, _⟩
      omega
    · rintro ⟨i, h1, h2, _⟩
      omega
  | succ d ihd =>
    intro a b hb Ci nz
    have hab : a < b := by omega
    have hstep : mergeDump v a b Ci nz =
        mergeDump v (a + 1) b (Function.update Ci nz (v a)) (nz + 1) := by
      unfold mergeDump
      rw [intRange_cons hab]
      rfl
    obtain ⟨ih1, ih2, ih3⟩ := ihd (a + 1) b (by omega) (Function.update Ci nz (v a)) (nz + 1)
    rw [hstep]
    refine ⟨by rw [ih1]; ring, ?_, ?_⟩
    · intro p hp
      rw [ih2 p (by omega)]
      exact Function.update_noteq (by omega) _ _
    · intro x
      constructor
      · rintro ⟨p, hp1, hp2, hpv⟩
        by_cases hpn : p = nz
        · refine ⟨a, le_refl a, hab, ?_⟩
          rw [← hpv, hpn, ih2 nz (by omega), Function.update_same]
        · obtain ⟨i, hi1, hi2, hiv⟩ := (ih3 x).1 ⟨p, by omega, by omega, hpv⟩
          exact ⟨i, by omega, hi2, hiv⟩
      · rintro ⟨i, hi1, hi2, hiv⟩
        by_cases hia : i = a
        · refine ⟨nz, le_refl nz, by omega, ?_⟩
          rw [ih2 nz (by omega), Function.update_same, ← hia]
          exact hiv
        · obtain ⟨p, hp1, hp2, hpv⟩ := (ih3 x).2 ⟨i, by omega, hi2, hiv⟩
          exact ⟨p, by omega, by omega, hpv⟩

/-- The merge `while` loop: the pointers advance within their segments,
`nz` only grows, earlier positions are preserved, and the freshly
written positions hold exactly the values of the consumed parts of the
two segments. -/
theorem mergeWhile_spec (Av Tv : ℤ → ℤ) :
    ∀ (fuel : ℕ) (aptr aend tptr tend : ℤ) (Ci : ℤ → ℤ) (nz : ℤ),
      aptr ≤ aend → tptr ≤ tend →
      aptr ≤ (mergeWhile Av Tv fuel aptr aend tptr tend Ci nz).2.2.1 ∧
      (mergeWhile Av Tv fuel aptr aend tptr tend Ci nz).2.2.1 ≤ aend ∧
      tptr ≤ (mergeWhile Av Tv fuel aptr aend tptr tend Ci nz).2.2.2 ∧
      (mergeWhile Av Tv fuel aptr aend tptr tend Ci nz).2.2.2 ≤ tend ∧
      nz ≤ (mergeWhile Av Tv fuel aptr aend tptr tend Ci nz).2.1 ∧
      (∀ p, p < nz → (mergeWhile Av Tv fuel aptr aend tptr tend Ci nz).1 p = Ci p) ∧
      (∀ x, (∃ p, nz ≤ p ∧ p < (mergeWhile Av Tv fuel aptr aend tptr tend Ci nz).2.1 ∧
          (mergeWhile Av Tv fuel aptr aend tptr tend Ci nz).1 p = x) ↔
        ((∃ i, aptr ≤ i ∧ i < (mergeWhile Av Tv fuel aptr aend tptr tend Ci nz).2.2.1 ∧
            Av i = x) ∨
         (∃ i, tptr ≤ i ∧ i < (mergeWhile Av Tv fuel aptr aend tptr tend Ci nz).2.2.2 ∧
            Tv i = x))) := by
  intro fuel
  induction fuel with
  | zero =>
    intro aptr aend tptr tend Ci nz ha ht
    rw [mergeWhile_zero]
    dsimp only
    refine ⟨le_refl _, ha, le_refl _, ht, le_refl _, fun p _ => rfl, fun x => ?_⟩
    constructor
    · rintro ⟨p, hp1, hp2, _⟩
      omega
    · rintro (⟨i, h1, h2, _⟩ | ⟨i, h1, h2, _⟩) <;> omega
  | succ fuel ihf =>
    intro aptr aend tptr tend Ci nz ha ht
    by_cases hcond : aptr < aend ∧ tptr < tend
    · rcases lt_trichotomy (Av aptr) (Tv tptr) with hc | hc | hc
      · rw [mergeWhile_succ, if_pos hcond, if_pos hc]
        obtain ⟨b1, b2, b3, b4, b5, pres, memb⟩ := ihf (aptr + 1) aend tptr tend
          (Function.update Ci nz (Av aptr)) (nz + 1) (by omega) ht
        refine ⟨by omega, b2, b3, b4, by omega, ?_, ?_⟩
        · intro p hp
          rw [pres p (by omega)]
          exact Function.update_noteq (by omega) _ _
        · intro x
          constructor
          · rintro ⟨p, hp1, hp2, hpv⟩
            by_cases hpn : p = nz
            · refine Or.inl ⟨aptr, le_refl _, by omega, ?_⟩
              rw [← hpv, hpn, pres nz (by omega), Function.update_same]
            · rcases (memb x).1 ⟨p, by omega, hp2, hpv⟩ with ⟨i, h1, h2, h3⟩ | hT
              · exact Or.inl ⟨i, by omega, h2, h3⟩
              · exact Or.inr hT
          · rintro (⟨i, h1, h2, h3⟩ | ⟨i, h1, h2, h3⟩)
            · by_cases hia : i = aptr
              · refine ⟨nz, le_refl _, by omega, ?_⟩
                rw [pres nz (by omega), Function.update_same, ← hia]
                exact h3
              · obtain ⟨p, hp1, hp2, hpv⟩ := (memb x).2 (Or.inl ⟨i, by omega, h2, h3⟩)
                exact ⟨p, by omega, hp2, hpv⟩
            · obtain ⟨p, hp1, hp2, hpv⟩ := (memb x).2 (Or.inr ⟨i, h1, h2, h3⟩)
              exact ⟨p, by omega, hp2, hpv⟩
      · rw [mergeWhile_succ, if_pos hcond, if_neg (by omega), if_neg (by omega)]
        obtain ⟨b1, b2, b3, b4, b5, pres, memb⟩ := ihf (aptr + 1) aend (tptr + 1) tend
          (Function.update Ci nz (Av aptr)) (nz + 1) (by omega) (by omega)
        refine ⟨by omega, b2, by omega, b4, by omega, ?_, ?_⟩
        · intro p hp
          rw [pres p (by omega)]
          exact Function.update_noteq (by omega) _ _
        · intro x
          constructor
          · rintro ⟨p, hp1, hp2, hpv⟩
            by_cases hpn : p = nz
            · refine Or.inl ⟨aptr, le_refl _, by omega, ?_⟩
              rw [← hpv, hpn, pres nz (by omega), Function.update_same]
            · rcases (memb x).1 ⟨p, by omega, hp2, hpv⟩ with ⟨i, h1, h2, h3⟩ | ⟨i, h1, h2, h3⟩
              · exact Or.inl ⟨i, by omega, h2, h3⟩
              · exact Or.inr ⟨i, by omega, h2, h3⟩
          · rintro (⟨i, h1, h2, h3⟩ | ⟨i, h1, h2, h3⟩)
            · by_cases hia : i = aptr
              · refine ⟨nz, le_refl _, by omega, ?_⟩
                rw [pres nz (by omega), Function.update_same, ← hia]
                exact h3
              · obtain ⟨p, hp1, hp2, hpv⟩ := (memb x).2 (Or.inl ⟨i, by omega, h2, h3⟩)
                exact ⟨p, by omega, hp2, hpv⟩
            · by_cases hit : i = tptr
              · refine ⟨nz, le_refl _, by omega, ?_⟩
                rw [pres nz (by omega), Function.update_same, hc, ← hit]
                exact h3
              · obtain ⟨p, hp1, hp2, hpv⟩ := (memb x).2 (Or.inr ⟨i, by omega, h2, h3⟩)
                exact ⟨p, by omega, hp2, hpv⟩
      · rw [mergeWhile_succ, if_pos hcond, if_neg (by omega), if_pos hc]
        obtain ⟨b1, b2, b3, b4, b5, pres, memb⟩ := ihf aptr aend (tptr + 1) tend
          (Function.update Ci nz (Tv tptr)) (nz + 1) ha (by omega)
        refine ⟨b1, b2, by omega, b4, by omega, ?_, ?_⟩
        · intro p hp
          rw [pres p (by omega)]
          exact Function.update_noteq (by omega) _ _
        · intro x
          constructor
          · rintro ⟨p, hp1, hp2, hpv⟩
            by_cases hpn : p = nz
            · refine Or.inr ⟨tptr, le_refl _, by omega, ?_⟩
              rw [← hpv, hpn, pres nz (by omega), Function.update_same]
            · rcases (memb x).1 ⟨p, by omega, hp2, hpv⟩ with hA | ⟨i, h1, h2, h3⟩
              · exact Or.inl hA
              · exact Or.inr ⟨i, by omega, h2, h3⟩
          · rintro (⟨i, h1, h2, h3⟩ | ⟨i, h1, h2, h3⟩)
            · obtain ⟨p, hp1, hp2, hpv⟩ := (memb x).2 (Or.inl ⟨i, h1, h2, h3⟩)
              exact ⟨p, by omega, hp2, hpv⟩
            · by_cases hit : i = tptr
              · refine ⟨nz, le_refl _, by omega, ?_⟩
                rw [pres nz (by omega), Function.update_same, ← hit]
                exact h3
              · obtain ⟨p, hp1, hp2, hpv⟩ := (memb x).2 (Or.inr ⟨i, by omega, h2, h3⟩)
                exact ⟨p, by omega, hp2, hpv⟩
    · rw [mergeWhile_succ, if_neg hcond]
      dsimp only
      refine ⟨le_refl _, ha, le_refl _, ht, le_refl _, fun p _ => rfl, fun x => ?_⟩
      constructor
      · rintro ⟨p, hp1, hp2, _⟩
        omega
      · rintro (⟨i, h1, h2, _⟩ | ⟨i, h1, h2, _⟩) <;> omega

/-- One whole column merge: `nz` only grows, earlier positions are
preserved, and the fresh positions hold exactly the union of the two
input segments' values. -/
theorem mergeCol_spec (Av Tv : ℤ → ℤ) (aptr aend tptr tend : ℤ) (Ci : ℤ → ℤ)
    (nz : ℤ) (ha : aptr ≤ aend) (ht : tptr ≤ tend) :
    nz ≤ (mergeCol Av Tv aptr aend tptr tend Ci nz).2 ∧
    (∀ p, p < nz → (mergeCol Av Tv aptr aend tptr tend Ci nz).1 p = Ci p) ∧
    (∀ x, (∃ p, nz ≤ p ∧ p < (mergeCol Av Tv aptr aend tptr tend Ci nz).2 ∧
        (mergeCol Av Tv aptr aend tptr tend Ci nz).1 p = x) ↔
      ((∃ i, aptr ≤ i ∧ i < aend ∧ Av i = x) ∨
       (∃ i, tptr ≤ i ∧ i < tend ∧ Tv i = x))) := by
  obtain ⟨b1, b2, b3, b4, b5, presW, membW⟩ := mergeWhile_spec Av Tv
    ((aend - aptr).toNat + (tend - tptr).toNat) aptr aend tptr tend Ci nz ha ht
  set r := mergeWhile Av Tv ((aend - aptr).toNat + (tend - tptr).toNat)
    aptr aend tptr tend Ci nz with hr
  obtain ⟨d1a, d1b, d1c⟩ := mergeDump_spec Av (aend - r.2.2.1).toNat r.2.2.1 aend
    (by rw [Int.toNat_of_nonneg (by omega)]) r.1 r.2.1
  set d1 := mergeDump Av r.2.2.1 aend r.1 r.2.1 with hd1
  obtain ⟨d2a, d2b, d2c⟩ := mergeDump_spec Tv (tend - r.2.2.2).toNat r.2.2.2 tend
    (by rw [Int.toNat_of_nonneg (by omega)]) d1.1 d1.2
  set d2 := mergeDump Tv r.2.2.2 tend d1.1 d1.2 with hd2
  have hcol : mergeCol Av Tv aptr aend tptr tend Ci nz = d2 := by
    rw [hd2, hd1, hr]
    rfl
  rw [hcol]
  refine ⟨by omega, ?_, ?_⟩
  · intro p hp
    rw [d2b p (by omega), d1b p (by omega)]
    exact presW p hp
  · intro x
    constructor
    · rintro ⟨p, hp1, hp2, hpv⟩
      by_cases hc1 : p < r.2.1
      · have hv : r.1 p = x := by
          rw [← hpv, d2b p (by omega), d1b p hc1]
        rcases (membW x).1 ⟨p, hp1, hc1, hv⟩ with ⟨i, h1, h2, h3⟩ | ⟨i, h1, h2, h3⟩
        · exact Or.inl ⟨i, h1, by omega, h3⟩
        · exact Or.inr ⟨i, h1, by omega, h3⟩
      · by_cases hc2 : p < d1.2
        · have hv : d1.1 p = x := by
            rw [← hpv, d2b p hc2]
          obtain ⟨i, h1, h2, h3⟩ := (d1c x).1 ⟨p, by omega, by omega, hv⟩
          exact Or.inl ⟨i, by omega, h2, h3⟩
        · obtain ⟨i, h1, h2, h3⟩ := (d2c x).1 ⟨p, by omega, by omega, hpv⟩
          exact Or.inr ⟨i, by omega, h2, h3⟩
    · rintro (⟨i, h1, h2, h3⟩ | ⟨i, h1, h2, h3⟩)
      · by_cases hc1 : i < r.2.2.1
        · obtain ⟨p, hp1, hp2, hpv⟩ := (membW x).2 (Or.inl ⟨i, h1, hc1, h3⟩)
          refine ⟨p, hp1, by omega, ?_⟩
          rw [d2b p (by omega), d1b p hp2]
          exact hpv
        · obtain ⟨p, hp1, hp2, hpv⟩ := (d1c x).2 ⟨i, by omega, h2, h3⟩
          refine ⟨p, by omega, by omega, ?_⟩
          rw [d2b p (by omega)]
          exact hpv
      · by_cases hc1 : i < r.2.2.2
        · obtain ⟨p, hp1, hp2, hpv⟩ := (membW x).2 (Or.inr ⟨i, h1, hc1, h3⟩)
          refine ⟨p, hp1, by omega, ?_⟩
          rw [d2b p (by omega), d1b p hp2]
          exact hpv
        · obtain ⟨p, hp1, hp2, hpv⟩ := (d2c x).2 ⟨i, by omega, h2, h3⟩
          exact ⟨p, by omega, by omega, hpv⟩

theorem patMerge_eq (Ap Ai : ℤ → ℤ) (n : ℤ) :
    patMerge Ap Ai n = (intRange 0 n).foldl (patMergeStep Ap Ai n)
      ((fun _ => 0), 0, Function.update (patScat Ap Ai n).2 0 0) := rfl

/-- Merge-fold invariant: after the first `m` columns, `Cp 0 = 0`, the
checkpoint `Cp m` equals the running `nz`, all recorded checkpoints are
at most `nz`, and for each finished column `j` the output positions
`Cp j ≤ p < Cp (j+1)` hold exactly the union of `A`'s column `j` rows
with the transpose column `j` contents. -/
theorem patMerge_inv (Ap Ai : ℤ → ℤ) (n : ℤ) (hn : 0 ≤ n)
    (hmono : ∀ j, 0 ≤ j → j < n → Ap j ≤ Ap (j + 1)) :
    ∀ (m : ℕ) (s : (ℤ → ℤ) × ℤ × (ℤ → ℤ)), (m : ℤ) ≤ n →
      s = (intRange 0 (m : ℤ)).foldl (patMergeStep Ap Ai n)
        ((fun _ => 0), 0, Function.update (patScat Ap Ai n).2 0 0) →
      s.2.2 0 = 0 ∧
      s.2.2 (m : ℤ) = s.2.1 ∧
      (∀ j, 0 ≤ j → j ≤ (m : ℤ) → s.2.2 j ≤ s.2.1) ∧
      (∀ j, 0 ≤ j → j < (m : ℤ) → ∀ x,
        ((∃ p, s.2.2 j ≤ p ∧ p < s.2.2 (j + 1) ∧ s.1 p = x) ↔
          ((∃ i, Ap j ≤ i ∧ i < Ap (j + 1) ∧ Ai i = x) ∨
           (∃ i, patTp Ap Ai n j ≤ i ∧ i < patTp Ap Ai n (j + 1) ∧
              (patScat Ap Ai n).1 i = x)))) := by
  intro m
  induction m with
  | zero =>
    intro s hm hs
    rw [Nat.cast_zero, intRange_eq_nil (le_refl 0)] at hs
    simp only [List.foldl_nil] at hs
    subst hs
    refine ⟨?_, ?_, ?_, ?_⟩
    · show Function.update (patScat Ap Ai n).2 0 0 0 = 0
      exact Function.update_same 0 0 _
    · simp only [Nat.cast_zero]
      show Function.update (patScat Ap Ai n).2 0 0 0 = 0
      exact Function.update_same 0 0 _
    · intro j h1 h2
      have hj : j = 0 := by omega
      subst hj
      show Function.update (patScat Ap Ai n).2 0 0 0 ≤ 0
      exact le_of_eq (Function.update_same 0 0 _)
    · intro j h1 h2
      exact absurd h2 (by omega)
  | succ m ih =>
    intro s hm hs
    have hmle : (m : ℤ) ≤ n := by omega
    have hcast : ((m + 1 : ℕ) : ℤ) = (m : ℤ) + 1 := by push_cast; ring
    have hm0 : (0 : ℤ) ≤ (m : ℤ) := by positivity
    set s0 := (intRange 0 (m : ℤ)).foldl (patMergeStep Ap Ai n)
      ((fun _ => 0), 0, Function.update (patScat Ap Ai n).2 0 0) with hs0
    obtain ⟨A0, B0, C0, D0⟩ := ih s0 hmle hs0
    have hsnoc : intRange 0 ((m + 1 : ℕ) : ℤ) = intRange 0 (m : ℤ) ++ [(m : ℤ)] := by
      rw [hcast, intRange_snoc (by positivity)]
      simp
    rw [hsnoc, List.foldl_append] at hs
    simp only [List.foldl_cons, List.foldl_nil] at hs
    rw [← hs0] at hs
    have hApm : Ap (m : ℤ) ≤ Ap ((m : ℤ) + 1) := hmono (m : ℤ) hm0 (by omega)
    have hTpm : patTp Ap Ai n (m : ℤ) ≤ patTp Ap Ai n ((m : ℤ) + 1) := by
      rw [patTp_eq Ap Ai n hn hm0 (by omega),
        patTp_eq Ap Ai n hn (by omega) (by omega)]
      have h1 := sumRange_succ (patHist Ap Ai n) hm0
      have h2 := patHist_nonneg Ap Ai n (m : ℤ)
      omega
    obtain ⟨g1, g2, g3⟩ := mergeCol_spec Ai (patScat Ap Ai n).1 (Ap (m : ℤ))
      (Ap ((m : ℤ) + 1)) (patTp Ap Ai n (m : ℤ)) (patTp Ap Ai n ((m : ℤ) + 1))
      s0.1 s0.2.1 hApm hTpm
    set r := mergeCol Ai (patScat Ap Ai n).1 (Ap (m : ℤ)) (Ap ((m : ℤ) + 1))
      (patTp Ap Ai n (m : ℤ)) (patTp Ap Ai n ((m : ℤ) + 1)) s0.1 s0.2.1 with hrdef
    have hs1 : s.1 = r.1 := by
      rw [hs, hrdef]
      rfl
    have hs21 : s.2.1 = r.2 := by
      rw [hs, hrdef]
      rfl
    have hs22 : s.2.2 = Function.update s0.2.2 ((m : ℤ) + 1) r.2 := by
      rw [hs, hrdef]
      rfl
    refine ⟨?_, ?_, ?_, ?_⟩
    · rw [hs22, Function.update_noteq (by omega)]
      exact A0
    · rw [hcast, hs22, Function.update_same, hs21]
    · intro j h1 h2
      rw [hs21, hs22]
      by_cases hj : j = (m : ℤ) + 1
      · rw [hj, Function.update_same]
      · rw [Function.update_noteq hj]
        have hC := C0 j h1 (by omega)
        omega
    · intro j h1 h2
      rw [hcast] at h2
      by_cases hj : j = (m : ℤ)
      · intro x
        rw [hj, hs22, hs1,
          Function.update_noteq (by omega : (m : ℤ) ≠ (m : ℤ) + 1),
          Function.update_same, B0]
        exact g3 x
      · intro x
        have hjm : j < (m : ℤ) := by omega
        have hup1 : s.2.2 j = s0.2.2 j := by
          rw [hs22, Function.update_noteq (by omega)]
        have hup2 : s.2.2 (j + 1) = s0.2.2 (j + 1) := by
          rw [hs22, Function.update_noteq (by omega)]
        have hCj1 : s0.2.2 (j + 1) ≤ s0.2.1 := C0 (j + 1) (by omega) (by omega)
        have hD := D0 j h1 hjm x
        rw [hup1, hup2, hs1]
        constructor
        · rintro ⟨p, hp1, hp2, hpv⟩
          exact hD.1 ⟨p, hp1, hp2, by rw [← hpv, g2 p (by omega)]⟩
        · intro h
          obtain ⟨p, hp1, hp2, hpv⟩ := hD.2 h
          refine ⟨p, hp1, hp2, ?_⟩
          rw [g2 p (by omega)]
          exact hpv

/-- The finished merge: `Cp 0 = 0` and every output column is the union
of the matching `A` column and transpose column. -/
theorem patMerge_final (Ap Ai : ℤ → ℤ) (n : ℤ) (hn : 0 ≤ n)
    (hmono : ∀ j, 0 ≤ j → j < n → Ap j ≤ Ap (j + 1)) :
    (patMerge Ap Ai n).2.2 0 = 0 ∧
    (∀ j, 0 ≤ j → j < n → ∀ x,
      ((∃ p, (patMerge Ap Ai n).2.2 j ≤ p ∧ p < (patMerge Ap Ai n).2.2 (j + 1) ∧
          (patMerge Ap Ai n).1 p = x) ↔
        ((∃ i, Ap j ≤ i ∧ i < Ap (j + 1) ∧ Ai i = x) ∨
         (∃ i, patTp Ap Ai n j ≤ i ∧ i < patTp Ap Ai n (j + 1) ∧
            (patScat Ap Ai n).1 i = x)))) := by
  have hcast : intRange 0 n = intRange 0 ((n.toNat : ℕ) : ℤ) := by
    rw [Int.toNat_of_nonneg hn]
  have hpm : patMerge Ap Ai n = (intRange 0 ((n.toNat : ℕ) : ℤ)).foldl
      (patMergeStep Ap Ai n)
      ((fun _ => 0), 0, Function.update (patScat Ap Ai n).2 0 0) := by
    rw [patMerge_eq, hcast]
  obtain ⟨A0, B0, C0, D0⟩ := patMerge_inv Ap Ai n hn hmono n.toNat
    (patMerge Ap Ai n) (by omega) hpm
  exact ⟨A0, fun j h1 h2 x => D0 j h1 (by omega) x⟩

/-! ### The pivot search of `sp_ludcmp` -/

/-- Invariant of the pivot-search fold: either no candidate has been
seen (and `ipiv`/`a` still hold their sentinels), or `ipiv` is a seen
candidate of maximal absolute value `a`. -/
theorem pivotScanFold_inv (pinv : ℤ → ℤ) (x : ℤ → ℚ) (xik : ℤ → ℤ) :
    ∀ (l : List ℤ) (r : ScanRes) (cands : List ℤ),
      ((cands = [] ∧ r.ipiv = -1 ∧ r.a = -1) ∨
       (r.ipiv ∈ cands ∧ r.a = |x r.ipiv| ∧ ∀ i ∈ cands, |x i| ≤ r.a)) →
      ((cands ++ (l.map xik).filter (fun i => pinv i < 0) = [] ∧
          (l.foldl (pivotScanStep pinv x xik) r).ipiv = -1 ∧
          (l.foldl (pivotScanStep pinv x xik) r).a = -1) ∨
       ((l.foldl (pivotScanStep pinv x xik) r).ipiv ∈
          cands ++ (l.map xik).filter (fun i => pinv i < 0) ∧
        (l.foldl (pivotScanStep pinv x xik) r).a =
          |x (l.foldl (pivotScanStep pinv x xik) r).ipiv| ∧
        ∀ i ∈ cands ++ (l.map xik).filter (fun i => pinv i < 0),
          |x i| ≤ (l.foldl (pivotScanStep pinv x xik) r).a)) := by
  intro l
  induction l with
  | nil =>
    intro r cands h
    simpa using h
  | cons p ps ih =>
    intro r cands h
    simp only [List.foldl_cons, List.map_cons]
    by_cases hp : pinv (xik p) < 0
    · rw [List.filter_cons_of_pos (by simpa using hp)]
      have hstep : pivotScanStep pinv x xik r p =
          (if |x (xik p)| > r.a
            then { r with a := |x (xik p)|, ipiv := xik p } else r) := by
        simp only [pivotScanStep]
        rw [if_pos hp]
      rw [hstep]
      have hassoc : cands ++ xik p :: (ps.map xik).filter (fun i => pinv i < 0) =
          (cands ++ [xik p]) ++ (ps.map xik).filter (fun i => pinv i < 0) := by
        simp
      rw [hassoc]
      apply ih
      by_cases ht : |x (xik p)| > r.a
      · rw [if_pos ht]
        right
        refine ⟨List.mem_append.2 (Or.inr (List.mem_singleton.2 rfl)), rfl, ?_⟩
        intro i hi2
        rcases List.mem_append.1 hi2 with h1 | h1
        · rcases h with ⟨hc, _, _⟩ | ⟨_, _, hb⟩
          · rw [hc] at h1
            exact absurd h1 (List.not_mem_nil i)
          · have := hb i h1
            have hle := le_of_lt ht
            exact le_trans this hle
        · rw [List.mem_singleton.1 h1]
      · rw [if_neg ht]
        rcases h with ⟨hc, hi, ha⟩ | ⟨hi, ha, hb⟩
        · exfalso
          rw [ha] at ht
          have h0 : (0:ℚ) ≤ |x (xik p)| := abs_nonneg _
          have h1 := not_lt.mp ht
          linarith
        · right
          refine ⟨List.mem_append.2 (Or.inl hi), ha, ?_⟩
          intro i hi2
          rcases List.mem_append.1 hi2 with h1 | h1
          · exact hb i h1
          · rw [List.mem_singleton.1 h1]
            exact not_lt.mp ht
    · rw [List.filter_cons_of_neg (by simpa using hp)]
      have hstep : pivotScanStep pinv x xik r p =
          { r with
            Ui := Function.update r.Ui r.unz (pinv (xik p))
            Ux := Function.update r.Ux r.unz (x (xik p))
            unz := r.unz + 1 } := by
        simp only [pivotScanStep]
        rw [if_neg hp]
      rw [hstep]
      apply ih
      rcases h with ⟨hc, hi, ha⟩ | ⟨hi, ha, hb⟩
      · exact Or.inl ⟨hc, hi, ha⟩
      · exact Or.inr ⟨hi, ha, hb⟩

/-- The finished pivot search: either there was no not-yet-pivoted
candidate and `ipiv`/`a` are the failure sentinels, or `ipiv` is a
candidate of maximal absolute value `a`. -/
theorem pivotScan_inv (pinv : ℤ → ℤ) (x : ℤ → ℚ) (xik : ℤ → ℤ) (top n : ℤ)
    (Ui0 : ℤ → ℤ) (Ux0 : ℤ → ℚ) (unz0 : ℤ) :
    (((intRange top n).map xik).filter (fun i => pinv i < 0) = [] ∧
      (pivotScan pinv x xik top n Ui0 Ux0 unz0).ipiv = -1 ∧
      (pivotScan pinv x xik top n Ui0 Ux0 unz0).a = -1) ∨
    ((pivotScan pinv x xik top n Ui0 Ux0 unz0).ipiv ∈
        ((intRange top n).map xik).filter (fun i => pinv i < 0) ∧
      (pivotScan pinv x xik top n Ui0 Ux0 unz0).a =
        |x (pivotScan pinv x xik top n Ui0 Ux0 unz0).ipiv| ∧
      ∀ i ∈ ((intRange top n).map xik).filter (fun i => pinv i < 0),
        |x i| ≤ (pivotScan pinv x xik top n Ui0 Ux0 unz0).a) := by
  have h := pivotScanFold_inv pinv x xik (intRange top n) ⟨-1, -1, Ui0, Ux0, unz0⟩ []
    (Or.inl ⟨rfl, rfl, rfl⟩)
  simpa [pivotScan] using h

/-! ### Projections of one `sp_ludcmp` step -/

theorem lustepFailSt_topvec (A : sp_mat ℚ) (st : LuLoopSt ℚ) (k : ℤ) :
    (lustepFailSt A st k).N.topvec =
      Function.update st.N.topvec k (lustepReach A st k).top := rfl

theorem lustepFailSt_p (A : sp_mat ℚ) (st : LuLoopSt ℚ) (k : ℤ) :
    (lustepFailSt A st k).N.p = st.N.p := rfl

theorem lustepFailSt_q (A : sp_mat ℚ) (st : LuLoopSt ℚ) (k : ℤ) :
    (lustepFailSt A st k).N.q = st.N.q := rfl

theorem lustepFailSt_ncols (A : sp_mat ℚ) (st : LuLoopSt ℚ) (k : ℤ) :
    (lustepFailSt A st k).N.L.ncols = st.N.L.ncols := rfl

theorem lustepSuccSt_topvec (A : sp_mat ℚ) (pivtol : ℚ) (st : LuLoopSt ℚ) (k : ℤ) :
    (lustepSuccSt A pivtol st k).N.topvec =
      Function.update st.N.topvec k (lustepReach A st k).top := rfl

theorem lustepSuccSt_p (A : sp_mat ℚ) (pivtol : ℚ) (st : LuLoopSt ℚ) (k : ℤ) :
    (lustepSuccSt A pivtol st k).N.p =
      Function.update st.N.p k (lustepPivot A pivtol st k) := rfl

theorem lustepSuccSt_pinv (A : sp_mat ℚ) (pivtol : ℚ) (st : LuLoopSt ℚ) (k : ℤ) :
    (lustepSuccSt A pivtol st k).N.pinv =
      Function.update st.N.pinv (lustepPivot A pivtol st k) k := rfl

theorem lustepSuccSt_q (A : sp_mat ℚ) (pivtol : ℚ) (st : LuLoopSt ℚ) (k : ℤ) :
    (lustepSuccSt A pivtol st k).N.q = st.N.q := rfl

theorem lustepSuccSt_ncols (A : sp_mat ℚ) (pivtol : ℚ) (st : LuLoopSt ℚ) (k : ℤ) :
    (lustepSuccSt A pivtol st k).N.L.ncols = st.N.L.ncols := rfl

theorem lustepSt2_pinv (A : sp_mat ℚ) (st : LuLoopSt ℚ) (k : ℤ) :
    (lustepSt2 A st k).N.pinv = st.N.pinv := rfl

theorem lustepSt2_q (A : sp_mat ℚ) (st : LuLoopSt ℚ) (k : ℤ) :
    (lustepSt2 A st k).N.q = st.N.q := rfl

/-- The failure test of one step, in terms of the scan result. -/
theorem lustep_fail_iff (A : sp_mat ℚ) (pivtol : ℚ) (st : LuLoopSt ℚ) (k : ℤ) :
    (lustep A pivtol st k).1 = Status.failure ↔
      ((lustepScan A st k).ipiv = -1 ∨ (lustepScan A st k).a ≤ 0) := by
  unfold lustep
  by_cases hc : (lustepScan A st k).ipiv = -1 ∨ (lustepScan A st k).a ≤ 0
  · rw [if_pos hc]
    exact ⟨fun _ => hc, fun _ => rfl⟩
  · rw [if_neg hc]
    exact ⟨fun h => absurd h (fun h => Status.noConfusion h), fun h => absurd h hc⟩

/-- The two possible results of one step. -/
theorem lustep_cases (A : sp_mat ℚ) (pivtol : ℚ) (st : LuLoopSt ℚ) (k : ℤ) :
    lustep A pivtol st k = (Status.failure, lustepFailSt A st k) ∨
    lustep A pivtol st k = (Status.success, lustepSuccSt A pivtol st k) := by
  unfold lustep
  by_cases hc : (lustepScan A st k).ipiv = -1 ∨ (lustepScan A st k).a ≤ 0
  · rw [if_pos hc]
    exact Or.inl rfl
  · rw [if_neg hc]
    exact Or.inr rfl

/-! ### The factorization loop of `sp_ludcmp` -/

theorem luSteps_nil (A : sp_mat ℚ) (pivtol : ℚ) (st : LuLoopSt ℚ) :
    luSteps A pivtol [] st = (Status.success, st) := rfl

theorem luSteps_cons_fail (A : sp_mat ℚ) (pivtol : ℚ) {st stf : LuLoopSt ℚ}
    {k : ℤ} (ks : List ℤ) (hc : lustep A pivtol st k = (Status.failure, stf)) :
    luSteps A pivtol (k :: ks) st = (Status.failure, stf) := by
  show (match lustep A pivtol st k with
    | (Status.failure, st') => (Status.failure, st')
    | (Status.success, st') => luSteps A pivtol ks st') = (Status.failure, stf)
  rw [hc]

theorem luSteps_cons_succ (A : sp_mat ℚ) (pivtol : ℚ) {st sts : LuLoopSt ℚ}
    {k : ℤ} (ks : List ℤ) (hc : lustep A pivtol st k = (Status.success, sts)) :
    luSteps A pivtol (k :: ks) st = luSteps A pivtol ks sts := by
  show (match lustep A pivtol st k with
    | (Status.failure, st') => (Status.failure, st')
    | (Status.success, st') => luSteps A pivtol ks st') = luSteps A pivtol ks sts
  rw [hc]

theorem pairwise_intRange (a b : ℤ) : List.Pairwise (· < ·) (intRange a b) := by
  unfold intRange
  exact (List.pairwise_lt_range _).map _ (fun i j h => by omega)

/-- If the factorization loop fails, the failing step `k` is in the
schedule, `topvec` is untouched above `k` and outside the schedule,
and `p` is untouched from `k` on and outside the schedule. -/
theorem luSteps_fail_pres (A : sp_mat ℚ) (pivtol : ℚ) :
    ∀ (l : List ℤ) (st st' : LuLoopSt ℚ), List.Pairwise (· < ·) l →
      luSteps A pivtol l st = (Status.failure, st') →
      ∃ k ∈ l,
        (∀ j, j ∉ l → st'.N.topvec j = st.N.topvec j) ∧
        (∀ j, k < j → st'.N.topvec j = st.N.topvec j) ∧
        (∀ j, j ∉ l → st'.N.p j = st.N.p j) ∧
        (∀ j, k ≤ j → st'.N.p j = st.N.p j) := by
  intro l
  induction l with
  | nil =>
    intro st st' _ h
    rw [luSteps_nil] at h
    injection h with h1 _
    exact Status.noConfusion h1
  | cons k ks ih =>
    intro st st' hpw h
    rcases lustep_cases A pivtol st k with hc | hc
    · rw [luSteps_cons_fail A pivtol ks hc] at h
      injection h with _ h2
      refine ⟨k, List.mem_cons_self k ks, ?_, ?_, ?_, ?_⟩
      · intro j hj
        have hjk : j ≠ k := fun he => hj (by rw [he]; exact List.mem_cons_self k ks)
        rw [← h2, lustepFailSt_topvec]
        exact Function.update_noteq hjk _ _
      · intro j hj
        rw [← h2, lustepFailSt_topvec]
        exact Function.update_noteq (by omega) _ _
      · intro j _
        rw [← h2, lustepFailSt_p]
      · intro j _
        rw [← h2, lustepFailSt_p]
    · rw [luSteps_cons_succ A pivtol ks hc] at h
      obtain ⟨k', hk'm, t1, t2, t3, t4⟩ := ih (lustepSuccSt A pivtol st k) st'
        hpw.of_cons h
      have hkk' : k < k' := (List.pairwise_cons.1 hpw).1 k' hk'm
      refine ⟨k', List.mem_cons_of_mem k hk'm, ?_, ?_, ?_, ?_⟩
      · intro j hj
        have hj1 : j ∉ ks := fun hm => hj (List.mem_cons_of_mem k hm)
        have hjk : j ≠ k := fun he => hj (by rw [he]; exact List.mem_cons_self k ks)
        rw [t1 j hj1, lustepSuccSt_topvec]
        exact Function.update_noteq hjk _ _
      · intro j hj
        rw [t2 j hj, lustepSuccSt_topvec]
        exact Function.update_noteq (by omega) _ _
      · intro j hj
        have hj1 : j ∉ ks := fun hm => hj (List.mem_cons_of_mem k hm)
        have hjk : j ≠ k := fun he => hj (by rw [he]; exact List.mem_cons_self k ks)
        rw [t3 j hj1, lustepSuccSt_p]
        exact Function.update_noteq hjk _ _
      · intro j hj
        rw [t4 j hj, lustepSuccSt_p]
        exact Function.update_noteq (by omega) _ _

/-- If the loop succeeds, every scheduled step was run successfully
from some intermediate state whose `L` dimension and `q` agree with
the entry state's. -/
theorem luSteps_succ_steps (A : sp_mat ℚ) (pivtol : ℚ) :
    ∀ (l : List ℤ) (st st' : LuLoopSt ℚ),
      luSteps A pivtol l st = (Status.success, st') →
      ∀ k ∈ l, ∃ stk : LuLoopSt ℚ,
        (lustep A pivtol stk k).1 = Status.success ∧
        stk.N.L.ncols = st.N.L.ncols ∧ stk.N.q = st.N.q := by
  intro l
  induction l with
  | nil =>
    intro st st' _ k hk
    exact absurd hk (List.not_mem_nil k)
  | cons k0 ks ih =>
    intro st st' h k hk
    rcases lustep_cases A pivtol st k0 with hc | hc
    · rw [luSteps_cons_fail A pivtol ks hc] at h
      injection h with h1 _
      exact Status.noConfusion h1
    · rw [luSteps_cons_succ A pivtol ks hc] at h
      rcases List.mem_cons.1 hk with he | hm
      · refine ⟨st, ?_, rfl, rfl⟩
        rw [he, hc]
      · obtain ⟨stk, ha, hb, hq⟩ := ih (lustepSuccSt A pivtol st k0) st' h k hm
        exact ⟨stk, ha, by rw [hb, lustepSuccSt_ncols], by rw [hq, lustepSuccSt_q]⟩

theorem ludcmpInit_topvec (N : sp_num ℚ) (A : sp_mat ℚ) :
    (ludcmpInit N A).topvec = N.topvec := rfl

theorem ludcmpInit_p (N : sp_num ℚ) (A : sp_mat ℚ) :
    (ludcmpInit N A).p = N.p := rfl

theorem ludcmpInit_q (N : sp_num ℚ) (A : sp_mat ℚ) :
    (ludcmpInit N A).q = N.q := rfl

theorem ludcmpInit_ncols (N : sp_num ℚ) (A : sp_mat ℚ) :
    (ludcmpInit N A).L.ncols = N.L.ncols := rfl

theorem sp_ludcmp_fail_eq (N : sp_num ℚ) (A : sp_mat ℚ) (pivtol : ℚ)
    (st : LuLoopSt ℚ)
    (h : luSteps A pivtol (intRange 0 A.ncols) ⟨ludcmpInit N A, 0, 0⟩ =
      (Status.failure, st)) :
    sp_ludcmp N A pivtol = (Status.failure, st.N) := by
  unfold sp_ludcmp
  rw [h]

theorem sp_ludcmp_succ_eq (N : sp_num ℚ) (A : sp_mat ℚ) (pivtol : ℚ)
    (st : LuLoopSt ℚ)
    (h : luSteps A pivtol (intRange 0 A.ncols) ⟨ludcmpInit N A, 0, 0⟩ =
      (Status.success, st)) :
    sp_ludcmp N A pivtol = (Status.success, ludcmpFin st A.ncols) := by
  unfold sp_ludcmp
  rw [h]

/-! ### Flip marks only change the sign encoding -/

/-- Flipping once more never changes the unflipped value. -/
theorem SPUNFLIP_SPFLIP (i : ℤ) : SPUNFLIP (SPFLIP i) = SPUNFLIP i := by
  unfold SPUNFLIP SPFLIP
  split_ifs <;> omega

/-- Marking a node preserves every unflipped pointer value. -/
theorem SPUNFLIP_spmark (Gp : ℤ → ℤ) (j r : ℤ) :
    SPUNFLIP (spmark Gp j r) = SPUNFLIP (Gp r) := by
  unfold spmark
  by_cases hr : r = j
  · rw [hr, Function.update_same]
    exact SPUNFLIP_SPFLIP (Gp j)
  · rw [Function.update_noteq hr]

/-- A whole fold of marks preserves every unflipped pointer value. -/
theorem SPUNFLIP_spmarkFold (v : ℤ → ℤ) :
    ∀ (l : List ℤ) (Gp : ℤ → ℤ) (r : ℤ),
      SPUNFLIP ((l.foldl (fun Gp p => spmark Gp (v p)) Gp) r) = SPUNFLIP (Gp r) := by
  intro l
  induction l with
  | nil =>
    intro Gp r
    rfl
  | cons p ps ih =>
    intro Gp r
    rw [List.foldl_cons, ih, SPUNFLIP_spmark]

/-! ### Well-formedness of the reach computation -/

/-- `dfsr` only lowers `top`, only flips marks on the column pointers,
pushes only in-range nodes onto the fresh stack region, and leaves the
rest of the stack untouched. -/
theorem dfsr_wf (Gi pinv : ℤ → ℤ) (n lnz : ℤ) (Gp0 : ℤ → ℤ)
    (hGi : ∀ p, 0 ≤ p → p < lnz → 0 ≤ Gi p ∧ Gi p < n)
    (hpinv : ∀ i, 0 ≤ i → i < n → pinv i < n)
    (hGp : ∀ r, 0 ≤ r → r ≤ n → 0 ≤ SPUNFLIP (Gp0 r) ∧ SPUNFLIP (Gp0 r) ≤ lnz) :
    ∀ (fuel : ℕ) (j : ℤ) (s : ReachState), 0 ≤ j → j < n →
      (∀ r, SPUNFLIP (s.Gp r) = SPUNFLIP (Gp0 r)) →
      (dfsr Gi pinv fuel j s).top ≤ s.top ∧
      (∀ r, SPUNFLIP ((dfsr Gi pinv fuel j s).Gp r) = SPUNFLIP (Gp0 r)) ∧
      (∀ p, (dfsr Gi pinv fuel j s).top ≤ p → p < s.top →
        0 ≤ (dfsr Gi pinv fuel j s).xik p ∧ (dfsr Gi pinv fuel j s).xik p < n) ∧
      (∀ p, ¬((dfsr Gi pinv fuel j s).top ≤ p ∧ p < s.top) →
        (dfsr Gi pinv fuel j s).xik p = s.xik p) := by
  intro fuel
  induction fuel with
  | zero =>
    intro j s _ _ hs
    rw [show dfsr Gi pinv 0 j s = s from rfl]
    exact ⟨le_refl _, hs, fun p h1 h2 => absurd h2 (by omega), fun p _ => rfl⟩
  | succ fuel ih =>
    intro j s hj0 hjn hs
    have hfold : ∀ (l : List ℤ), (∀ p ∈ l, 0 ≤ Gi p ∧ Gi p < n) →
        ∀ (t : ReachState), (∀ r, SPUNFLIP (t.Gp r) = SPUNFLIP (Gp0 r)) →
          (l.foldl (fun t p => if spmarked t.Gp (Gi p) then t
            else dfsr Gi pinv fuel (Gi p) t) t).top ≤ t.top ∧
          (∀ r, SPUNFLIP ((l.foldl (fun t p => if spmarked t.Gp (Gi p) then t
            else dfsr Gi pinv fuel (Gi p) t) t).Gp r) = SPUNFLIP (Gp0 r)) ∧
          (∀ q, (l.foldl (fun t p => if spmarked t.Gp (Gi p) then t
              else dfsr Gi pinv fuel (Gi p) t) t).top ≤ q → q < t.top →
            0 ≤ (l.foldl (fun t p => if spmarked t.Gp (Gi p) then t
              else dfsr Gi pinv fuel (Gi p) t) t).xik q ∧
            (l.foldl (fun t p => if spmarked t.Gp (Gi p) then t
              else dfsr Gi pinv fuel (Gi p) t) t).xik q < n) ∧
          (∀ q, ¬((l.foldl (fun t p => if spmarked t.Gp (Gi p) then t
              else dfsr Gi pinv fuel (Gi p) t) t).top ≤ q ∧ q < t.top) →
            (l.foldl (fun t p => if spmarked t.Gp (Gi p) then t
              else dfsr Gi pinv fuel (Gi p) t) t).xik q = t.xik q) := by
      intro l
      induction l with
      | nil =>
        intro _ t ht
        rw [List.foldl_nil]
        exact ⟨le_refl _, ht, fun q h1 h2 => absurd h2 (by omega), fun q _ => rfl⟩
      | cons p ps ihl =>
        intro hlb t ht
        rw [List.foldl_cons]
        have h1 : (if spmarked t.Gp (Gi p) then t
              else dfsr Gi pinv fuel (Gi p) t).top ≤ t.top ∧
            (∀ r, SPUNFLIP ((if spmarked t.Gp (Gi p) then t
              else dfsr Gi pinv fuel (Gi p) t).Gp r) = SPUNFLIP (Gp0 r)) ∧
            (∀ q, (if spmarked t.Gp (Gi p) then t
                else dfsr Gi pinv fuel (Gi p) t).top ≤ q → q < t.top →
              0 ≤ (if spmarked t.Gp (Gi p) then t
                else dfsr Gi pinv fuel (Gi p) t).xik q ∧
              (if spmarked t.Gp (Gi p) then t
                else dfsr Gi pinv fuel (Gi p) t).xik q < n) ∧
            (∀ q, ¬((if spmarked t.Gp (Gi p) then t
                else dfsr Gi pinv fuel (Gi p) t).top ≤ q ∧ q < t.top) →
              (if spmarked t.Gp (Gi p) then t
                else dfsr Gi pinv fuel (Gi p) t).xik q = t.xik q) := by
          by_cases hm : spmarked t.Gp (Gi p)
          · rw [if_pos hm]
            exact ⟨le_refl _, ht, fun q hq1 hq2 => absurd hq2 (by omega),
              fun q _ => rfl⟩
          · rw [if_neg hm]
            have hb := hlb p (List.mem_cons_self p ps)
            exact ih (Gi p) t hb.1 hb.2 ht
        obtain ⟨a1, a2, a3, a4⟩ := h1
        obtain ⟨b1, b2, b3, b4⟩ := ihl
          (fun q hq => hlb q (List.mem_cons_of_mem p hq)) _ a2
        refine ⟨le_trans b1 a1, b2, ?_, ?_⟩
        · intro q hq1 hq2
          by_cases hq3 : q < (if spmarked t.Gp (Gi p) then t
              else dfsr Gi pinv fuel (Gi p) t).top
          · exact b3 q hq1 hq3
          · rw [b4 q (by omega)]
            exact a3 q (by omega) hq2
        · intro q hq
          rw [b4 q (by omega), a4 q (by omega)]
    have heq : dfsr Gi pinv (fuel + 1) j s =
        (let s2 : ReachState := if 0 ≤ pinv j then
            (intRange (SPUNFLIP (spmark s.Gp j (pinv j)))
                (SPUNFLIP (spmark s.Gp j (pinv j + 1)))).foldl
              (fun t p => if spmarked t.Gp (Gi p) then t
                else dfsr Gi pinv fuel (Gi p) t)
              { s with Gp := spmark s.Gp j }
          else { s with Gp := spmark s.Gp j }
         { s2 with top := s2.top - 1, xik := Function.update s2.xik (s2.top - 1) j }) :=
      rfl
    have hs1 : ∀ r, SPUNFLIP (({ s with Gp := spmark s.Gp j } : ReachState).Gp r) =
        SPUNFLIP (Gp0 r) := by
      intro r
      show SPUNFLIP (spmark s.Gp j r) = SPUNFLIP (Gp0 r)
      rw [SPUNFLIP_spmark]
      exact hs r
    by_cases hnew : 0 ≤ pinv j
    · rw [heq]
      dsimp only
      rw [if_pos hnew]
      have hjnn : pinv j < n := hpinv j hj0 hjn
      have hb1 := hGp (pinv j) hnew (by omega)
      have hb2 := hGp (pinv j + 1) (by omega) (by omega)
      have hlb : ∀ p ∈ intRange (SPUNFLIP (spmark s.Gp j (pinv j)))
          (SPUNFLIP (spmark s.Gp j (pinv j + 1))), 0 ≤ Gi p ∧ Gi p < n := by
        intro p hp
        have hpb := mem_intRange.1 hp
        simp only [SPUNFLIP_spmark, hs] at hpb
        exact hGi p (by omega) (by omega)
      obtain ⟨c1, c2, c3, c4⟩ := hfold _ hlb { s with Gp := spmark s.Gp j } hs1
      set F := (intRange (SPUNFLIP (spmark s.Gp j (pinv j)))
          (SPUNFLIP (spmark s.Gp j (pinv j + 1)))).foldl
          (fun t p => if spmarked t.Gp (Gi p) then t
            else dfsr Gi pinv fuel (Gi p) t) { s with Gp := spmark s.Gp j } with hF
      have c1' : F.top ≤ s.top := c1
      have c3' : ∀ q, F.top ≤ q → q < s.top → 0 ≤ F.xik q ∧ F.xik q < n := c3
      have c4' : ∀ q, ¬(F.top ≤ q ∧ q < s.top) → F.xik q = s.xik q := c4
      refine ⟨by omega, c2, ?_, ?_⟩
      · intro q hq1 hq2
        by_cases hqt : q = F.top - 1
        · rw [hqt, Function.update_same]
          exact ⟨hj0, hjn⟩
        · rw [Function.update_noteq hqt]
          exact c3' q (by omega) hq2
      · intro q hq
        rw [Function.update_noteq (by omega)]
        exact c4' q (by omega)
    · rw [heq]
      dsimp only
      rw [if_neg hnew]
      dsimp only
      refine ⟨by omega, ?_, ?_, ?_⟩
      · intro r
        show SPUNFLIP (spmark s.Gp j r) = SPUNFLIP (Gp0 r)
        rw [SPUNFLIP_spmark]
        exact hs r
      · intro q hq1 hq2
        have hqt : q = s.top - 1 := by omega
        rw [hqt, Function.update_same]
        exact ⟨hj0, hjn⟩
      · intro q hq
        rw [Function.update_noteq (by omega)]

/-- A fold of depth-first searches over in-range start nodes keeps the
`dfsr` guarantees. -/
theorem dfsrFold_wf (Gi pinv : ℤ → ℤ) (n lnz : ℤ) (Gp0 : ℤ → ℤ)
    (hGi : ∀ p, 0 ≤ p → p < lnz → 0 ≤ Gi p ∧ Gi p < n)
    (hpinv : ∀ i, 0 ≤ i → i < n → pinv i < n)
    (hGp : ∀ r, 0 ≤ r → r ≤ n → 0 ≤ SPUNFLIP (Gp0 r) ∧ SPUNFLIP (Gp0 r) ≤ lnz)
    (fuel : ℕ) (f : ℤ → ℤ) :
    ∀ (l : List ℤ), (∀ p ∈ l, 0 ≤ f p ∧ f p < n) →
      ∀ (t : ReachState), (∀ r, SPUNFLIP (t.Gp r) = SPUNFLIP (Gp0 r)) →
        (l.foldl (fun t p => if spmarked t.Gp (f p) then t
          else dfsr Gi pinv fuel (f p) t) t).top ≤ t.top ∧
        (∀ r, SPUNFLIP ((l.foldl (fun t p => if spmarked t.Gp (f p) then t
          else dfsr Gi pinv fuel (f p) t) t).Gp r) = SPUNFLIP (Gp0 r)) ∧
        (∀ q, (l.foldl (fun t p => if spmarked t.Gp (f p) then t
            else dfsr Gi pinv fuel (f p) t) t).top ≤ q → q < t.top →
          0 ≤ (l.foldl (fun t p => if spmarked t.Gp (f p) then t
            else dfsr Gi pinv fuel (f p) t) t).xik q ∧
          (l.foldl (fun t p => if spmarked t.Gp (f p) then t
            else dfsr Gi pinv fuel (f p) t) t).xik q < n) ∧
        (∀ q, ¬((l.foldl (fun t p => if spmarked t.Gp (f p) then t
            else dfsr Gi pinv fuel (f p) t) t).top ≤ q ∧ q < t.top) →
          (l.foldl (fun t p => if spmarked t.Gp (f p) then t
            else dfsr Gi pinv fuel (f p) t) t).xik q = t.xik q) := by
  intro l
  induction l with
  | nil =>
    intro _ t ht
    rw [List.foldl_nil]
    exact ⟨le_refl _, ht, fun q h1 h2 => absurd h2 (by omega), fun q _ => rfl⟩
  | cons p ps ihl =>
    intro hlb t ht
    rw [List.foldl_cons]
    have h1 : (if spmarked t.Gp (f p) then t
          else dfsr Gi pinv fuel (f p) t).top ≤ t.top ∧
        (∀ r, SPUNFLIP ((if spmarked t.Gp (f p) then t
          else dfsr Gi pinv fuel (f p) t).Gp r) = SPUNFLIP (Gp0 r)) ∧
        (∀ q, (if spmarked t.Gp (f p) then t
            else dfsr Gi pinv fuel (f p) t).top ≤ q → q < t.top →
          0 ≤ (if spmarked t.Gp (f p) then t
            else dfsr Gi pinv fuel (f p) t).xik q ∧
          (if spmarked t.Gp (f p) then t
            else dfsr Gi pinv fuel (f p) t).xik q < n) ∧
        (∀ q, ¬((if spmarked t.Gp (f p) then t
            else dfsr Gi pinv fuel (f p) t).top ≤ q ∧ q < t.top) →
          (if spmarked t.Gp (f p) then t
            else dfsr Gi pinv fuel (f p) t).xik q = t.xik q) := by
      by_cases hm : spmarked t.Gp (f p)
      · rw [if_pos hm]
        exact ⟨le_refl _, ht, fun q hq1 hq2 => absurd hq2 (by omega),
          fun q _ => rfl⟩
      · rw [if_neg hm]
        have hb := hlb p (List.mem_cons_self p ps)
        exact dfsr_wf Gi pinv n lnz Gp0 hGi hpinv hGp fuel (f p) t hb.1 hb.2 ht
    obtain ⟨a1, a2, a3, a4⟩ := h1
    obtain ⟨b1, b2, b3, b4⟩ := ihl
      (fun q hq => hlb q (List.mem_cons_of_mem p hq)) _ a2
    refine ⟨le_trans b1 a1, b2, ?_, ?_⟩
    · intro q hq1 hq2
      by_cases hq3 : q < (if spmarked t.Gp (f p) then t
          else dfsr Gi pinv fuel (f p) t).top
      · exact b3 q hq1 hq3
      · rw [b4 q (by omega)]
        exact a3 q (by omega) hq2
    · intro q hq
      rw [b4 q (by omega), a4 q (by omega)]

/-- `reachr` returns `top ≤ n`, fills `xik[top .. n)` with in-range
nodes, and leaves the unflipped column pointers untouched (the final
restore loop flips the DFS marks again). -/
theorem reachr_wf (Gncols : ℤ) (Bp Bi Gi pinv : ℤ → ℤ) (k : ℤ)
    (Gp0 xik0 : ℤ → ℤ) (lnz : ℤ)
    (hGi : ∀ p, 0 ≤ p → p < lnz → 0 ≤ Gi p ∧ Gi p < Gncols)
    (hpinv : ∀ i, 0 ≤ i → i < Gncols → pinv i < Gncols)
    (hGp : ∀ r, 0 ≤ r → r ≤ Gncols → 0 ≤ SPUNFLIP (Gp0 r) ∧
      SPUNFLIP (Gp0 r) ≤ lnz)
    (hB : ∀ p, Bp k ≤ p → p < Bp (k + 1) → 0 ≤ Bi p ∧ Bi p < Gncols) :
    (reachr Gncols Bp Bi Gi pinv k Gp0 xik0).top ≤ Gncols ∧
    (∀ p, (reachr Gncols Bp Bi Gi pinv k Gp0 xik0).top ≤ p → p < Gncols →
      0 ≤ (reachr Gncols Bp Bi Gi pinv k Gp0 xik0).xik p ∧
      (reachr Gncols Bp Bi Gi pinv k Gp0 xik0).xik p < Gncols) ∧
    (∀ r, SPUNFLIP ((reachr Gncols Bp Bi Gi pinv k Gp0 xik0).Gp r) =
      SPUNFLIP (Gp0 r)) := by
  have heq : reachr Gncols Bp Bi Gi pinv k Gp0 xik0 =
      (let s1 := (intRange (Bp k) (Bp (k + 1))).foldl
        (fun t p =>
          if spmarked t.Gp (Bi p) then t
          else dfsr Gi pinv (Gncols.toNat + 1) (Bi p) t)
        { Gp := Gp0, top := Gncols, xik := xik0 }
       let G2 := (intRange s1.top Gncols).foldl (fun Gp p => spmark Gp (s1.xik p)) s1.Gp
       { s1 with Gp := G2 }) := rfl
  obtain ⟨c1, c2, c3, c4⟩ := dfsrFold_wf Gi pinv Gncols lnz Gp0 hGi hpinv hGp
    (Gncols.toNat + 1) Bi (intRange (Bp k) (Bp (k + 1)))
    (fun p hp => hB p (mem_intRange.1 hp).1 (mem_intRange.1 hp).2)
    { Gp := Gp0, top := Gncols, xik := xik0 } (fun r => rfl)
  rw [heq]
  dsimp only
  set S := (intRange (Bp k) (Bp (k + 1))).foldl
    (fun t p => if spmarked t.Gp (Bi p) then t
      else dfsr Gi pinv (Gncols.toNat + 1) (Bi p) t)
    ({ Gp := Gp0, top := Gncols, xik := xik0 } : ReachState) with hS
  have c1' : S.top ≤ Gncols := c1
  have c3' : ∀ q, S.top ≤ q → q < Gncols → 0 ≤ S.xik q ∧ S.xik q < Gncols := c3
  refine ⟨c1', ?_, ?_⟩
  · intro p hp1 hp2
    exact c3' p hp1 hp2
  · intro r
    rw [SPUNFLIP_spmarkFold]
    exact c2 r

/-! ### The triangular solve on an all-zero right-hand side -/

/-- Scattering only zero values keeps zero positions zero. -/
theorem foldl_update_val_zero {α : Type} [Zero α] (idx : ℤ → ℤ) (val : ℤ → α) :
    ∀ (l : List ℤ), (∀ p ∈ l, val p = 0) →
      ∀ (x : ℤ → α) (r : ℤ), x r = 0 →
        (l.foldl (fun x p => Function.update x (idx p) (val p)) x) r = 0 := by
  intro l
  induction l with
  | nil =>
    intro _ x r hr
    exact hr
  | cons p ps ih =>
    intro hval x r hr
    simp only [List.foldl_cons]
    apply ih (fun q hq => hval q (List.mem_cons_of_mem p hq))
    by_cases hpr : idx p = r
    · rw [← hpr, Function.update_same]
      exact hval p (List.mem_cons_self p ps)
    · rw [Function.update_noteq (fun h => hpr h.symm)]
      exact hr

/-- The column-update loop of the triangular solve is the identity
when the freshly solved entry is zero. -/
theorem foldl_sub_mul_self_id (Gi : ℤ → ℤ) (Gx : ℤ → ℚ) (j : ℤ) :
    ∀ (l : List ℤ) (x : ℤ → ℚ), x j = 0 →
      l.foldl (fun x p => Function.update x (Gi p) (x (Gi p) - Gx p * x j)) x = x := by
  intro l
  induction l with
  | nil =>
    intro x _
    rfl
  | cons p ps ih =>
    intro x hj
    rw [List.foldl_cons]
    have h1 : Function.update x (Gi p) (x (Gi p) - Gx p * x j) = x := by
      rw [hj, mul_zero, sub_zero]
      exact Function.update_eq_self (Gi p) x
    rw [h1]
    exact ih x hj

/-- `sp_splsolve`, with the three phases spelled out. -/
theorem sp_splsolve_eq (G B : sp_mat ℚ) (k : ℤ) (xik : ℤ → ℤ) (top : ℤ)
    (x0 : ℤ → ℚ) (pinv : ℤ → ℤ) :
    sp_splsolve G B k xik top x0 pinv =
      (intRange top G.ncols).foldl
        (fun x px =>
          if pinv (xik px) < 0 then x
          else
            (intRange (G.Ap (pinv (xik px)) + 1) (G.Ap (pinv (xik px) + 1))).foldl
              (fun x p => Function.update x (G.Ai p) (x (G.Ai p) - G.Ax p * x (xik px)))
              (Function.update x (xik px)
                (x (xik px) / G.Ax (G.Ap (pinv (xik px))))))
        ((intRange (B.Ap k) (B.Ap (k + 1))).foldl
          (fun x p => Function.update x (B.Ai p) (B.Ax p))
          ((intRange top G.ncols).foldl
            (fun x p => Function.update x (xik p) 0) x0)) := rfl

/-- One pass of the triangular loop is the identity on a state that is
zero at the visited reach node. -/
theorem splsolve_step_id (G : sp_mat ℚ) (xik pinv : ℤ → ℤ) (x : ℤ → ℚ) (px : ℤ)
    (hz : x (xik px) = 0) :
    (if pinv (xik px) < 0 then x
     else
       (intRange (G.Ap (pinv (xik px)) + 1) (G.Ap (pinv (xik px) + 1))).foldl
         (fun x p => Function.update x (G.Ai p) (x (G.Ai p) - G.Ax p * x (xik px)))
         (Function.update x (xik px)
           (x (xik px) / G.Ax (G.Ap (pinv (xik px)))))) = x := by
  by_cases hJ : pinv (xik px) < 0
  · rw [if_pos hJ]
  · rw [if_neg hJ]
    have hv : x (xik px) / G.Ax (G.Ap (pinv (xik px))) = x (xik px) := by
      rw [hz, zero_div]
    rw [hv, Function.update_eq_self (xik px) x]
    exact foldl_sub_mul_self_id G.Ai G.Ax (xik px) _ x hz

/-- The whole triangular loop is the identity on a state that is zero
at every reach node. -/
theorem splsolve_phase3_id (G : sp_mat ℚ) (xik pinv : ℤ → ℤ) :
    ∀ (l : List ℤ) (x : ℤ → ℚ), (∀ px ∈ l, x (xik px) = 0) →
      l.foldl
        (fun x px =>
          if pinv (xik px) < 0 then x
          else
            (intRange (G.Ap (pinv (xik px)) + 1) (G.Ap (pinv (xik px) + 1))).foldl
              (fun x p => Function.update x (G.Ai p) (x (G.Ai p) - G.Ax p * x (xik px)))
              (Function.update x (xik px)
                (x (xik px) / G.Ax (G.Ap (pinv (xik px))))))
        x = x := by
  intro l
  induction l with
  | nil =>
    intro x _
    rfl
  | cons px pxs ih =>
    intro x hz
    rw [List.foldl_cons]
    rw [splsolve_step_id G xik pinv x px (hz px (List.mem_cons_self px pxs))]
    exact ih x (fun q hq => hz q (List.mem_cons_of_mem px hq))

/-- If column `k` of `B` carries only zero values, the triangular
solve leaves every reach node at zero. -/
theorem sp_splsolve_zero (G B : sp_mat ℚ) (k : ℤ) (xik : ℤ → ℤ) (top : ℤ)
    (x0 : ℤ → ℚ) (pinv : ℤ → ℤ)
    (hB : ∀ p, B.Ap k ≤ p → p < B.Ap (k + 1) → B.Ax p = 0) :
    ∀ p, top ≤ p → p < G.ncols →
      sp_splsolve G B k xik top x0 pinv (xik p) = 0 := by
  intro p hp1 hp2
  rw [sp_splsolve_eq]
  have hx2 : ∀ px, px ∈ intRange top G.ncols →
      ((intRange (B.Ap k) (B.Ap (k + 1))).foldl
        (fun x p => Function.update x (B.Ai p) (B.Ax p))
        ((intRange top G.ncols).foldl
          (fun x p => Function.update x (xik p) 0) x0)) (xik px) = 0 := by
    intro px hpx
    apply foldl_update_val_zero B.Ai B.Ax _
      (fun q hq => hB q (mem_intRange.1 hq).1 (mem_intRange.1 hq).2)
    have h1 := foldl_update_idx_const (0 : ℚ) xik (intRange top G.ncols) x0 (xik px)
    rw [h1, if_pos (List.mem_map.2 ⟨px, hpx, rfl⟩)]
  rw [splsolve_phase3_id G xik pinv (intRange top G.ncols) _ hx2]
  exact hx2 p (mem_intRange.2 ⟨hp1, hp2⟩)

/-- A step of `sp_ludcmp` whose working column carries only zero
values always fails: every candidate magnitude is zero, so either no
candidate exists (`ipiv = -1`) or the maximum is `0 ≤ 0`. -/
theorem lustep_zero_col_fails (A : sp_mat ℚ) (pivtol : ℚ) (st : LuLoopSt ℚ)
    (k : ℤ) (hLn : st.N.L.ncols = A.ncols)
    (hzero : ∀ p, A.Ap (colFromQ st.N.q k) ≤ p →
      p < A.Ap (colFromQ st.N.q k + 1) → A.Ax p = 0) :
    (lustep A pivtol st k).1 = Status.failure := by
  rw [lustep_fail_iff]
  have hlc : lustepCands A st k =
      ((intRange (lustepReach A st k).top A.ncols).map
        (lustepReach A st k).xik).filter (fun i => st.N.pinv i < 0) := rfl
  have hX : ∀ i ∈ lustepCands A st k, lustepX A st k i = 0 := by
    intro i hi
    rw [hlc] at hi
    obtain ⟨hmem, _⟩ := List.mem_filter.1 hi
    obtain ⟨p, hp, hpe⟩ := List.mem_map.1 hmem
    have hpb := mem_intRange.1 hp
    have hxe : lustepX A st k = sp_splsolve (lustepSt2 A st k).N.L A
        (colFromQ (lustepSt2 A st k).N.q k) (lustepReach A st k).xik
        (lustepReach A st k).top (lustepSt2 A st k).N.w
        (lustepSt2 A st k).N.pinv := rfl
    rw [← hpe, hxe]
    apply sp_splsolve_zero
    · intro q hq1 hq2
      exact hzero q hq1 hq2
    · exact hpb.1
    · have hn2 : (lustepSt2 A st k).N.L.ncols = st.N.L.ncols := rfl
      omega
  have hinv := pivotScan_inv (lustepSt2 A st k).N.pinv (lustepX A st k)
    (lustepReach A st k).xik (lustepReach A st k).top A.ncols
    (lustepSt2 A st k).N.U.Ai (lustepSt2 A st k).N.U.Ax st.unz
  rw [lustepSt2_pinv] at hinv
  have hscan : pivotScan st.N.pinv (lustepX A st k) (lustepReach A st k).xik
      (lustepReach A st k).top A.ncols (lustepSt2 A st k).N.U.Ai
      (lustepSt2 A st k).N.U.Ax st.unz = lustepScan A st k := rfl
  rw [hscan, ← hlc] at hinv
  rcases hinv with ⟨_, hip, _⟩ | ⟨hmem, ha, _⟩
  · exact Or.inl hip
  · right
    rw [ha, hX _ hmem]
    simp

theorem lustepFinStep_eq (rs : ReachState) (pinv1 : ℤ → ℤ) (pivot : ℚ)
    (s : (ℤ → ℤ) × (ℤ → ℚ) × ℤ × (ℤ → ℚ)) (p : ℤ) :
    lustepFinStep rs pinv1 pivot s p =
      if pinv1 (rs.xik p) < 0 then
        (Function.update s.1 s.2.2.1 (rs.xik p),
          Function.update s.2.1 s.2.2.1 (s.2.2.2 (rs.xik p) / pivot),
          s.2.2.1 + 1, Function.update s.2.2.2 (rs.xik p) 0)
      else (s.1, s.2.1, s.2.2.1, Function.update s.2.2.2 (rs.xik p) 0) := by
  unfold lustepFinStep
  dsimp only
  by_cases h : pinv1 (rs.xik p) < 0
  · rw [if_pos h, if_pos h]
  · rw [if_neg h, if_neg h]

/-- The second reach loop of a successful step only grows `lnz` and
writes only in-range entries into `L`'s rows. -/
theorem luFin_fold (rs : ReachState) (pinv1 : ℤ → ℤ) (pivot : ℚ) (n : ℤ) :
    ∀ (l : List ℤ), (∀ p ∈ l, 0 ≤ rs.xik p ∧ rs.xik p < n) →
      ∀ (s0 : (ℤ → ℤ) × (ℤ → ℚ) × ℤ × (ℤ → ℚ)),
        (∀ q, 0 ≤ q → q < s0.2.2.1 → 0 ≤ s0.1 q ∧ s0.1 q < n) →
        s0.2.2.1 ≤ (l.foldl (lustepFinStep rs pinv1 pivot) s0).2.2.1 ∧
        (∀ q, 0 ≤ q → q < (l.foldl (lustepFinStep rs pinv1 pivot) s0).2.2.1 →
          0 ≤ (l.foldl (lustepFinStep rs pinv1 pivot) s0).1 q ∧
          (l.foldl (lustepFinStep rs pinv1 pivot) s0).1 q < n) := by
  intro l
  induction l with
  | nil =>
    intro _ s0 hs0
    rw [List.foldl_nil]
    exact ⟨le_refl _, hs0⟩
  | cons p ps ih =>
    intro hlb s0 hs0
    rw [List.foldl_cons]
    have hstep : s0.2.2.1 ≤ (lustepFinStep rs pinv1 pivot s0 p).2.2.1 ∧
        (∀ q, 0 ≤ q → q < (lustepFinStep rs pinv1 pivot s0 p).2.2.1 →
          0 ≤ (lustepFinStep rs pinv1 pivot s0 p).1 q ∧
          (lustepFinStep rs pinv1 pivot s0 p).1 q < n) := by
      rw [lustepFinStep_eq]
      by_cases h : pinv1 (rs.xik p) < 0
      · rw [if_pos h]
        dsimp only
        refine ⟨by omega, ?_⟩
        intro q hq1 hq2
        by_cases hq : q = s0.2.2.1
        · rw [hq, Function.update_same]
          exact hlb p (List.mem_cons_self p ps)
        · rw [Function.update_noteq hq]
          exact hs0 q hq1 (by omega)
      · rw [if_neg h]
        dsimp only
        exact ⟨le_refl _, hs0⟩
    obtain ⟨a1, a2⟩ := ih (fun q hq => hlb q (List.mem_cons_of_mem p hq)) _ hstep.2
    exact ⟨le_trans hstep.1 a1, a2⟩

theorem lustepSuccSt_LAp (A : sp_mat ℚ) (pivtol : ℚ) (st : LuLoopSt ℚ) (k : ℤ) :
    (lustepSuccSt A pivtol st k).N.L.Ap = (lustepReach A st k).Gp := rfl

/-- The `L` rows and `lnz` of the success state, as the explicit
second-reach-loop fold. -/
theorem lustepSuccSt_fin (A : sp_mat ℚ) (pivtol : ℚ) (st : LuLoopSt ℚ) (k : ℤ) :
    (lustepSuccSt A pivtol st k).N.L.Ai =
      ((intRange (lustepReach A st k).top A.ncols).foldl
        (lustepFinStep (lustepReach A st k)
          (Function.update st.N.pinv (lustepPivot A pivtol st k) k)
          (lustepX A st k (lustepPivot A pivtol st k)))
        (Function.update st.N.L.Ai st.lnz (lustepPivot A pivtol st k),
          Function.update st.N.L.Ax st.lnz 1, st.lnz + 1, lustepX A st k)).1 ∧
    (lustepSuccSt A pivtol st k).lnz =
      ((intRange (lustepReach A st k).top A.ncols).foldl
        (lustepFinStep (lustepReach A st k)
          (Function.update st.N.pinv (lustepPivot A pivtol st k) k)
          (lustepX A st k (lustepPivot A pivtol st k)))
        (Function.update st.N.L.Ai st.lnz (lustepPivot A pivtol st k),
          Function.update st.N.L.Ax st.lnz 1, st.lnz + 1, lustepX A st k)).2.2.1 :=
  ⟨rfl, rfl⟩

/-- The pivot-search invariant, phrased for one `sp_ludcmp` step. -/
theorem lustepScan_inv (A : sp_mat ℚ) (st : LuLoopSt ℚ) (k : ℤ) :
    (lustepCands A st k = [] ∧ (lustepScan A st k).ipiv = -1 ∧
      (lustepScan A st k).a = -1) ∨
    ((lustepScan A st k).ipiv ∈ lustepCands A st k ∧
      (lustepScan A st k).a = |lustepX A st k ((lustepScan A st k).ipiv)| ∧
      ∀ i ∈ lustepCands A st k, |lustepX A st k i| ≤ (lustepScan A st k).a) := by
  have hinv := pivotScan_inv (lustepSt2 A st k).N.pinv (lustepX A st k)
    (lustepReach A st k).xik (lustepReach A st k).top A.ncols
    (lustepSt2 A st k).N.U.Ai (lustepSt2 A st k).N.U.Ax st.unz
  rw [lustepSt2_pinv] at hinv
  have hscan : pivotScan st.N.pinv (lustepX A st k) (lustepReach A st k).xik
      (lustepReach A st k).top A.ncols (lustepSt2 A st k).N.U.Ai
      (lustepSt2 A st k).N.U.Ax st.unz = lustepScan A st k := rfl
  have hlc : lustepCands A st k =
      ((intRange (lustepReach A st k).top A.ncols).map
        (lustepReach A st k).xik).filter (fun i => st.N.pinv i < 0) := rfl
  rw [hscan, ← hlc] at hinv
  exact hinv

/-- Membership in the candidate list of one step. -/
theorem mem_lustepCands (A : sp_mat ℚ) (st : LuLoopSt ℚ) (k i : ℤ) :
    i ∈ lustepCands A st k ↔
      st.N.pinv i < 0 ∧ ∃ p, (lustepReach A st k).top ≤ p ∧ p < A.ncols ∧
        (lustepReach A st k).xik p = i := by
  have hlc : lustepCands A st k =
      ((intRange (lustepReach A st k).top A.ncols).map
        (lustepReach A st k).xik).filter (fun i => st.N.pinv i < 0) := rfl
  rw [hlc]
  constructor
  · intro h
    obtain ⟨hm, hp⟩ := List.mem_filter.1 h
    obtain ⟨p, hpm, hpe⟩ := List.mem_map.1 hm
    have hb := mem_intRange.1 hpm
    exact ⟨by simpa using hp, p, hb.1, hb.2, hpe⟩
  · rintro ⟨h1, p, h2, h3, h4⟩
    exact List.mem_filter.2 ⟨List.mem_map.2 ⟨p, mem_intRange.2 ⟨h2, h3⟩, h4⟩,
      by simpa using h1⟩

/-- One successful `sp_ludcmp` step preserves the loop invariant,
advancing the cursor: the pivot is a fresh in-range row, `lnz` grows,
and the `L` contents stay in range. -/
theorem lustep_inv (A : sp_mat ℚ) (pivtol : ℚ) (st : LuLoopSt ℚ) (k : ℤ)
    (hLn : st.N.L.ncols = A.ncols) (hk0 : 0 ≤ k) (hkn : k < A.ncols)
    (hcol : 0 ≤ colFromQ st.N.q k ∧ colFromQ st.N.q k < A.ncols)
    (hAi : ∀ p, A.Ap (colFromQ st.N.q k) ≤ p →
      p < A.Ap (colFromQ st.N.q k + 1) → 0 ≤ A.Ai p ∧ A.Ai p < A.ncols)
    (hInv : LuInv A st k)
    (hsucc : (lustep A pivtol st k).1 = Status.success) :
    LuInv A (lustepSuccSt A pivtol st k) (k + 1) ∧
    lustep A pivtol st k = (Status.success, lustepSuccSt A pivtol st k) := by
  obtain ⟨I1, I2, I3, I4, I5⟩ := hInv
  have hnf : ¬((lustepScan A st k).ipiv = -1 ∨ (lustepScan A st k).a ≤ 0) := by
    intro hc
    have hf := (lustep_fail_iff A pivtol st k).2 hc
    rw [hsucc] at hf
    exact Status.noConfusion hf
  have hstep : lustep A pivtol st k = (Status.success, lustepSuccSt A pivtol st k) := by
    unfold lustep
    rw [if_neg hnf]
  have hre2 : lustepReach A st k = reachr st.N.L.ncols A.Ap A.Ai st.N.L.Ai
      st.N.pinv (colFromQ st.N.q k) (Function.update st.N.L.Ap k st.lnz)
      (st.N.xi k) := rfl
  have hGp' : ∀ r, 0 ≤ r → r ≤ st.N.L.ncols →
      0 ≤ SPUNFLIP (Function.update st.N.L.Ap k st.lnz r) ∧
      SPUNFLIP (Function.update st.N.L.Ap k st.lnz r) ≤ st.lnz := by
    intro r h1 h2
    by_cases hr : r = k
    · rw [hr, Function.update_same, SPUNFLIP_of_nonneg I1]
      exact ⟨I1, le_refl _⟩
    · rw [Function.update_noteq hr]
      exact I2 r h1 (by omega)
  have hrw := reachr_wf st.N.L.ncols A.Ap A.Ai st.N.L.Ai st.N.pinv
    (colFromQ st.N.q k) (Function.update st.N.L.Ap k st.lnz) (st.N.xi k) st.lnz
    (fun p h1 h2 => by
      have h := I3 p h1 h2
      exact ⟨h.1, by omega⟩)
    (fun i h1 h2 => by
      have h := I4 i h1 (by omega)
      omega)
    hGp'
    (fun p h1 h2 => by
      have h := hAi p h1 h2
      exact ⟨h.1, by omega⟩)
  rw [← hre2] at hrw
  obtain ⟨R1, R2, R3⟩ := hrw
  have hpinv_fresh : st.N.pinv (lustepPivot A pivtol st k) < 0 ∧
      0 ≤ lustepPivot A pivtol st k ∧ lustepPivot A pivtol st k < A.ncols := by
    unfold lustepPivot
    by_cases hov : (lustepSt2 A st k).N.pinv
        (colFromQ (lustepSt2 A st k).N.q k) < 0 ∧
        |lustepX A st k (colFromQ (lustepSt2 A st k).N.q k)| ≥
          (lustepScan A st k).a * pivtol
    · rw [if_pos hov]
      exact ⟨hov.1, hcol.1, hcol.2⟩
    · rw [if_neg hov]
      rcases lustepScan_inv A st k with ⟨_, hip, _⟩ | ⟨hmem, _, _⟩
      · exact absurd (Or.inl hip) hnf
      · obtain ⟨hfr, p2, hp2a, hp2b, hpe⟩ := (mem_lustepCands A st k _).1 hmem
        have hr2 := R2 p2 hp2a (by omega)
        refine ⟨hfr, ?_, ?_⟩
        · rw [← hpe]
          exact hr2.1
        · rw [← hpe]
          omega
  obtain ⟨hfresh, hp0, hpn⟩ := hpinv_fresh
  obtain ⟨hfinAi, hfinLnz⟩ := lustepSuccSt_fin A pivtol st k
  obtain ⟨F1, F2⟩ := luFin_fold (lustepReach A st k)
    (Function.update st.N.pinv (lustepPivot A pivtol st k) k)
    (lustepX A st k (lustepPivot A pivtol st k)) A.ncols
    (intRange (lustepReach A st k).top A.ncols)
    (fun p hp => by
      have hb := mem_intRange.1 hp
      have h := R2 p hb.1 (by omega)
      exact ⟨h.1, by omega⟩)
    (Function.update st.N.L.Ai st.lnz (lustepPivot A pivtol st k),
      Function.update st.N.L.Ax st.lnz 1, st.lnz + 1, lustepX A st k)
    (by
      intro q h1 h2
      have h2' : q < st.lnz + 1 := h2
      show 0 ≤ Function.update st.N.L.Ai st.lnz (lustepPivot A pivtol st k) q ∧
        Function.update st.N.L.Ai st.lnz (lustepPivot A pivtol st k) q < A.ncols
      by_cases hq : q = st.lnz
      · rw [hq, Function.update_same]
        exact ⟨hp0, hpn⟩
      · rw [Function.update_noteq hq]
        exact I3 q h1 (by omega))
  have F1' : st.lnz + 1 ≤ ((intRange (lustepReach A st k).top A.ncols).foldl
      (lustepFinStep (lustepReach A st k)
        (Function.update st.N.pinv (lustepPivot A pivtol st k) k)
        (lustepX A st k (lustepPivot A pivtol st k)))
      (Function.update st.N.L.Ai st.lnz (lustepPivot A pivtol st k),
        Function.update st.N.L.Ax st.lnz 1, st.lnz + 1,
        lustepX A st k)).2.2.1 := F1
  refine ⟨⟨?_, ?_, ?_, ?_, ?_⟩, hstep⟩
  · rw [hfinLnz]
    omega
  · intro r h1 h2
    rw [lustepSuccSt_LAp, R3 r, hfinLnz]
    have hb := hGp' r h1 (by omega)
    omega
  · intro q h1 h2
    rw [hfinLnz] at h2
    rw [hfinAi]
    exact F2 q h1 h2
  · intro i h1 h2
    rw [lustepSuccSt_pinv]
    by_cases hi : i = lustepPivot A pivtol st k
    · rw [hi, Function.update_same]
      omega
    · rw [Function.update_noteq hi]
      have := I4 i h1 h2
      omega
  · intro m h1 h2
    rw [lustepSuccSt_p, lustepSuccSt_pinv]
    by_cases hm : m = k
    · rw [hm, Function.update_same, Function.update_same]
      exact ⟨hp0, hpn, rfl⟩
    · rw [Function.update_noteq hm]
      have hold := I5 m h1 (by omega)
      refine ⟨hold.1, hold.2.1, ?_⟩
      rw [Function.update_noteq (fun he => by
        rw [he] at hold
        omega)]
      exact hold.2.2

/-- The invariant carried over the remaining schedule: a successful
run that starts with the invariant at cursor `c` ends with it at `n`. -/
theorem luSteps_inv (A : sp_mat ℚ) (pivtol : ℚ)
    (hAi : ∀ j, 0 ≤ j → j < A.ncols → ∀ p, A.Ap j ≤ p → p < A.Ap (j + 1) →
      0 ≤ A.Ai p ∧ A.Ai p < A.ncols) :
    ∀ (m : ℕ) (c : ℤ) (st st' : LuLoopSt ℚ),
      c = A.ncols - (m : ℤ) → 0 ≤ c →
      st.N.L.ncols = A.ncols →
      (∀ k, 0 ≤ k → k < A.ncols →
        0 ≤ colFromQ st.N.q k ∧ colFromQ st.N.q k < A.ncols) →
      LuInv A st c →
      luSteps A pivtol (intRange c A.ncols) st = (Status.success, st') →
      LuInv A st' A.ncols := by
  intro m
  induction m with
  | zero =>
    intro c st st' hc h0 hln hq hInv hrun
    have hcn : c = A.ncols := by omega
    rw [hcn, intRange_eq_nil (le_refl _), luSteps_nil] at hrun
    injection hrun with _ h2
    rw [← h2]
    rw [hcn] at hInv
    exact hInv
  | succ m ih =>
    intro c st st' hc h0 hln hq hInv hrun
    have hcn : c < A.ncols := by omega
    rw [intRange_cons hcn] at hrun
    rcases lustep_cases A pivtol st c with hcs | hcs
    · rw [luSteps_cons_fail A pivtol _ hcs] at hrun
      injection hrun with h1 _
      exact Status.noConfusion h1
    · rw [luSteps_cons_succ A pivtol _ hcs] at hrun
      have hsucc : (lustep A pivtol st c).1 = Status.success := by
        rw [hcs]
      obtain ⟨hInv', _⟩ := lustep_inv A pivtol st c hln h0 hcn (hq c h0 hcn)
        (fun p hp1 hp2 =>
          hAi (colFromQ st.N.q c) (hq c h0 hcn).1 (hq c h0 hcn).2 p hp1 hp2)
        hInv hsucc
      exact ih (c + 1) (lustepSuccSt A pivtol st c) st' (by omega) (by omega)
        (by rw [lustepSuccSt_ncols]; exact hln)
        (fun k hk1 hk2 => by rw [lustepSuccSt_q]; exact hq k hk1 hk2)
        hInv' hrun

/-- The invariant holds after the initialisation loops of `sp_ludcmp`. -/
theorem ludcmpInit_inv (N : sp_num ℚ) (A : sp_mat ℚ) :
    LuInv A ⟨ludcmpInit N A, 0, 0⟩ 0 := by
  refine ⟨le_refl 0, ?_, ?_, ?_, ?_⟩
  · intro r h1 h2
    have he : (⟨ludcmpInit N A, 0, 0⟩ : LuLoopSt ℚ).N.L.Ap r =
        (intRange 0 (A.ncols + 1)).foldl
          (fun f k => Function.update f k 0) N.L.Ap r := rfl
    show 0 ≤ SPUNFLIP ((⟨ludcmpInit N A, 0, 0⟩ : LuLoopSt ℚ).N.L.Ap r) ∧
      SPUNFLIP ((⟨ludcmpInit N A, 0, 0⟩ : LuLoopSt ℚ).N.L.Ap r) ≤ 0
    rw [he, foldl_update_const, if_pos (mem_intRange.2 ⟨h1, by omega⟩),
      SPUNFLIP_of_nonneg (le_refl 0)]
    exact ⟨le_refl 0, le_refl 0⟩
  · intro p h1 h2
    exact absurd (show p < (0:ℤ) from h2) (by omega)
  · intro i h1 h2
    show (intRange 0 A.ncols).foldl
      (fun f i => Function.update f i (-1)) N.pinv i < 0
    rw [foldl_update_const, if_pos (mem_intRange.2 ⟨h1, h2⟩)]
    omega
  · intro m h1 h2
    exact absurd (show m < (0:ℤ) from h2) (by omega)

/-- C4: after a successful `sp_ludcmp` run on a well-formed input
(`L` sized to `A`, row indices in range, a valid column schedule `q`),
`p` and `pinv` are mutually inverse permutations of `0 .. n-1`; in
particular `p[pinv[i]] = i` for every `i` in range. -/
theorem sp_ludcmp_perm_inverse (N : sp_num ℚ) (A : sp_mat ℚ) (pivtol : ℚ)
    (N' : sp_num ℚ) (hLn : N.L.ncols = A.ncols)
    (hAi : ∀ j, 0 ≤ j → j < A.ncols → ∀ p, A.Ap j ≤ p → p < A.Ap (j + 1) →
      0 ≤ A.Ai p ∧ A.Ai p < A.ncols)
    (hq : ∀ k, 0 ≤ k → k < A.ncols →
      0 ≤ colFromQ N.q k ∧ colFromQ N.q k < A.ncols)
    (hrun : sp_ludcmp N A pivtol = (Status.success, N')) :
    (∀ k, 0 ≤ k → k < A.ncols →
      0 ≤ N'.p k ∧ N'.p k < A.ncols ∧ N'.pinv (N'.p k) = k) ∧
    (∀ i, 0 ≤ i → i < A.ncols →
      0 ≤ N'.pinv i ∧ N'.pinv i < A.ncols ∧ N'.p (N'.pinv i) = i) := by
  rcases hls : luSteps A pivtol (intRange 0 A.ncols) ⟨ludcmpInit N A, 0, 0⟩
    with ⟨s, stf⟩
  cases s with
  | failure =>
    rw [sp_ludcmp_fail_eq N A pivtol stf hls] at hrun
    injection hrun with h1 _
    exact Status.noConfusion h1
  | success =>
    rw [sp_ludcmp_succ_eq N A pivtol stf hls] at hrun
    injection hrun with _ h2
    have hp' : N'.p = stf.N.p := by
      rw [← h2]
      rfl
    have hpinv' : N'.pinv = stf.N.pinv := by
      rw [← h2]
      rfl
    by_cases hn : 0 ≤ A.ncols
    · have hfinal := luSteps_inv A pivtol hAi A.ncols.toNat 0
        ⟨ludcmpInit N A, 0, 0⟩ stf (by omega) (le_refl 0)
        (show (ludcmpInit N A).L.ncols = A.ncols from hLn)
        (fun k h1 h2 => hq k h1 h2)
        (ludcmpInit_inv N A) hls
      obtain ⟨_, _, _, J4, J5⟩ := hfinal
      constructor
      · intro k h1 h2
        rw [hp', hpinv']
        exact J5 k h1 h2
      · intro i h1 h2
        rw [hp', hpinv']
        have hinj : Set.InjOn (fun m => stf.N.p m)
            (↑(Finset.Ico (0:ℤ) A.ncols) : Set ℤ) := by
          intro a ha b hb he
          have ha' := Finset.mem_Ico.1 (Finset.mem_coe.1 ha)
          have hb' := Finset.mem_Ico.1 (Finset.mem_coe.1 hb)
          have h1a := (J5 a ha'.1 ha'.2).2.2
          have h1b := (J5 b hb'.1 hb'.2).2.2
          have hab : stf.N.pinv (stf.N.p a) = stf.N.pinv (stf.N.p b) := by
            show stf.N.pinv ((fun m => stf.N.p m) a) =
              stf.N.pinv ((fun m => stf.N.p m) b)
            rw [he]
          omega
        have himg : Finset.image (fun m => stf.N.p m) (Finset.Ico (0:ℤ) A.ncols) =
            Finset.Ico (0:ℤ) A.ncols := by
          apply Finset.eq_of_subset_of_card_le
          · intro x hx
            obtain ⟨m, hm, hme⟩ := Finset.mem_image.1 hx
            have hm' := Finset.mem_Ico.1 hm
            have hJ := J5 m hm'.1 hm'.2
            rw [← hme]
            exact Finset.mem_Ico.2 ⟨hJ.1, hJ.2.1⟩
          · rw [Finset.card_image_of_injOn hinj]
        have hiimg : i ∈ Finset.image (fun m => stf.N.p m)
            (Finset.Ico (0:ℤ) A.ncols) := by
          rw [himg]
          exact Finset.mem_Ico.2 ⟨h1, h2⟩
        obtain ⟨m, hm, hme⟩ := Finset.mem_image.1 hiimg
        have hm' := Finset.mem_Ico.1 hm
        have hJ := J5 m hm'.1 hm'.2
        have hpi : stf.N.pinv i = m := by
          rw [← hme]
          exact hJ.2.2
        refine ⟨by omega, by omega, ?_⟩
        rw [hpi]
        exact hme
    · refine ⟨?_, ?_⟩ <;> intro x h1 h2 <;> exact absurd h1 (by omega)

/-- Witness for C4 at the 2×2 antidiagonal matrix: the run succeeds
and the resulting `p`/`pinv` are mutually inverse on `{0, 1}`. -/
theorem sp_ludcmp_perm_inverse_w :
    (∀ k, 0 ≤ k → k < antiDiagA.ncols →
      0 ≤ (sp_ludcmp ctxTwo antiDiagA 1).2.p k ∧
      (sp_ludcmp ctxTwo antiDiagA 1).2.p k < antiDiagA.ncols ∧
      (sp_ludcmp ctxTwo antiDiagA 1).2.pinv
        ((sp_ludcmp ctxTwo antiDiagA 1).2.p k) = k) ∧
    (∀ i, 0 ≤ i → i < antiDiagA.ncols →
      0 ≤ (sp_ludcmp ctxTwo antiDiagA 1).2.pinv i ∧
      (sp_ludcmp ctxTwo antiDiagA 1).2.pinv i < antiDiagA.ncols ∧
      (sp_ludcmp ctxTwo antiDiagA 1).2.p
        ((sp_ludcmp ctxTwo antiDiagA 1).2.pinv i) = i) :=
  sp_ludcmp_perm_inverse ctxTwo antiDiagA 1 (sp_ludcmp ctxTwo antiDiagA 1).2
    (by decide)
    (by
      intro j h1 h2 p h3 h4
      have e2 : antiDiagA.ncols = 2 := by decide
      rw [e2] at h2
      have hj : j = 0 ∨ j = 1 := by omega
      rcases hj with hj | hj
      · subst hj
        have e0 : antiDiagA.Ap 0 = 0 := by decide
        have e1 : antiDiagA.Ap (0 + 1) = 1 := by decide
        rw [e0] at h3
        rw [e1] at h4
        have hp : p = 0 := by omega
        subst hp
        decide
      · subst hj
        have e0 : antiDiagA.Ap 1 = 1 := by decide
        have e1 : antiDiagA.Ap (1 + 1) = 2 := by decide
        rw [e0] at h3
        rw [e1] at h4
        have hp : p = 1 := by omega
        subst hp
        decide)
    (by
      intro k h1 h2
      exact ⟨h1, h2⟩)
    (by
      have h1 : (sp_ludcmp ctxTwo antiDiagA 1).1 = Status.success := by
        with_unfolding_all decide
      rw [← h1])

/-! ## Claim C10: `sp_refactor` has no failure path -/

/-- C10: `sp_refactor` (and `sp_refactor_cx`) has no failure path: it
returns the success status for every input matrix and context; in
particular, when the value at the recorded pivot position is zero it
still reports success, the zero pivot is silently stored on the `U`
diagonal, and the corresponding `L` entry is the result of the
unguarded division by that zero pivot (in the exact-rational embedding
`3 / 0`; over IEEE doubles the same unguarded division produces
NaN/Inf). -/
theorem sp_refactor_no_failure_path :
    (∀ (N : sp_num ℚ) (A : sp_mat ℚ), (sp_refactor N A).1 = Status.success) ∧
    (∀ (N : sp_num CxQ) (A : sp_mat CxQ), (sp_refactor_cx N A).1 = Status.success) ∧
    ((sp_refactor refZeroPivN refZeroPivA).1 = Status.success ∧
      (sp_refactor refZeroPivN refZeroPivA).2.U.Ax 0 = 0 ∧
      (sp_refactor refZeroPivN refZeroPivA).2.L.Ax 1 = 3 / 0) := by
  refine ⟨fun N A => rfl, fun N A => rfl, rfl, ?_, ?_⟩
  · with_unfolding_all decide
  · with_unfolding_all decide

/-! ## Claim C6: the 3×3 pattern-union example -/

/-- C6 counterexample: on the 3×3 input with entries
`(0,0),(1,0),(0,1),(2,2)`, output column 1 occupies positions
`[2, 3)` and holds the single row index 0 — so the claimed column-1
row set `{0,1}` is wrong: row 1 does not occur in output column 1. -/
theorem get_pattern_example_cex :
    ((get_pattern_A_plus_AT pattern3Ap pattern3Ai 3).1 1 = 2 ∧
      (get_pattern_A_plus_AT pattern3Ap pattern3Ai 3).1 2 = 3 ∧
      (get_pattern_A_plus_AT pattern3Ap pattern3Ai 3).2 2 = 0) ∧
    ¬ (∃ p, (get_pattern_A_plus_AT pattern3Ap pattern3Ai 3).1 1 ≤ p ∧
        p < (get_pattern_A_plus_AT pattern3Ap pattern3Ai 3).1 2 ∧
        (get_pattern_A_plus_AT pattern3Ap pattern3Ai 3).2 p = 1) := by
  have h1 : (get_pattern_A_plus_AT pattern3Ap pattern3Ai 3).1 1 = 2 := by decide
  have h2 : (get_pattern_A_plus_AT pattern3Ap pattern3Ai 3).1 2 = 3 := by decide
  have h3 : (get_pattern_A_plus_AT pattern3Ap pattern3Ai 3).2 2 = 0 := by decide
  refine ⟨⟨h1, h2, h3⟩, ?_⟩
  rintro ⟨p, hp1, hp2, hp3⟩
  rw [h1] at hp1
  rw [h2] at hp2
  have hp : p = 2 := by omega
  subst hp
  rw [h3] at hp3
  exact absurd hp3 (by decide)

/-- C6 amended: on the 3×3 input with entries `(0,0),(1,0),(0,1),(2,2)`,
`get_pattern_A_plus_AT` produces exactly the columns
`0 ↦ {0,1}`, `1 ↦ {0}`, `2 ↦ {2}` (the transpose of `(1,0)` is
`(0,1)`, which contributes row 0 — already present — to column 1),
each column free of duplicate row entries. -/
theorem get_pattern_example_columns :
    (get_pattern_A_plus_AT pattern3Ap pattern3Ai 3).1 0 = 0 ∧
    (get_pattern_A_plus_AT pattern3Ap pattern3Ai 3).1 1 = 2 ∧
    (get_pattern_A_plus_AT pattern3Ap pattern3Ai 3).1 2 = 3 ∧
    (get_pattern_A_plus_AT pattern3Ap pattern3Ai 3).1 3 = 4 ∧
    (get_pattern_A_plus_AT pattern3Ap pattern3Ai 3).2 0 = 0 ∧
    (get_pattern_A_plus_AT pattern3Ap pattern3Ai 3).2 1 = 1 ∧
    (get_pattern_A_plus_AT pattern3Ap pattern3Ai 3).2 2 = 0 ∧
    (get_pattern_A_plus_AT pattern3Ap pattern3Ai 3).2 3 = 2 := by
  decide

/-! ## Claim C5 (counterexample part): diagonal entries survive -/

/-- C5 counterexample: on the 1×1 input whose only entry is the
diagonal `(0,0)`, the output pattern of `get_pattern_A_plus_AT`
contains the diagonal entry: row 0 occurs in output column 0 (at
position 0 of `[Cp 0, Cp 1) = [0, 1)`).  The builder computes the
union without removing the diagonal. -/
theorem get_pattern_diagonal_cex :
    ((get_pattern_A_plus_AT diag1Ap diag1Ai 1).1 0 = 0 ∧
      (get_pattern_A_plus_AT diag1Ap diag1Ai 1).1 1 = 1 ∧
      (get_pattern_A_plus_AT diag1Ap diag1Ai 1).2 0 = 0) ∧
    (∃ p, (get_pattern_A_plus_AT diag1Ap diag1Ai 1).1 0 ≤ p ∧
      p < (get_pattern_A_plus_AT diag1Ap diag1Ai 1).1 1 ∧
      (get_pattern_A_plus_AT diag1Ap diag1Ai 1).2 p = 0) :=
  ⟨⟨by decide, by decide, by decide⟩, ⟨0, by decide, by decide, by decide⟩⟩

/-- C5 (amended): `get_pattern_A_plus_AT` does not remove diagonal
entries.  For every well-formed input pattern (`n ≥ 0`, `Ap 0 = 0`,
monotone column pointers, row indices in range) and every column `j`,
the row index `j` occurs among the output rows of column `j` exactly
when `A`'s own column `j` contains a diagonal entry `(j, j)`: the
builder computes the duplicate-free union `A ∪ Aᵗ` with the diagonal
kept, not removed. -/
theorem get_pattern_diagonal_iff (Ap Ai : ℤ → ℤ) (n : ℤ) (hn : 0 ≤ n)
    (hAp0 : Ap 0 = 0)
    (hmono : ∀ j, 0 ≤ j → j < n → Ap j ≤ Ap (j + 1))
    (hRows : ∀ j, 0 ≤ j → j < n → ∀ i, Ap j ≤ i → i < Ap (j + 1) →
      0 ≤ Ai i ∧ Ai i < n) :
    ∀ j, 0 ≤ j → j < n →
      ((∃ p, (get_pattern_A_plus_AT Ap Ai n).1 j ≤ p ∧
          p < (get_pattern_A_plus_AT Ap Ai n).1 (j + 1) ∧
          (get_pattern_A_plus_AT Ap Ai n).2 p = j) ↔
        (∃ i, Ap j ≤ i ∧ i < Ap (j + 1) ∧ Ai i = j)) := by
  intro j h1 h2
  have hRows' : ∀ pr ∈ patPairs Ap n, 0 ≤ Ai pr.2 ∧ Ai pr.2 < n := by
    intro pr hpr
    have hm := (mem_patPairs Ap n pr).1 hpr
    exact hRows pr.1 hm.1 hm.2.1 pr.2 hm.2.2.1 hm.2.2.2
  have hD := (patMerge_final Ap Ai n hn hmono).2 j h1 h2 j
  have hT : (∃ i, patTp Ap Ai n j ≤ i ∧ i < patTp Ap Ai n (j + 1) ∧
      (patScat Ap Ai n).1 i = j) ↔
      (∃ i, Ap j ≤ i ∧ i < Ap (j + 1) ∧ Ai i = j) := by
    have hmap := patScat_final Ap Ai n hn hAp0 hmono hRows' j h1 h2
    constructor
    · rintro ⟨i, hi1, hi2, hiv⟩
      have hi1' : sumRange (patHist Ap Ai n) j ≤ i := by
        rw [← patTp_eq Ap Ai n hn h1 (by omega)]
        exact hi1
      have hi2' : i < sumRange (patHist Ap Ai n) (j + 1) := by
        rw [← patTp_eq Ap Ai n hn (by omega) (by omega)]
        exact hi2
      have hmem : j ∈ patVals Ai j (patPairs Ap n) := by
        rw [← hmap]
        exact List.mem_map.2 ⟨i, mem_intRange.2 ⟨hi1', hi2'⟩, hiv⟩
      obtain ⟨pr, hprm, hpr2, hpr1⟩ := (mem_patVals Ai j j _).1 hmem
      have hb := (mem_patPairs Ap n pr).1 hprm
      refine ⟨pr.2, ?_, ?_, hpr2⟩
      · rw [← hpr1]
        exact hb.2.2.1
      · rw [← hpr1]
        exact hb.2.2.2
    · rintro ⟨i, hi1, hi2, hiv⟩
      have hmem : j ∈ patVals Ai j (patPairs Ap n) :=
        (mem_patVals Ai j j _).2
          ⟨(j, i), (mem_patPairs Ap n (j, i)).2 ⟨h1, h2, hi1, hi2⟩, hiv, rfl⟩
      rw [← hmap] at hmem
      obtain ⟨p, hp, hpv⟩ := List.mem_map.1 hmem
      have hpb := mem_intRange.1 hp
      refine ⟨p, ?_, ?_, hpv⟩
      · rw [patTp_eq Ap Ai n hn h1 (by omega)]
        exact hpb.1
      · rw [patTp_eq Ap Ai n hn (by omega) (by omega)]
        exact hpb.2
  rw [show (get_pattern_A_plus_AT Ap Ai n).1 = (patMerge Ap Ai n).2.2 from rfl,
    show (get_pattern_A_plus_AT Ap Ai n).2 = (patMerge Ap Ai n).1 from rfl,
    hD]
  constructor
  · rintro (h | h)
    · exact h
    · exact hT.1 h
  · intro h
    exact Or.inl h

/-- Witness for the C5 amended theorem at the concrete 1×1 diagonal
pattern: output column 0 contains row 0 exactly because the input
column 0 contains the diagonal entry `(0, 0)`. -/
theorem get_pattern_diagonal_iff_w :
    (∃ p, (get_pattern_A_plus_AT diag1Ap diag1Ai 1).1 0 ≤ p ∧
        p < (get_pattern_A_plus_AT diag1Ap diag1Ai 1).1 (0 + 1) ∧
        (get_pattern_A_plus_AT diag1Ap diag1Ai 1).2 p = 0) ↔
      (∃ i, diag1Ap 0 ≤ i ∧ i < diag1Ap (0 + 1) ∧ diag1Ai i = 0) :=
  get_pattern_diagonal_iff diag1Ap diag1Ai 1 (by decide) (by decide)
    (by
      intro j hj1 hj2
      have hj : j = 0 := by omega
      subst hj
      decide)
    (by
      intro j hj1 hj2 i hi1 hi2
      have hj : j = 0 := by omega
      subst hj
      have h0 : diag1Ap 0 = 0 := by decide
      have h1 : diag1Ap (0 + 1) = 1 := by decide
      rw [h0] at hi1
      rw [h1] at hi2
      have hi : i = 0 := by omega
      subst hi
      decide)
    0 (by decide) (by decide)

/-- C2 counterexample: on a 1×1 matrix whose only column is empty,
`sp_ludcmp` returns the failure status, yet `topvec[0]` has been
overwritten with the reach result `1` (the entry value was `0`):
`N->topvec[k] = top` at `sparse.c:149` runs before the failure return
at `sparse.c:169`, so the symbolic state is partially mutated on
failure. -/
theorem sp_ludcmp_failure_mutation_cex :
    (sp_ludcmp ctxOne emptyColA 1).1 = Status.failure ∧
    (sp_ludcmp ctxOne emptyColA 1).2.topvec 0 = 1 ∧
    ctxOne.topvec 0 = 0 ∧
    (sp_ludcmp ctxOne emptyColA 1).2.topvec 0 ≠ ctxOne.topvec 0 := by
  refine ⟨?_, ?_, ?_, ?_⟩ <;> with_unfolding_all decide

/-- C2 (amended): when `sp_ludcmp` returns the failure status, the
mutation of the reusable symbolic state is confined to the prefix up
to the failing step `k`: `topvec` is unchanged at every index above
`k` and outside `[0, n)`, and `p` is unchanged at every index from `k`
on and outside `[0, n)`.  (`topvec[0..k]` and `p[0..k-1]` may have
been overwritten: `topvec[k] = top` precedes the failure return.) -/
theorem sp_ludcmp_failure_mutation (N : sp_num ℚ) (A : sp_mat ℚ) (pivtol : ℚ)
    (N' : sp_num ℚ) (hfail : sp_ludcmp N A pivtol = (Status.failure, N')) :
    ∃ k, 0 ≤ k ∧ k < A.ncols ∧
      (∀ j, j < 0 ∨ A.ncols ≤ j ∨ k < j → N'.topvec j = N.topvec j) ∧
      (∀ j, j < 0 ∨ A.ncols ≤ j ∨ k ≤ j → N'.p j = N.p j) := by
  rcases hrun : luSteps A pivtol (intRange 0 A.ncols) ⟨ludcmpInit N A, 0, 0⟩
    with ⟨s, stf⟩
  cases s with
  | success =>
    rw [sp_ludcmp_succ_eq N A pivtol stf hrun] at hfail
    injection hfail with h1 _
    exact Status.noConfusion h1
  | failure =>
    rw [sp_ludcmp_fail_eq N A pivtol stf hrun] at hfail
    injection hfail with _ h2
    obtain ⟨k, hkm, t1, t2, t3, t4⟩ := luSteps_fail_pres A pivtol
      (intRange 0 A.ncols) ⟨ludcmpInit N A, 0, 0⟩ stf
      (pairwise_intRange 0 A.ncols) hrun
    have hkb := mem_intRange.1 hkm
    refine ⟨k, hkb.1, hkb.2, ?_, ?_⟩
    · intro j hj
      have hpres : stf.N.topvec j = (ludcmpInit N A).topvec j := by
        rcases hj with hj | hj | hj
        · exact t1 j (fun hm => by have := mem_intRange.1 hm; omega)
        · exact t1 j (fun hm => by have := mem_intRange.1 hm; omega)
        · exact t2 j hj
      rw [← h2, hpres, ludcmpInit_topvec]
    · intro j hj
      have hpres : stf.N.p j = (ludcmpInit N A).p j := by
        rcases hj with hj | hj | hj
        · exact t3 j (fun hm => by have := mem_intRange.1 hm; omega)
        · exact t3 j (fun hm => by have := mem_intRange.1 hm; omega)
        · exact t4 j hj
      rw [← h2, hpres, ludcmpInit_p]

/-- Witness for the C2 amended theorem: the failing 1×1 run, whose
only step is `k = 0`. -/
theorem sp_ludcmp_failure_mutation_w :
    ∃ k, 0 ≤ k ∧ k < emptyColA.ncols ∧
      (∀ j, j < 0 ∨ emptyColA.ncols ≤ j ∨ k < j →
        (sp_ludcmp ctxOne emptyColA 1).2.topvec j = ctxOne.topvec j) ∧
      (∀ j, j < 0 ∨ emptyColA.ncols ≤ j ∨ k ≤ j →
        (sp_ludcmp ctxOne emptyColA 1).2.p j = ctxOne.p j) :=
  sp_ludcmp_failure_mutation ctxOne emptyColA 1 (sp_ludcmp ctxOne emptyColA 1).2
    (by
      have h1 : (sp_ludcmp ctxOne emptyColA 1).1 = Status.failure := by
        with_unfolding_all decide
      rw [← h1])

/-- C3: at every step `k` of `sp_ludcmp` that succeeds, the scan
result `ipiv` is a not-yet-pivoted reachable row of maximal absolute
solution value, and the chosen pivot is `ipiv` unless the natural
diagonal candidate `col` (= `q[k]` or `k`) is itself unpivoted with
`|x[col]| ≥ pivtol·max`, in which case `col` is chosen; the choice is
recorded in `p[k]` and `pinv`. -/
theorem lustep_pivot_choice (A : sp_mat ℚ) (pivtol : ℚ) (st : LuLoopSt ℚ) (k : ℤ)
    (hsucc : (lustep A pivtol st k).1 = Status.success) :
    (lustepScan A st k).ipiv ∈ lustepCands A st k ∧
    (lustepScan A st k).a = |lustepX A st k ((lustepScan A st k).ipiv)| ∧
    (∀ i ∈ lustepCands A st k, |lustepX A st k i| ≤ (lustepScan A st k).a) ∧
    (lustepPivot A pivtol st k =
      if st.N.pinv (colFromQ st.N.q k) < 0 ∧
          |lustepX A st k (colFromQ st.N.q k)| ≥ (lustepScan A st k).a * pivtol
        then colFromQ st.N.q k else (lustepScan A st k).ipiv) ∧
    (lustep A pivtol st k).2.N.p k = lustepPivot A pivtol st k ∧
    (lustep A pivtol st k).2.N.pinv (lustepPivot A pivtol st k) = k := by
  have hnf : ¬((lustepScan A st k).ipiv = -1 ∨ (lustepScan A st k).a ≤ 0) := by
    intro hc
    have hf := (lustep_fail_iff A pivtol st k).2 hc
    rw [hsucc] at hf
    exact Status.noConfusion hf
  have hstep : lustep A pivtol st k = (Status.success, lustepSuccSt A pivtol st k) := by
    unfold lustep
    rw [if_neg hnf]
  have hinv := pivotScan_inv (lustepSt2 A st k).N.pinv (lustepX A st k)
    (lustepReach A st k).xik (lustepReach A st k).top A.ncols
    (lustepSt2 A st k).N.U.Ai (lustepSt2 A st k).N.U.Ax st.unz
  rw [lustepSt2_pinv] at hinv
  have hscan : pivotScan st.N.pinv (lustepX A st k) (lustepReach A st k).xik
      (lustepReach A st k).top A.ncols (lustepSt2 A st k).N.U.Ai
      (lustepSt2 A st k).N.U.Ax st.unz = lustepScan A st k := rfl
  rw [hscan] at hinv
  have hcl : ((intRange (lustepReach A st k).top A.ncols).map
      (lustepReach A st k).xik).filter (fun i => st.N.pinv i < 0) =
      lustepCands A st k := rfl
  rw [hcl] at hinv
  rcases hinv with ⟨_, hip, _⟩ | ⟨hmem, ha, hmax⟩
  · exact absurd (Or.inl hip) hnf
  · refine ⟨hmem, ha, hmax, rfl, ?_, ?_⟩
    · rw [hstep]
      show (lustepSuccSt A pivtol st k).N.p k = lustepPivot A pivtol st k
      rw [lustepSuccSt_p]
      exact Function.update_same k (lustepPivot A pivtol st k) st.N.p
    · rw [hstep]
      show (lustepSuccSt A pivtol st k).N.pinv (lustepPivot A pivtol st k) = k
      rw [lustepSuccSt_pinv]
      exact Function.update_same (lustepPivot A pivtol st k) k st.N.pinv

/-- Witness for C3 at the 1×1 matrix holding the value `2`: step 0
succeeds, the scanned maximum is row 0, and the pivot choice is
recorded. -/
theorem lustep_pivot_choice_w :
    (lustepScan oneValA stepStOne 0).ipiv ∈ lustepCands oneValA stepStOne 0 ∧
    (lustepScan oneValA stepStOne 0).a =
      |lustepX oneValA stepStOne 0 ((lustepScan oneValA stepStOne 0).ipiv)| ∧
    (∀ i ∈ lustepCands oneValA stepStOne 0,
      |lustepX oneValA stepStOne 0 i| ≤ (lustepScan oneValA stepStOne 0).a) ∧
    (lustepPivot oneValA (1/2) stepStOne 0 =
      if stepStOne.N.pinv (colFromQ stepStOne.N.q 0) < 0 ∧
          |lustepX oneValA stepStOne 0 (colFromQ stepStOne.N.q 0)| ≥
            (lustepScan oneValA stepStOne 0).a * (1/2)
        then colFromQ stepStOne.N.q 0 else (lustepScan oneValA stepStOne 0).ipiv) ∧
    (lustep oneValA (1/2) stepStOne 0).2.N.p 0 =
      lustepPivot oneValA (1/2) stepStOne 0 ∧
    (lustep oneValA (1/2) stepStOne 0).2.N.pinv
      (lustepPivot oneValA (1/2) stepStOne 0) = 0 :=
  lustep_pivot_choice oneValA (1/2) stepStOne 0 (by with_unfolding_all decide)

/-- C1: a matrix with an all-zero column (structurally empty or
carrying only zero values) makes `sp_ludcmp` fail — it never returns
success — provided the run ever schedules that column (`col = q[k]` or
`k`); and, more generally, a step `k` returns the failure status
exactly when either no not-yet-pivoted candidate row exists in the
reachable set or the maximum candidate magnitude is non-positive
(candidate rows being real row indices, hence nonnegative). -/
theorem sp_ludcmp_zero_column_failure :
    (∀ (N : sp_num ℚ) (A : sp_mat ℚ) (pivtol : ℚ) (c : ℤ),
      N.L.ncols = A.ncols →
      (∀ p, A.Ap c ≤ p → p < A.Ap (c + 1) → A.Ax p = 0) →
      (∃ k, 0 ≤ k ∧ k < A.ncols ∧ colFromQ N.q k = c) →
      (sp_ludcmp N A pivtol).1 = Status.failure) ∧
    (∀ (A : sp_mat ℚ) (pivtol : ℚ) (st : LuLoopSt ℚ) (k : ℤ),
      (∀ i ∈ lustepCands A st k, 0 ≤ i) →
      ((lustep A pivtol st k).1 = Status.failure ↔
        (lustepCands A st k = [] ∨
          ∀ i ∈ lustepCands A st k, |lustepX A st k i| ≤ 0))) := by
  constructor
  · intro N A pivtol c hLn hzero hsched
    obtain ⟨k, hk0, hkn, hkc⟩ := hsched
    rcases hrun : luSteps A pivtol (intRange 0 A.ncols) ⟨ludcmpInit N A, 0, 0⟩
      with ⟨s, stf⟩
    cases s with
    | failure =>
      rw [sp_ludcmp_fail_eq N A pivtol stf hrun]
    | success =>
      exfalso
      obtain ⟨stk, hsk, hncols, hq⟩ := luSteps_succ_steps A pivtol
        (intRange 0 A.ncols) ⟨ludcmpInit N A, 0, 0⟩ stf hrun k
        (mem_intRange.2 ⟨hk0, hkn⟩)
      have hncols' : stk.N.L.ncols = A.ncols := by
        rw [hncols]
        exact hLn
      have hq' : stk.N.q = N.q := hq
      have hfail := lustep_zero_col_fails A pivtol stk k hncols'
        (by
          rw [hq', hkc]
          exact hzero)
      rw [hsk] at hfail
      exact Status.noConfusion hfail
  · intro A pivtol st k hge
    rw [lustep_fail_iff]
    have hlc : lustepCands A st k =
        ((intRange (lustepReach A st k).top A.ncols).map
          (lustepReach A st k).xik).filter (fun i => st.N.pinv i < 0) := rfl
    have hinv := pivotScan_inv (lustepSt2 A st k).N.pinv (lustepX A st k)
      (lustepReach A st k).xik (lustepReach A st k).top A.ncols
      (lustepSt2 A st k).N.U.Ai (lustepSt2 A st k).N.U.Ax st.unz
    rw [lustepSt2_pinv] at hinv
    have hscan : pivotScan st.N.pinv (lustepX A st k) (lustepReach A st k).xik
        (lustepReach A st k).top A.ncols (lustepSt2 A st k).N.U.Ai
        (lustepSt2 A st k).N.U.Ax st.unz = lustepScan A st k := rfl
    rw [hscan, ← hlc] at hinv
    rcases hinv with ⟨hnil, hip, _⟩ | ⟨hmem, ha, hmax⟩
    · exact ⟨fun _ => Or.inl hnil, fun _ => Or.inl hip⟩
    · constructor
      · rintro (hip | hle)
        · exfalso
          have := hge _ hmem
          omega
        · right
          intro i hi
          have := hmax i hi
          linarith
      · rintro (hnil2 | hall)
        · rw [hnil2] at hmem
          exact absurd hmem (List.not_mem_nil _)
        · right
          rw [ha]
          exact hall _ hmem

/-- Witness for C1: the failing 1×1 run on the structurally empty
column, and the step-level failure test at the 1×1 matrix holding
`2` (one candidate of magnitude `2 > 0`, hence no failure). -/
theorem sp_ludcmp_zero_column_failure_w :
    (sp_ludcmp ctxOne emptyColA 1).1 = Status.failure ∧
    ((lustep oneValA 1 stepStOne 0).1 = Status.failure ↔
      (lustepCands oneValA stepStOne 0 = [] ∨
        ∀ i ∈ lustepCands oneValA stepStOne 0,
          |lustepX oneValA stepStOne 0 i| ≤ 0)) :=
  ⟨sp_ludcmp_zero_column_failure.1 ctxOne emptyColA 1 0 (by decide)
      (fun p _ _ => rfl) ⟨0, by decide, by decide, by decide⟩,
    sp_ludcmp_zero_column_failure.2 oneValA 1 stepStOne 0
      (by with_unfolding_all decide)⟩

/-! ## Claim C7 (counterexample part): the return value -/

/-- C7 counterexample: on a 1×1 pattern (one empty column),
`column_grouping` creates exactly one group (column 0 gets group 0,
so the set of assigned labels has size 1) yet returns 0, not 1: the
return value is not the number of groups created. -/
theorem column_grouping_return_cex :
    (column_grouping groupEmptyG (fun _ => 7) (fun _ => 7)).1 = 0 ∧
    (column_grouping groupEmptyG (fun _ => 7) (fun _ => 7)).2.1 0 = 0 ∧
    numGroups (column_grouping groupEmptyG (fun _ => 7) (fun _ => 7)).2.1 1 = 1 ∧
    (column_grouping groupEmptyG (fun _ => 7) (fun _ => 7)).1 ≠
      numGroups (column_grouping groupEmptyG (fun _ => 7) (fun _ => 7)).2.1 1 := by
  refine ⟨by decide, by decide, by decide, by decide⟩

/-- The `col_g` initialization loop shared by both groupers leaves
`-1` on `0 .. neq-1`. -/
theorem cgInit_apply (neq : ℤ) (col_g : ℤ → ℤ) {t : ℤ} (h1 : 0 ≤ t) (h2 : t < neq) :
    ((intRange 0 neq).foldl (fun f i => Function.update f i (-1)) col_g) t = -1 := by
  rw [foldl_update_const, if_pos (mem_intRange.2 ⟨h1, h2⟩)]

/-- Instantiation of the outer-loop induction at the state produced by
the initialization loop of `column_grouping`: the bundle of facts
about the completed run. -/
theorem column_grouping_run_facts (G : sp_mat ℚ) (col_g filled : ℤ → ℤ)
    (hn : 0 ≤ G.ncols) :
    -1 ≤ (column_grouping G col_g filled).1 ∧
    DisjOn G.Ap G.Ai G.ncols (column_grouping G col_g filled).2.1 ∧
    (∀ t, 0 ≤ t → t < G.ncols →
      0 ≤ (column_grouping G col_g filled).2.1 t ∧
      (column_grouping G col_g filled).2.1 t ≤ (column_grouping G col_g filled).1) ∧
    (∀ l, 0 ≤ l → l ≤ (column_grouping G col_g filled).1 →
      ∃ t, 0 ≤ t ∧ t < G.ncols ∧ (column_grouping G col_g filled).2.1 t = l) := by
  set neq := G.ncols with hneq
  set cg0 := (intRange 0 neq).foldl (fun f i => Function.update f i (-1)) col_g with hcg0
  have hcg0t : ∀ t, 0 ≤ t → t < neq → cg0 t = -1 := fun t h1 h2 =>
    cgInit_apply neq col_g h1 h2
  obtain ⟨m1, m2, m3, _, m5, m6, m7⟩ := cg1Outer_main G.Ap G.Ai neq (intRange 0 neq)
    ⟨cg0, filled⟩ (-1)
    (fun c hc => ⟨(mem_intRange.1 hc).1, (mem_intRange.1 hc).2⟩)
    (le_refl _)
    (fun t h1 h2 => le_of_eq (hcg0t t h1 h2))
    (fun t t' h1 h2 _ _ _ hge heq => by
      dsimp only at hge
      rw [hcg0t t h1 h2] at hge
      omega)
    (fun l hl1 hl2 => absurd (hl1.trans hl2) (by omega))
  have e1 : (column_grouping G col_g filled).1 =
      (cg1Outer G.Ap G.Ai neq (intRange 0 neq) ⟨cg0, filled⟩ (-1)).1 := rfl
  have e2 : (column_grouping G col_g filled).2.1 =
      (cg1Outer G.Ap G.Ai neq (intRange 0 neq) ⟨cg0, filled⟩ (-1)).2.cg := rfl
  rw [e1, e2]
  refine ⟨m1, m3, ?_, m6⟩
  intro t h1 h2
  have hne := m5 t (mem_intRange.2 ⟨h1, h2⟩)
  rcases m7 t with h | h
  · dsimp only at h
    rw [hcg0t t h1 h2] at h
    exact absurd h hne
  · exact h

/-- The equivalence induction instantiated at the freshly initialized
state: the two groupers agree on the return value and on `col_g`. -/
theorem column_grouping_eq_run (G : sp_mat ℚ) (col_g filled : ℤ → ℤ)
    (hn : 0 ≤ G.ncols) (hR : RowsInRange G.Ap G.Ai G.ncols) :
    (column_grouping G col_g filled).1 = (column_grouping2 G col_g filled).1 ∧
    ∀ t, (column_grouping G col_g filled).2.1 t =
      (column_grouping2 G col_g filled).2.1 t := by
  have hequiv := cgEquiv G.Ap G.Ai G.ncols hR (G.ncols - 0).toNat 0 0
    ⟨(intRange 0 G.ncols).foldl (fun f i => Function.update f i (-1)) col_g, filled⟩
    (le_refl _) (le_refl 0) hn (le_refl 0) (le_refl 0)
    (fun t ht1 ht2 => absurd (lt_of_le_of_lt ht1 ht2) (lt_irrefl 0))
  simp only [zero_sub] at hequiv
  exact ⟨hequiv.1, fun t => congrFun hequiv.2 t⟩

/-- C7 amended: `column_grouping` (and `column_grouping2`) assigns
every column exactly one group label, the labels are `0 .. ret`, and
the return value `ret` is the number of groups created **minus one**
(the largest group index), not the number of groups. -/
theorem column_grouping_return_value (G : sp_mat ℚ) (col_g filled : ℤ → ℤ)
    (hn : 0 ≤ G.ncols) (hR : RowsInRange G.Ap G.Ai G.ncols) :
    ((column_grouping G col_g filled).1 =
        numGroups (column_grouping G col_g filled).2.1 G.ncols - 1 ∧
      (∀ t, 0 ≤ t → t < G.ncols →
        0 ≤ (column_grouping G col_g filled).2.1 t ∧
        (column_grouping G col_g filled).2.1 t ≤ (column_grouping G col_g filled).1)) ∧
    ((column_grouping2 G col_g filled).1 =
        numGroups (column_grouping2 G col_g filled).2.1 G.ncols - 1 ∧
      (∀ t, 0 ≤ t → t < G.ncols →
        0 ≤ (column_grouping2 G col_g filled).2.1 t ∧
        (column_grouping2 G col_g filled).2.1 t ≤ (column_grouping2 G col_g filled).1)) := by
  obtain ⟨m1, _, m4, m6⟩ := column_grouping_run_facts G col_g filled hn
  obtain ⟨hr12, hc12⟩ := column_grouping_eq_run G col_g filled hn hR
  have hret : (column_grouping G col_g filled).1 =
      numGroups (column_grouping G col_g filled).2.1 G.ncols - 1 := by
    have himg : ((intRange 0 G.ncols).map (column_grouping G col_g filled).2.1).toFinset =
        Finset.Icc (0 : ℤ) (column_grouping G col_g filled).1 := by
      ext x
      rw [List.mem_toFinset, List.mem_map, Finset.mem_Icc]
      constructor
      · rintro ⟨t, ht, rfl⟩
        exact m4 t (mem_intRange.1 ht).1 (mem_intRange.1 ht).2
      · rintro ⟨hx1, hx2⟩
        obtain ⟨t, ht1, ht2, ht3⟩ := m6 x hx1 hx2
        exact ⟨t, mem_intRange.2 ⟨ht1, ht2⟩, ht3⟩
    unfold numGroups
    rw [himg]
    have hcard := Int.card_Icc_of_le (a := (0 : ℤ))
      (b := (column_grouping G col_g filled).1) (by omega)
    omega
  refine ⟨⟨hret, m4⟩, ?_, ?_⟩
  · rw [← hr12, hret]
    have : numGroups (column_grouping G col_g filled).2.1 G.ncols =
        numGroups (column_grouping2 G col_g filled).2.1 G.ncols := by
      unfold numGroups
      congr 1
      rw [List.map_congr_left fun t _ => hc12 t]
    omega
  · intro t h1 h2
    rw [← hr12, ← hc12 t]
    exact m4 t h1 h2

/-- C8: after either grouper completes on a well-formed pattern, every
column of `0 .. neq-1` holds a (nonnegative) group assignment and any
two distinct columns with the same group number have disjoint nonzero
row sets. -/
theorem column_grouping_same_group_disjoint (G : sp_mat ℚ) (col_g filled : ℤ → ℤ)
    (hn : 0 ≤ G.ncols) (hR : RowsInRange G.Ap G.Ai G.ncols) :
    ((∀ t, 0 ≤ t → t < G.ncols → 0 ≤ (column_grouping G col_g filled).2.1 t) ∧
      DisjOn G.Ap G.Ai G.ncols (column_grouping G col_g filled).2.1) ∧
    ((∀ t, 0 ≤ t → t < G.ncols → 0 ≤ (column_grouping2 G col_g filled).2.1 t) ∧
      DisjOn G.Ap G.Ai G.ncols (column_grouping2 G col_g filled).2.1) := by
  obtain ⟨_, m3, m4, _⟩ := column_grouping_run_facts G col_g filled hn
  obtain ⟨_, hc12⟩ := column_grouping_eq_run G col_g filled hn hR
  refine ⟨⟨fun t h1 h2 => (m4 t h1 h2).1, m3⟩, ?_, ?_⟩
  · intro t h1 h2
    rw [← hc12 t]
    exact (m4 t h1 h2).1
  · intro t t' h1 h2 h3 h4 hne hge heq
    rw [← hc12 t] at hge
    rw [← hc12 t, ← hc12 t'] at heq
    exact m3 t t' h1 h2 h3 h4 hne hge heq

/-- C9: the two column groupers are externally equivalent — on any
well-formed pattern they return the same value and compute the same
group assignment for every column. -/
theorem column_grouping_equiv (G : sp_mat ℚ) (col_g filled : ℤ → ℤ)
    (hn : 0 ≤ G.ncols) (hR : RowsInRange G.Ap G.Ai G.ncols) :
    (column_grouping G col_g filled).1 = (column_grouping2 G col_g filled).1 ∧
    ∀ t, (column_grouping G col_g filled).2.1 t =
      (column_grouping2 G col_g filled).2.1 t :=
  column_grouping_eq_run G col_g filled hn hR

/-- Witness for C7 at the 3×3 example pattern. -/
theorem column_grouping_return_value_w :
    (column_grouping group3G (fun _ => 7) (fun _ => 7)).1 =
      numGroups (column_grouping group3G (fun _ => 7) (fun _ => 7)).2.1 3 - 1 ∧
    0 ≤ (column_grouping2 group3G (fun _ => 7) (fun _ => 7)).2.1 1 := by
  have h := column_grouping_return_value group3G (fun _ => 7) (fun _ => 7)
    (by decide) (by decide)
  exact ⟨h.1.1, (h.2.2 1 (by decide) (by decide)).1⟩

/-- Witness for C8 at the 3×3 example pattern: columns 0 and 2 land in
the same group and indeed have disjoint row sets. -/
theorem column_grouping_same_group_disjoint_w :
    0 ≤ (column_grouping group3G (fun _ => 7) (fun _ => 7)).2.1 0 ∧
    ColsDisj group3G.Ap group3G.Ai 0 2 := by
  have h := column_grouping_same_group_disjoint group3G (fun _ => 7) (fun _ => 7)
    (by decide) (by decide)
  refine ⟨h.1.1 0 (by decide) (by decide), ?_⟩
  exact h.1.2 0 2 (by decide) (by decide) (by decide) (by decide) (by decide)
    (by decide) (by decide)

/-- Witness for C9 at the 3×3 example pattern. -/
theorem column_grouping_equiv_w :
    (column_grouping group3G (fun _ => 7) (fun _ => 7)).1 =
      (column_grouping2 group3G (fun _ => 7) (fun _ => 7)).1 ∧
    (column_grouping group3G (fun _ => 7) (fun _ => 7)).2.1 2 =
      (column_grouping2 group3G (fun _ => 7) (fun _ => 7)).2.1 2 := by
  have h := column_grouping_equiv group3G (fun _ => 7) (fun _ => 7) (by decide) (by decide)
  exact ⟨h.1, h.2 2⟩

end Lasagna
